import Mathlib

/-!
Verification of the core path utilities, prune propagation, bounded file
reading, destination writing and orchestration logic of the
clone_pseudo_fs utility (src/src/clone_pseudo_fs.cpp), via a shallow
embedding in Lean.  C++ std::string values are modelled as lists of
characters; std::filesystem path operations are modelled textually for
the canonical/lexically-normal paths the program manipulates.
-/

namespace ClonePseudoFs

/-- A C++ std::string, modelled as a list of characters. -/
abbrev Str := List Char

/-- Linux errno value for EDOM, used by split_path. -/
def EDOM : Nat := 33

/-- Linux errno value for EINVAL, used by split_path. -/
def EINVAL : Nat := 22

/-- Textual parent-path reduction: models fs::path::parent_path for the
absolute, lexically normal (canonical) paths the program feeds it: drop
the trailing filename back to (not including) the last separator; a path
whose only separator is the leading root keeps the root; a path with no
separator reduces to the empty path. -/
def parent_path (p : Str) : Str :=
  let r := p.reverse.dropWhile (fun x => x ≠ '/')
  if r = [] then []
  else if r.length = 1 then ['/']
  else r.tail.reverse

/-- The do-while loop of path_contains_canon (clone_pseudo_fs.cpp:931-935):
step the needle back to its parent until its size is no longer greater
than the haystack size.  Fuel bounds the number of parent steps; the C++
loop terminates on canonical inputs because each step shortens the path. -/
def pcc_loop (hay : Str) (fuel : Nat) (c : Str) : Bool :=
  match fuel with
  | 0 => false
  | fuel + 1 =>
    if hay.length < (parent_path c).length then pcc_loop hay fuel (parent_path c)
    else if (parent_path c).length < hay.length then false
    else parent_path c == hay

/-- path_contains_canon (clone_pseudo_fs.cpp:917-940): textual containment
test for canonical paths, by repeated parent-path reduction of the needle. -/
def path_contains_canon (haystack_c_pt needle_c_pt : Str) : Bool :=
  if needle_c_pt.length == haystack_c_pt.length then needle_c_pt == haystack_c_pt
  else if needle_c_pt.length < haystack_c_pt.length then false
  else pcc_loop haystack_c_pt needle_c_pt.length needle_c_pt

/-- The maximal nonempty slash-free runs of a string.  This is exactly the
component sequence that the loops of split_path and path_depth
(clone_pseudo_fs.cpp:1002-1009) collect from an fs::path: iterating an
fs::path yields the root component (skipped, it starts with a slash),
empty components (skipped) and the slash-free names, in order. -/
def chunksF : Nat → Str → List Str
  | 0, _ => []
  | _, [] => []
  | f + 1, c :: rest =>
    if c = '/' then chunksF f rest
    else (c :: rest).takeWhile (fun x => x ≠ '/') ::
         chunksF f (rest.dropWhile (fun x => x ≠ '/'))

/-- The component collection itself; the fuel of chunksF only serves
structural termination and s.length always suffices. -/
def chunks (s : Str) : List Str := chunksF s.length s

/-- split_path (clone_pseudo_fs.cpp:976-1011): split par_pt_s into the
sequence of components below base_pt_s.  The containment test that guards
EDOM is made against the program's source root (op->source_pt), passed
here as source_pt. -/
def split_path (par_pt_s base_pt_s source_pt : Str) : List Str × Option Nat :=
  if base_pt_s = par_pt_s then ([], none)
  else if path_contains_canon source_pt par_pt_s = false then ([], some EDOM)
  else if base_pt_s.length = par_pt_s.length then ([], none)
  else if par_pt_s.length < base_pt_s.length then ([], some EINVAL)
  else (chunks (par_pt_s.drop base_pt_s.length), none)

/-- A valid path component: nonempty and slash-free. -/
def okComp (c : Str) : Prop := c ≠ [] ∧ '/' ∉ c

instance : DecidablePred okComp := fun c => by unfold okComp; infer_instance

/-- All components of a list are valid. -/
def okComps (l : List Str) : Prop := ∀ c ∈ l, okComp c

instance : DecidablePred okComps := fun l => by unfold okComps; infer_instance

/-- Interleave components with slash separators (no leading slash). -/
def ic : List Str → Str
  | [] => []
  | [c] => c
  | c :: d :: rest => c ++ '/' :: ic (d :: rest)

/-- Render an absolute lexically normal path from its component list;
the empty list renders as the root path. -/
def render (cs : List Str) : Str := '/' :: ic cs

/-- H is an initial segment of N. -/
def PrefixOf {α : Type} (H N : List α) : Prop := N.take H.length = H

instance {α : Type} [DecidableEq α] : ∀ H N : List α, Decidable (PrefixOf H N) :=
  fun H N => by unfold PrefixOf; infer_instance

/-- H is a strictly shorter initial segment of N. -/
def ProperPrefixOf {α : Type} (H N : List α) : Prop := PrefixOf H N ∧ H ≠ N

instance {α : Type} [DecidableEq α] :
    ∀ H N : List α, Decidable (ProperPrefixOf H N) :=
  fun H N => by unfold ProperPrefixOf; infer_instance

theorem okComps_sub {l m : List Str} (h : okComps l) (hs : m ⊆ l) : okComps m :=
  fun c hc => h c (hs hc)

theorem ic_cons_cons (c d : Str) (rest : List Str) :
    ic (c :: d :: rest) = c ++ '/' :: ic (d :: rest) := rfl

theorem ic_append (a b : List Str) (ha : a ≠ []) (hb : b ≠ []) :
    ic (a ++ b) = ic a ++ '/' :: ic b := by
  induction a with
  | nil => simp at ha
  | cons c t ih =>
    cases t with
    | nil =>
      cases b with
      | nil => simp at hb
      | cons d r => simp [ic]
    | cons d r =>
      have h3 : ic (c :: ((d :: r) ++ b)) = c ++ '/' :: ic ((d :: r) ++ b) := by
        cases b <;> rfl
      have h4 : (c :: d :: r) ++ b = c :: ((d :: r) ++ b) := by simp
      rw [h4, h3, ih (by simp)]
      simp [ic_cons_cons]

theorem render_append (cs : List Str) (c : Str) :
    render (cs ++ [c]) = render cs ++ (if cs = [] then c else '/' :: c) := by
  cases cs with
  | nil => simp [render, ic]
  | cons d t =>
    simp only [render]
    rw [ic_append (d :: t) [c] (by simp) (by simp)]
    simp [ic]

theorem length_render_append (cs : List Str) (c : Str) (hc : okComp c) :
    (render cs).length < (render (cs ++ [c])).length := by
  rw [render_append]
  rcases hc with ⟨hne, _⟩
  have : c.length > 0 := List.length_pos.mpr hne
  by_cases h : cs = [] <;> simp [h] <;> omega

theorem dropWhile_append_of_all {p : Char → Bool} {a b : Str}
    (ha : ∀ x ∈ a, p x = true) : (a ++ b).dropWhile p = b.dropWhile p := by
  induction a with
  | nil => simp
  | cons c t ih =>
    simp only [List.cons_append, List.dropWhile_cons]
    rw [ha c (by simp)]
    simp only [if_true]
    exact ih (fun x hx => ha x (by simp [hx]))

theorem ne_slash_all_of_okComp {c : Str} (h : '/' ∉ c) :
    ∀ x ∈ c.reverse, (fun x => decide (x ≠ '/')) x = true := by
  intro x hx
  simp only [decide_eq_true_eq]
  intro hxe
  exact h (by simpa [hxe] using List.mem_reverse.mp hx)

theorem parent_path_render (cs : List Str) (c : Str) (hc : okComp c) :
    parent_path (render (cs ++ [c])) = render cs := by
  rcases hc with ⟨hne, hns⟩
  rw [render_append]
  by_cases h : cs = []
  · subst h
    have hfull : render [] ++ (if ([] : List Str) = [] then c else '/' :: c)
        = '/' :: c := by simp [render, ic]
    rw [hfull]
    unfold parent_path
    have h1 : ('/' :: c).reverse = c.reverse ++ ['/'] := by simp
    rw [h1, dropWhile_append_of_all (ne_slash_all_of_okComp hns)]
    simp [List.dropWhile, render, ic]
  · have hfull : render cs ++ (if cs = [] then c else '/' :: c)
        = render cs ++ '/' :: c := by simp [h]
    rw [hfull]
    unfold parent_path
    have h1 : (render cs ++ '/' :: c).reverse
        = c.reverse ++ '/' :: (render cs).reverse := by simp
    rw [h1, dropWhile_append_of_all (ne_slash_all_of_okComp hns)]
    have h2 : ('/' :: (render cs).reverse : Str).dropWhile (fun x => decide (x ≠ '/'))
        = '/' :: (render cs).reverse := by
      simp [List.dropWhile]
    rw [h2]
    have h3 : ('/' :: (render cs).reverse : Str) ≠ [] := by simp
    have h4 : ('/' :: (render cs).reverse : Str).length ≠ 1 := by
      simp [render]
    simp only [h3, h4, if_false]
    simp

theorem parent_path_root : parent_path ['/'] = ['/'] := by
  decide

theorem render_ne_nil (cs : List Str) : render cs ≠ [] := by simp [render]

theorem length_render_pos (cs : List Str) : 0 < (render cs).length := by
  simp [render]

theorem length_take_render (N : List Str) (k : Nat) :
    ((N.take k).length) = min k N.length := by
  simp

theorem PrefixOf_length_le {α : Type} {H N : List α} (h : PrefixOf H N) :
    H.length ≤ N.length := by
  unfold PrefixOf at h
  have := congrArg List.length h
  simp at this
  omega

theorem PrefixOf_refl {α : Type} (N : List α) : PrefixOf N N := by
  unfold PrefixOf; simp

theorem PrefixOf_take {α : Type} (N : List α) (k : Nat) : PrefixOf (N.take k) N := by
  unfold PrefixOf
  rw [List.length_take]
  by_cases h : k ≤ N.length
  · simp [Nat.min_eq_left h]
  · have h2 : N.length ≤ k := by omega
    simp [Nat.min_eq_right h2, List.take_of_length_le h2]

theorem PrefixOf_of_eq_take {α : Type} {H N : List α} {k : Nat} (h : H = N.take k) :
    PrefixOf H N := h ▸ PrefixOf_take N k

theorem render_take_succ (N : List Str) (hN : okComps N) (k : Nat)
    (hk : k < N.length) :
    (render (N.take k)).length < (render (N.take (k + 1))).length := by
  have h1 : N.take (k + 1) = N.take k ++ [N[k]] := by
    rw [List.take_succ]
    simp [List.getElem?_eq_getElem hk]
  rw [h1]
  have hmem : N[k] ∈ N := List.getElem_mem hk
  exact length_render_append _ _ (hN _ hmem)

theorem render_take_lt (N : List Str) (hN : okComps N) {k l : Nat}
    (hkl : k < l) (hl : l ≤ N.length) :
    (render (N.take k)).length < (render (N.take l)).length := by
  induction l with
  | zero => omega
  | succ m ih =>
    rcases Nat.lt_succ_iff_lt_or_eq.mp hkl with h | h
    · exact lt_trans (ih h (by omega)) (render_take_succ N hN m (by omega))
    · subst h; exact render_take_succ N hN k (by omega)

theorem render_take_le (N : List Str) (hN : okComps N) {k l : Nat}
    (hkl : k ≤ l) (hl : l ≤ N.length) :
    (render (N.take k)).length ≤ (render (N.take l)).length := by
  rcases Nat.lt_or_ge k l with h | h
  · exact le_of_lt (render_take_lt N hN h hl)
  · have : k = l := by omega
    subst this; exact le_refl _

theorem lt_of_render_take_lt (N : List Str) (hN : okComps N) {k l : Nat}
    (hk : k ≤ N.length) (hl : l ≤ N.length)
    (h : (render (N.take k)).length < (render (N.take l)).length) : k < l := by
  by_contra hc
  have h2 : l ≤ k := by omega
  have := render_take_le N hN h2 hk
  omega

theorem eq_of_render_take_eq (N : List Str) (hN : okComps N) {k l : Nat}
    (hk : k ≤ N.length) (hl : l ≤ N.length)
    (h : (render (N.take k)).length = (render (N.take l)).length) : k = l := by
  by_contra hc
  rcases Nat.lt_or_ge k l with h2 | h2
  · have := render_take_lt N hN h2 hl; omega
  · have h3 : l < k := by omega
    have := render_take_lt N hN h3 hk; omega

theorem length_le_length_render (N : List Str) (hN : okComps N) :
    N.length ≤ (render N).length := by
  induction N using List.reverseRecOn with
  | nil => simp [render, ic]
  | append_singleton cs c ih =>
    have hcs : okComps cs := okComps_sub hN (by intro x hx; simp [hx])
    have hc : okComp c := hN c (by simp)
    have := length_render_append cs c hc
    have := ih hcs
    simp only [List.length_append, List.length_singleton]
    omega

theorem takeWhile_no_slash {c : Str} (h : '/' ∉ c) :
    c.takeWhile (fun x => decide (x ≠ '/')) = c := by
  rw [List.takeWhile_eq_self_iff]
  intro x hx
  simp only [decide_eq_true_eq]
  intro hxe
  exact h (hxe ▸ hx)

theorem dropWhile_no_slash {c : Str} (h : '/' ∉ c) :
    c.dropWhile (fun x => decide (x ≠ '/')) = [] := by
  rw [List.dropWhile_eq_nil_iff]
  intro x hx
  simp only [decide_eq_true_eq]
  intro hxe
  exact h (hxe ▸ hx)

theorem takeWhile_append_slash (c r : Str) (h : '/' ∉ c) :
    (c ++ '/' :: r).takeWhile (fun x => decide (x ≠ '/')) = c := by
  induction c with
  | nil => simp [List.takeWhile]
  | cons a t ih =>
    have ha : a ≠ '/' := by intro he; exact h (by simp [he])
    have ht : '/' ∉ t := fun hm => h (by simp [hm])
    have hd : (fun x => decide (x ≠ '/')) a = true := by
      simp only [decide_eq_true_eq]; exact ha
    simp only [List.cons_append, List.takeWhile_cons, hd, if_true]
    rw [ih ht]

theorem dropWhile_append_slash (c r : Str) (h : '/' ∉ c) :
    (c ++ '/' :: r).dropWhile (fun x => decide (x ≠ '/')) = '/' :: r := by
  have hall : ∀ x ∈ c, (fun x => decide (x ≠ '/')) x = true := by
    intro x hx
    simp only [decide_eq_true_eq]
    intro hxe
    exact h (hxe ▸ hx)
  rw [dropWhile_append_of_all hall]
  simp [List.dropWhile]

theorem ic_takeWhile (c : Str) (t : List Str) (hc : '/' ∉ c) (hcne : c ≠ []) :
    (ic (c :: t)).takeWhile (fun x => decide (x ≠ '/')) = c := by
  cases t with
  | nil => exact takeWhile_no_slash hc
  | cons d r =>
    rw [ic_cons_cons]
    exact takeWhile_append_slash c _ hc

theorem ic_dropWhile_nil (c : Str) (hc : '/' ∉ c) :
    (ic [c]).dropWhile (fun x => decide (x ≠ '/')) = [] :=
  dropWhile_no_slash hc

theorem ic_dropWhile_cons (c d : Str) (r : List Str) (hc : '/' ∉ c) :
    (ic (c :: d :: r)).dropWhile (fun x => decide (x ≠ '/'))
      = '/' :: ic (d :: r) := by
  rw [ic_cons_cons]
  exact dropWhile_append_slash c _ hc

theorem ic_ne_nil (c : Str) (t : List Str) (hc : c ≠ []) : ic (c :: t) ≠ [] := by
  cases t with
  | nil => simpa [ic] using hc
  | cons d r =>
    rw [ic_cons_cons]
    simp

theorem ic_inj (a : List Str) : ∀ (b : List Str), okComps a → okComps b →
    ic a = ic b → a = b := by
  induction a with
  | nil =>
    intro b _ hb h
    cases b with
    | nil => rfl
    | cons d s =>
      exact absurd h.symm (ic_ne_nil d s (hb d (by simp)).1)
  | cons c t ih =>
    intro b ha hb h
    cases b with
    | nil =>
      exact absurd h (ic_ne_nil c t (ha c (by simp)).1)
    | cons d s =>
      have hcn : '/' ∉ c := (ha c (by simp)).2
      have hdn : '/' ∉ d := (hb d (by simp)).2
      have hcd : c = d := by
        have h1 := ic_takeWhile c t hcn (ha c (by simp)).1
        have h2 := ic_takeWhile d s hdn (hb d (by simp)).1
        rw [← h1, ← h2, h]
      subst hcd
      have hts : t = s := by
        cases t with
        | nil =>
          cases s with
          | nil => rfl
          | cons e u =>
            exfalso
            have h1 := ic_dropWhile_nil c hcn
            have h2 := ic_dropWhile_cons c e u hcn
            rw [h] at h1
            rw [h2] at h1
            simp at h1
        | cons e u =>
          cases s with
          | nil =>
            exfalso
            have h1 := ic_dropWhile_cons c e u hcn
            have h2 := ic_dropWhile_nil c hcn
            rw [h] at h1
            rw [h2] at h1
            simp at h1
          | cons f v =>
            have h1 := ic_dropWhile_cons c e u hcn
            have h2 := ic_dropWhile_cons c f v hcn
            rw [h] at h1
            rw [h2] at h1
            simp only [List.cons.injEq, true_and] at h1
            exact ih (f :: v) (okComps_sub ha (by intro x hx; simp [hx]))
              (okComps_sub hb (by intro x hx; simp [hx])) h1.symm
      rw [hts]

theorem render_inj {a b : List Str} (ha : okComps a) (hb : okComps b)
    (h : render a = render b) : a = b := by
  unfold render at h
  simp only [List.cons.injEq, true_and] at h
  exact ic_inj a b ha hb h

theorem chunksF_nil : ∀ f, chunksF f [] = [] := by
  intro f
  cases f <;> rfl

theorem chunksF_cons (f : Nat) (c : Char) (rest : Str) :
    chunksF (f + 1) (c :: rest) = if c = '/' then chunksF f rest
      else (c :: rest).takeWhile (fun x => x ≠ '/') ::
           chunksF f (rest.dropWhile (fun x => x ≠ '/')) := rfl

theorem chunksF_congr : ∀ (f g : Nat) (s : Str), s.length ≤ f →
    s.length ≤ g → chunksF f s = chunksF g s := by
  intro f
  induction f with
  | zero =>
    intro g s hf _
    have hs : s = [] := List.length_eq_zero.mp (Nat.le_zero.mp hf)
    subst hs
    rw [chunksF_nil, chunksF_nil]
  | succ f ih =>
    intro g s hf hg
    cases s with
    | nil => rw [chunksF_nil, chunksF_nil]
    | cons c rest =>
      cases g with
      | zero => simp at hg
      | succ g =>
        rw [chunksF_cons, chunksF_cons]
        have hr : rest.length ≤ f := by
          simp only [List.length_cons] at hf
          omega
        have hrg : rest.length ≤ g := by
          simp only [List.length_cons] at hg
          omega
        by_cases h : c = '/'
        · rw [if_pos h, if_pos h]
          exact ih g rest hr hrg
        · rw [if_neg h, if_neg h]
          congr 1
          have hd : (rest.dropWhile (fun x => decide (x ≠ '/'))).length
              ≤ rest.length :=
            (List.dropWhile_sublist _).length_le
          exact ih g _ (by omega) (by omega)

theorem chunks_cons (c : Char) (rest : Str) :
    chunks (c :: rest) = if c = '/' then chunks rest
      else (c :: rest).takeWhile (fun x => x ≠ '/') ::
           chunks (rest.dropWhile (fun x => x ≠ '/')) := by
  show chunksF ((c :: rest).length) (c :: rest) = _
  have hl : (c :: rest).length = rest.length + 1 := rfl
  rw [hl, chunksF_cons]
  by_cases h : c = '/'
  · rw [if_pos h, if_pos h]
    rfl
  · rw [if_neg h, if_neg h]
    congr 1
    have hd : (rest.dropWhile (fun x => decide (x ≠ '/'))).length
        ≤ rest.length :=
      (List.dropWhile_sublist _).length_le
    exact chunksF_congr rest.length _ _ hd (le_refl _)

theorem chunks_slash_cons (x : Str) : chunks ('/' :: x) = chunks x := by
  rw [chunks_cons]
  simp

theorem chunks_ic (R : List Str) (hR : okComps R) : chunks (ic R) = R := by
  induction R with
  | nil => rfl
  | cons c t ih =>
    have hc : okComp c := hR c (by simp)
    rcases hc with ⟨hcne, hcns⟩
    have hts : okComps t := okComps_sub hR (by intro x hx; simp [hx])
    cases t with
    | nil =>
      cases c with
      | nil => exact absurd rfl hcne
      | cons a u =>
        have hans : a ≠ '/' := by intro he; exact hcns (by simp [he])
        have huns : '/' ∉ u := fun hm => hcns (by simp [hm])
        show chunks (a :: u) = [a :: u]
        rw [chunks_cons]
        simp only [hans, if_false]
        have h1 : (a :: u).takeWhile (fun x => decide (x ≠ '/')) = a :: u :=
          takeWhile_no_slash hcns
        have h2 : u.dropWhile (fun x => decide (x ≠ '/')) = [] :=
          dropWhile_no_slash huns
        rw [h1, h2]
        rfl
    | cons d r =>
      cases c with
      | nil => exact absurd rfl hcne
      | cons a u =>
        have hans : a ≠ '/' := by intro he; exact hcns (by simp [he])
        have huns : '/' ∉ u := fun hm => hcns (by simp [hm])
        rw [ic_cons_cons]
        have hform : (a :: u) ++ '/' :: ic (d :: r)
            = a :: (u ++ '/' :: ic (d :: r)) := by simp
        rw [hform, chunks_cons]
        simp only [hans, if_false]
        have h1 : (a :: (u ++ '/' :: ic (d :: r))).takeWhile
            (fun x => decide (x ≠ '/')) = a :: u := by
          have := takeWhile_append_slash (a :: u) (ic (d :: r)) hcns
          simpa using this
        have h2 : (u ++ '/' :: ic (d :: r)).dropWhile
            (fun x => decide (x ≠ '/')) = '/' :: ic (d :: r) :=
          dropWhile_append_slash u _ huns
        rw [h1, h2, chunks_slash_cons, ih hts]

theorem PrefixOf_dropLast {H M : List Str} (h : PrefixOf H M.dropLast) :
    PrefixOf H M := by
  unfold PrefixOf at *
  have hlen : H.length ≤ M.dropLast.length := by
    have := congrArg List.length h
    simp only [List.length_take] at this
    omega
  rw [List.length_dropLast] at hlen
  rw [List.dropLast_eq_take, List.take_take] at h
  have hmin : min H.length (M.length - 1) = H.length := by omega
  rw [hmin] at h
  exact h

theorem okComps_dropLast {M : List Str} (hM : okComps M) : okComps M.dropLast := by
  apply okComps_sub hM
  rw [List.dropLast_eq_take]
  exact List.take_subset _ _

theorem okComps_take {M : List Str} (hM : okComps M) (k : Nat) :
    okComps (M.take k) :=
  okComps_sub hM (List.take_subset _ _)

theorem pcc_loop_eq (H : List Str) (hH : okComps H) :
    ∀ fuel, ∀ M : List Str, okComps M → M ≠ [] →
    (render H).length < (render M).length →
    M.length ≤ fuel →
    (pcc_loop (render H) fuel (render M) = true ↔ PrefixOf H M) := by
  intro fuel
  induction fuel with
  | zero =>
    intro M _ hne _ hf
    exact absurd (List.length_eq_zero.mp (Nat.le_zero.mp hf)) hne
  | succ fuel ih =>
    intro M hM hne hlen hf
    have hMd : M = M.dropLast ++ [M.getLast hne] :=
      (List.dropLast_append_getLast hne).symm
    have hlast : okComp (M.getLast hne) := hM _ (List.getLast_mem hne)
    have hpar : parent_path (render M) = render M.dropLast := by
      conv_lhs => rw [hMd]
      exact parent_path_render _ _ hlast
    have hMdok : okComps M.dropLast := okComps_dropLast hM
    have hMlen : 1 ≤ M.length := by
      cases M with
      | nil => exact absurd rfl hne
      | cons a t => simp
    rw [pcc_loop, hpar]
    by_cases hA : (render H).length < (render M.dropLast).length
    · rw [if_pos hA]
      have hdne : M.dropLast ≠ [] := by
        intro he
        rw [he] at hA
        have h1 : (render ([] : List Str)).length = 1 := by simp [render, ic]
        have h2 := length_render_pos H
        omega
      have hdlen : M.dropLast.length ≤ fuel := by
        rw [List.length_dropLast]; omega
      rw [ih M.dropLast hMdok hdne hA hdlen]
      constructor
      · exact PrefixOf_dropLast
      · intro hp
        have hHt : render H = render (M.take H.length) := by
          unfold PrefixOf at hp
          rw [hp]
        have hHlen : H.length ≤ M.length := PrefixOf_length_le hp
        have e2 : render M.dropLast = render (M.take (M.length - 1)) := by
          rw [List.dropLast_eq_take]
        have hlt : H.length < M.length - 1 := by
          apply lt_of_render_take_lt M hM hHlen (by omega)
          rw [← hHt, ← e2]
          exact hA
        unfold PrefixOf
        rw [List.dropLast_eq_take, List.take_take]
        have hmin : min H.length (M.length - 1) = H.length := by omega
        rw [hmin]
        exact hp
    · by_cases hB : (render M.dropLast).length < (render H).length
      · rw [if_neg hA, if_pos hB]
        constructor
        · intro hfalse; exact absurd hfalse (by simp)
        · intro hp
          exfalso
          have hHt : render H = render (M.take H.length) := by
            unfold PrefixOf at hp
            rw [hp]
          have hHlen : H.length ≤ M.length := PrefixOf_length_le hp
          have hHlt : H.length < M.length := by
            apply lt_of_render_take_lt M hM hHlen (le_refl _)
            rw [← hHt]
            rw [List.take_length]
            exact hlen
          have hle : (render (M.take H.length)).length
              ≤ (render (M.take (M.length - 1))).length :=
            render_take_le M hM (by omega) (by omega)
          rw [← hHt, ← List.dropLast_eq_take] at hle
          omega
      · rw [if_neg hA, if_neg hB]
        have hEq : (render M.dropLast).length = (render H).length := by omega
        rw [beq_iff_eq]
        constructor
        · intro he
          have : M.dropLast = H := render_inj hMdok hH he
          apply PrefixOf_dropLast
          rw [this]
          exact PrefixOf_refl H
        · intro hp
          have hHt : render H = render (M.take H.length) := by
            unfold PrefixOf at hp
            rw [hp]
          have hHlen : H.length ≤ M.length := PrefixOf_length_le hp
          have heq2 : H.length = M.length - 1 := by
            apply eq_of_render_take_eq M hM hHlen (by omega)
            rw [← hHt, ← List.dropLast_eq_take]
            omega
          have : M.dropLast = H := by
            rw [List.dropLast_eq_take, ← heq2]
            unfold PrefixOf at hp
            exact hp
          rw [this]

theorem path_contains_canon_iff_PrefixOf (H N : List Str)
    (hH : okComps H) (hN : okComps N) :
    (path_contains_canon (render H) (render N) = true ↔ PrefixOf H N) := by
  unfold path_contains_canon
  by_cases h1 : (render N).length = (render H).length
  · rw [if_pos (by simpa using h1)]
    rw [beq_iff_eq]
    constructor
    · intro he
      have : N = H := render_inj hN hH he
      rw [this]
      exact PrefixOf_refl H
    · intro hp
      have hHlen : H.length ≤ N.length := PrefixOf_length_le hp
      have hHt : render H = render (N.take H.length) := by
        unfold PrefixOf at hp
        rw [hp]
      have hlen : H.length = N.length := by
        apply eq_of_render_take_eq N hN hHlen (le_refl _)
        rw [← hHt, List.take_length]
        omega
      unfold PrefixOf at hp
      rw [hlen, List.take_length] at hp
      rw [hp]
  · rw [if_neg (by simpa using h1)]
    by_cases h2 : (render N).length < (render H).length
    · rw [if_pos h2]
      constructor
      · intro hfalse
        simp at hfalse
      · intro hp
        exfalso
        have hHlen : H.length ≤ N.length := PrefixOf_length_le hp
        have hHt : render H = render (N.take H.length) := by
          unfold PrefixOf at hp
          rw [hp]
        have hle := render_take_le N hN hHlen (le_refl N.length)
        rw [← hHt, List.take_length] at hle
        omega
    · rw [if_neg h2]
      have hlen : (render H).length < (render N).length := by omega
      have hne : N ≠ [] := by
        intro he
        subst he
        have h1 : (render ([] : List Str)).length = 1 := by simp [render, ic]
        have h2 := length_render_pos H
        omega
      exact pcc_loop_eq H hH (render N).length N hN hne hlen
        (length_le_length_render N hN)

theorem PrefixOf_length_lt {α : Type} {B P : List α} (h : PrefixOf B P) (hne : B ≠ P) :
    B.length < P.length := by
  have hle := PrefixOf_length_le h
  rcases Nat.lt_or_ge B.length P.length with hlt | hge
  · exact hlt
  · exfalso
    have heq : B.length = P.length := by omega
    unfold PrefixOf at h
    rw [heq, List.take_length] at h
    exact hne h.symm

theorem render_length_lt_of_PrefixOf {B P : List Str} (hP : okComps P)
    (h : PrefixOf B P) (hne : B ≠ P) :
    (render B).length < (render P).length := by
  have hlt := PrefixOf_length_lt h hne
  have hBt : render B = render (P.take B.length) := by
    unfold PrefixOf at h
    rw [h]
  have h2 := render_take_lt P hP hlt (le_refl _)
  rw [List.take_length] at h2
  rw [hBt]
  exact h2

theorem chunks_render_drop (B R : List Str) (hB : okComps B) (hR : okComps R)
    (hRne : R ≠ []) :
    chunks ((render (B ++ R)).drop (render B).length) = R := by
  by_cases hBnil : B = []
  · subst hBnil
    have h1 : (render ([] : List Str)).length = 1 := by simp [render, ic]
    rw [List.nil_append, h1]
    have h2 : (render R).drop 1 = ic R := by simp [render]
    rw [h2]
    exact chunks_ic R hR
  · have h1 : render (B ++ R) = '/' :: (ic B ++ '/' :: ic R) := by
      unfold render
      rw [ic_append B R hBnil hRne]
    have h2 : (render B).length = 1 + (ic B).length := by
      simp [render, Nat.add_comm]
    rw [h1, h2]
    have h3 : ('/' :: (ic B ++ '/' :: ic R) : Str).drop (1 + (ic B).length)
        = (ic B ++ '/' :: ic R).drop (ic B).length := by
      rw [Nat.add_comm]
      simp [List.drop_succ_cons]
    rw [h3, List.drop_left]
    rw [chunks_slash_cons]
    exact chunks_ic R hR

/-- C1 counterexample: with source root "/a", parent path "/a/c" and base
"/a/b", the parent is not contained in the base, yet split_path succeeds
with an empty component list instead of failing with EDOM, because its
containment test is made against the source root, not against base. -/
theorem C1_counterexample :
    path_contains_canon ['/', 'a', '/', 'b'] ['/', 'a', '/', 'c'] = false ∧
    split_path ['/', 'a', '/', 'c'] ['/', 'a', '/', 'b'] ['/', 'a']
      = ([], none) := by
  constructor
  · decide
  · decide

/-- split_path with base equal to the configured source root: EDOM
exactly when par is not contained in the source, otherwise the leaf
components of par strictly below it. -/
theorem split_path_source_eq (B P : List Str) (hB : okComps B)
    (hP : okComps P) :
    split_path (render P) (render B) (render B) =
      if PrefixOf B P then (P.drop B.length, none) else ([], some EDOM) := by
  unfold split_path
  by_cases hEq : render B = render P
  · rw [if_pos hEq]
    have hBP : B = P := render_inj hB hP hEq
    subst hBP
    rw [if_pos (PrefixOf_refl B)]
    rw [List.drop_length]
  · rw [if_neg hEq]
    by_cases hpre : PrefixOf B P
    · have hcc : path_contains_canon (render B) (render P) = true :=
        (path_contains_canon_iff_PrefixOf B P hB hP).mpr hpre
      rw [hcc]
      have hBne : B ≠ P := fun h => hEq (by rw [h])
      have hlt : (render B).length < (render P).length :=
        render_length_lt_of_PrefixOf hP hpre hBne
      rw [if_neg (by simp), if_neg (by omega), if_neg (by omega)]
      rw [if_pos hpre]
      have hPsplit : B ++ P.drop B.length = P := by
        conv_rhs => rw [← List.take_append_drop B.length P]
        congr 1
        unfold PrefixOf at hpre
        exact hpre.symm
      have hRok : okComps (P.drop B.length) :=
        okComps_sub hP (List.drop_subset _ _)
      have hRne : P.drop B.length ≠ [] := by
        have hlen := PrefixOf_length_lt hpre hBne
        intro he
        have := congrArg List.length he
        simp at this
        omega
      have := chunks_render_drop B (P.drop B.length) hB hRok hRne
      rw [hPsplit] at this
      rw [this]
    · have hcc : path_contains_canon (render B) (render P) = false := by
        cases hcase : path_contains_canon (render B) (render P)
        · rfl
        · exact absurd ((path_contains_canon_iff_PrefixOf B P hB hP).mp hcase)
            hpre
      rw [hcc]
      rw [if_pos rfl, if_neg hpre]

/-- C1 (amended): when base equals the configured source root, split_path
fails with EDOM exactly when par is not contained in base, never fails
with EINVAL, and otherwise returns the sequence of leaf components of par
strictly below base.  (The code tests containment against op->source_pt,
so the claimed behaviour holds only for base = source.) -/
theorem C1_split_path_at_source (B P : List Str) (hB : okComps B)
    (hP : okComps P) :
    split_path (render P) (render B) (render B) =
      if PrefixOf B P then (P.drop B.length, none) else ([], some EDOM) :=
  split_path_source_eq B P hB hP

/-- C1 witness: the amended split_path theorem applied at base "/s",
par "/s/x", yielding the single component below the base. -/
theorem C1_split_path_at_source_witness :
    okComps [['s']] ∧ okComps [['s'], ['x']] ∧
    split_path (render [['s'], ['x']]) (render [['s']]) (render [['s']]) =
      (if PrefixOf [['s']] [['s'], ['x']]
        then (([['s'], ['x']] : List Str).drop ([['s']] : List Str).length, none)
        else ([], some EDOM)) :=
  ⟨by decide, by decide,
    C1_split_path_at_source [['s']] [['s'], ['x']] (by decide) (by decide)⟩

theorem parent_path_iter_nil : ∀ n, parent_path^[n] (render []) = render [] := by
  intro n
  induction n with
  | zero => rfl
  | succ m ih =>
    rw [Function.iterate_succ_apply]
    have h : parent_path (render []) = render [] := by decide
    rw [h, ih]

theorem parent_path_iter (N : List Str) (hN : okComps N) :
    ∀ n, parent_path^[n] (render N) = render (N.take (N.length - n)) := by
  induction N using List.reverseRecOn with
  | nil =>
    intro n
    rw [List.take_nil]
    exact parent_path_iter_nil n
  | append_singleton cs c ih =>
    intro n
    have hc : okComp c := hN c (by simp)
    have hcs : okComps cs := okComps_sub hN (by intro x hx; simp [hx])
    cases n with
    | zero =>
      simp only [Function.iterate_zero, id_eq, Nat.sub_zero]
      rw [List.take_of_length_le (le_refl _)]
    | succ m =>
      rw [Function.iterate_succ_apply]
      rw [parent_path_render cs c hc]
      rw [ih hcs m]
      congr 1
      have hlen : (cs ++ [c]).length = cs.length + 1 := by simp
      rw [hlen]
      have heq : cs.length + 1 - (m + 1) = cs.length - m := by omega
      rw [heq]
      rw [List.take_append_of_le_length (by omega)]

/-- C6: for canonical absolute paths, path_contains_canon returns true
exactly when the needle equals the haystack or iterated textual
parent-path reduction of the needle eventually yields exactly the
haystack. -/
theorem C6_path_contains_canon_iterated_parent (H N : List Str)
    (hH : okComps H) (hN : okComps N) :
    (path_contains_canon (render H) (render N) = true ↔
      (render N = render H ∨ ∃ n, parent_path^[n] (render N) = render H)) := by
  rw [path_contains_canon_iff_PrefixOf H N hH hN]
  constructor
  · intro hp
    right
    refine ⟨N.length - H.length, ?_⟩
    rw [parent_path_iter N hN]
    have hle := PrefixOf_length_le hp
    have heq : N.length - (N.length - H.length) = H.length := by omega
    rw [heq]
    unfold PrefixOf at hp
    rw [hp]
  · intro h
    rcases h with he | ⟨n, hn⟩
    · have : N = H := render_inj hN hH he
      rw [this]
      exact PrefixOf_refl H
    · rw [parent_path_iter N hN n] at hn
      have : N.take (N.length - n) = H :=
        render_inj (okComps_take hN _) hH hn
      exact PrefixOf_of_eq_take this.symm

/-- C6 witness: containment of "/a/b" in "/a" via one parent step. -/
theorem C6_witness :
    okComps [['a']] ∧ okComps [['a'], ['b']] ∧
    (path_contains_canon (render [['a']]) (render [['a'], ['b']]) = true ↔
      (render [['a'], ['b']] = render [['a']] ∨
       ∃ n, parent_path^[n] (render [['a'], ['b']]) = render [['a']])) :=
  ⟨by decide, by decide,
    C6_path_contains_canon_iterated_parent [['a']] [['a'], ['b']]
      (by decide) (by decide)⟩

/-- Default maximum number of bytes cloned from a regular file
(clone_pseudo_fs.cpp:53). -/
def def_reglen : Nat := 256

/-- Re-read chunk threshold of the bounded read loop
(clone_pseudo_fs.cpp:54). -/
def reg_re_read_sz : Nat := 1024

/-- Linux errno value for EACCES. -/
def EACCES : Nat := 13

/-- stat_perm_mask: the bottom nine permission bits
(clone_pseudo_fs.cpp:514). -/
def stat_perm_mask : Nat := 0x1ff

/-- One host event observed by the bounded read loop of
xfr_reg_file2inmem/xfr_reg_file2file: a read(2) returning n bytes (the
kernel never returns more than the requested count, enforced with min
below), a failed read whose read_err_wait recovery polled and re-read
nonnegatively (the loop continues without accumulating, cpp:1191-1205),
or a failed read whose recovery gave up with timeout or error (the
function stores zero content bytes, cpp:1192-1199). -/
inductive ReadEv where
  | ok (n : Nat)
  | waitRead (n : Nat)
  | waitFail
deriving DecidableEq

/-- The do-while read loop of xfr_reg_file2inmem and xfr_reg_file2file
(clone_pseudo_fs.cpp:1184-1209, 1314-1338).  off accumulates bytes; each
read asks for reglen - off bytes; the loop stops when a read returns
fewer than reg_re_read_sz bytes; exhaustion of the host trace also stops
it.  Returns num, the number of content bytes transferred. -/
def read_loop (reglen : Nat) : List ReadEv → Nat → Nat
  | [], off => off
  | ReadEv.ok n :: evs, off =>
      let m := min n (reglen - off)
      if m < reg_re_read_sz then off + m
      else read_loop reglen evs (off + m)
  | ReadEv.waitRead _ :: evs, off => read_loop reglen evs off
  | ReadEv.waitFail :: _, _ => 0

/-- Contents of the 0_source_symlink_target_path pseudo-file synthesized
for a dereferenced symlink whose target is a directory: the canonical
target path followed by a newline, written in full by xfr_vec2file
(clone_pseudo_fs.cpp:1727-1733) and stored in full on the in-memory node
by symlink_cache_src (cpp:2222-2232). -/
def deref_pseudo_contents (canon_tgt : Str) : Str := canon_tgt ++ ['\n']

/-- C3 counterexample: the deref pseudo-file for a canonical target path
of 300 characters holds 302 content bytes, exceeding the default reglen
of 256; so not every regular file written to the destination is bounded
by reglen. -/
theorem C3_counterexample :
    def_reglen < (deref_pseudo_contents (render [List.replicate 300 'a'])).length := by
  have h1 : render [List.replicate 300 'a'] = '/' :: List.replicate 300 'a' := rfl
  rw [deref_pseudo_contents, h1]
  rw [List.length_append, List.length_cons, List.length_replicate]
  decide

/-- C3 (amended): the bounded read loop never accumulates more than
reglen content bytes, so every regular file whose contents are read from
the source is at most reglen bytes; only the deref-synthesized
0_source_symlink_target_path pseudo-file, whose contents are the
canonical target path plus newline, can exceed reglen. -/
theorem C3_read_loop_reglen_bound (reglen : Nat) (evs : List ReadEv)
    (off : Nat) (hoff : off ≤ reglen) : read_loop reglen evs off ≤ reglen := by
  induction evs generalizing off with
  | nil => exact hoff
  | cons ev rest ih =>
    cases ev with
    | ok n =>
      show (if min n (reglen - off) < reg_re_read_sz
        then off + min n (reglen - off)
        else read_loop reglen rest (off + min n (reglen - off))) ≤ reglen
      have hm : min n (reglen - off) ≤ reglen - off := Nat.min_le_right _ _
      by_cases h : min n (reglen - off) < reg_re_read_sz
      · rw [if_pos h]; omega
      · rw [if_neg h]; exact ih _ (by omega)
    | waitRead n => exact ih _ hoff
    | waitFail => exact Nat.zero_le _

/-- C3 witness: the loop bound applied at reglen 256 from offset 0 with
two large reads on offer. -/
theorem C3_read_loop_reglen_bound_witness :
    read_loop 256 [ReadEv.ok 1024, ReadEv.ok 1024] 0 ≤ 256 :=
  C3_read_loop_reglen_bound 256 [ReadEv.ok 1024, ReadEv.ok 1024] 0 (by decide)

/-- S_IWUSR, the owner-write permission bit. -/
def owner_write : Nat := 0x80

/-- Destination permissions established by the direct scanner's
dir_clone_work (clone_pseudo_fs.cpp:1820-1833): create_directory(dst, src)
copies the source permissions and owner-write is added afterwards when
the source lacks it. -/
def dir_clone_work_dst_perms (src_perms : Nat) : Nat :=
  if src_perms &&& owner_write = owner_write then src_perms
  else src_perms ||| owner_write

/-- Permission bits requested by the cache unroller's unroll_cache_is_dir
(clone_pseudo_fs.cpp:2896-2897): a single-argument create_directory, i.e.
mkdir with all permissions filtered by the process umask; the source
mode is not consulted ("just go with user's default permissions"). -/
def unroll_cache_is_dir_perms (umask : Nat) : Nat := 511 ^^^ (umask &&& 511)

/-- C4 counterexample: for a source directory with mode 0o500 (no owner
write) the claim demands destination permissions 0o700; the direct
scanner produces exactly that, but the unroller (with umask 0) creates
the directory with permissions 0o777, ignoring the source mode. -/
theorem C4_counterexample :
    dir_clone_work_dst_perms 320 = 448 ∧
    unroll_cache_is_dir_perms 0 ≠ 448 := by
  refine ⟨by decide, by decide⟩

theorem owner_write_eq_pow : owner_write = 2 ^ 7 := by decide

theorem lor_owner_write_of_and {s : Nat} (h : s &&& owner_write = owner_write) :
    s = s ||| owner_write := by
  apply Nat.eq_of_testBit_eq
  intro i
  rw [Nat.testBit_lor]
  by_cases hi : i = 7
  · subst hi
    have h7 : s.testBit 7 = true := by
      have := congrArg (fun x => Nat.testBit x 7) h
      simp only [Nat.testBit_land] at this
      have how : Nat.testBit owner_write 7 = true := by decide
      rw [how] at this
      simpa using this
    rw [h7]
    simp
  · have how : Nat.testBit owner_write i = false := by
      rw [owner_write_eq_pow]
      exact Nat.testBit_two_pow_of_ne (fun he => hi he.symm)
    rw [how]
    simp

/-- C4 (amended): every directory created by the direct (single-pass)
clone carries the source mode bits plus owner-write (in particular
owner-write is always present); directories created by the cache
unroller instead get the process default permissions, independent of the
source mode (see the counterexample). -/
theorem C4_dir_clone_work_perms (src_perms : Nat) :
    dir_clone_work_dst_perms src_perms = src_perms ||| owner_write ∧
    (dir_clone_work_dst_perms src_perms) &&& owner_write = owner_write := by
  have h1 : dir_clone_work_dst_perms src_perms = src_perms ||| owner_write := by
    unfold dir_clone_work_dst_perms
    by_cases h : src_perms &&& owner_write = owner_write
    · rw [if_pos h]
      exact lor_owner_write_of_and h
    · rw [if_neg h]
  refine ⟨h1, ?_⟩
  rw [h1]
  apply Nat.eq_of_testBit_eq
  intro i
  rw [Nat.testBit_land, Nat.testBit_lor]
  by_cases hi : i = 7
  · subst hi
    have how : Nat.testBit owner_write 7 = true := by decide
    rw [how]
    simp
  · have how : Nat.testBit owner_write i = false := by
      rw [owner_write_eq_pow]
      exact Nat.testBit_two_pow_of_ne (fun he => hi he.symm)
    rw [how]
    simp

/-- An std::error_code: none when cleared, some e when holding errno e. -/
abbrev EC := Option Nat

/-- The final error code returned by do_cache
(clone_pseudo_fs.cpp:3210-3303): ec is first set by cache_src; when the
unroll pass runs (destination not suppressed, and under --prune at least
one exact match was found), ec is overwritten by unroll_cache's result. -/
def do_cache_final_ec (cache_src_ec : EC) (no_destin : Bool)
    (prune_given : Bool) (num_prune_exact : Nat) (unroll_ec : EC) : EC :=
  let skip_destin := no_destin || (prune_given && num_prune_exact == 0)
  if skip_destin then cache_src_ec else unroll_ec

/-- The exit-code computation at the tail of main
(clone_pseudo_fs.cpp:3922-3950): res is 1 exactly when the selected pass
chain (do_cache or do_clone) returned an error; afterwards, when
statistics were not requested and the scan-failed counter is positive,
res is forced to 1. -/
def main_exit_code (final_ec : EC) (want_stats : Nat)
    (num_scan_failed : Nat) : Nat :=
  let res := if final_ec.isSome then 1 else 0
  if want_stats = 0 ∧ 0 < num_scan_failed then 1 else res

/-- C5 counterexample: a cache-mode run with --statistics whose source
scan was truncated (cache_src returned an error and num_scan_failed = 1)
but whose unroll pass succeeded exits with code 0, because do_cache
overwrites the cache-scan error with the unroll result and the
scan-failed fallback in main is guarded by want_stats == 0. -/
theorem C5_counterexample :
    main_exit_code (do_cache_final_ec (some 5) false false 0 none) 1 1 = 0 := by
  decide

/-- C5 (amended): the exit code is 0 on success; any error propagated out
of the selected pass chain forces exit code 1; and a non-zero scan-failed
counter forces exit code 1 when statistics were not requested.  When
--statistics is given, a truncated cache scan masked by a successful
unroll exits 0. -/
theorem C5_main_exit_code (final_ec : EC) (want_stats num_scan_failed : Nat) :
    (final_ec.isSome = true →
      main_exit_code final_ec want_stats num_scan_failed = 1) ∧
    (want_stats = 0 → 0 < num_scan_failed →
      main_exit_code final_ec want_stats num_scan_failed = 1) ∧
    (final_ec = none → (want_stats ≠ 0 ∨ num_scan_failed = 0) →
      main_exit_code final_ec want_stats num_scan_failed = 0) := by
  unfold main_exit_code
  refine ⟨?_, ?_, ?_⟩
  · intro h
    by_cases hc : want_stats = 0 ∧ 0 < num_scan_failed
    · rw [if_pos hc]
    · rw [if_neg hc, h]
      rfl
  · intro h1 h2
    rw [if_pos ⟨h1, h2⟩]
  · intro h1 h2
    have hc : ¬ (want_stats = 0 ∧ 0 < num_scan_failed) := by
      rcases h2 with h | h
      · intro hx; exact h hx.1
      · intro hx; omega
    rw [if_neg hc, h1]
    rfl

/-- C5 witness: an error from the pass chain forces exit code 1. -/
theorem C5_main_exit_code_witness : main_exit_code (some 5) 2 0 = 1 :=
  (C5_main_exit_code (some 5) 2 0).1 (by decide)

/-- Outcome of the open(2)/fstat(2) prologue of the regular-file readers
(clone_pseudo_fs.cpp:1162-1183, 1293-1313): open succeeded (with the
fstat mode and the read-loop events), open succeeded but fstat failed,
open failed with EACCES (with the optional mode recovered by the stat
fallback), or open failed with another errno. -/
inductive OpenOutcome where
  | opened (mode : Nat) (evs : List ReadEv)
  | fstatFail (e : Nat)
  | accessDenied (statMode : Option Nat)
  | openFail (e : Nat)
deriving DecidableEq

/-- The update stored on an in-memory regular node by xfr_reg_file2inmem
(clone_pseudo_fs.cpp:1215-1222). -/
structure RegStore where
  contents_len : Nat
  read_found_nothing : Bool
  st_mode : Nat
deriving DecidableEq

/-- xfr_reg_file2inmem (clone_pseudo_fs.cpp:1137-1228): returns the
errno-like result together with the update made to the in-memory node
(none when the node is left untouched).  On EACCES from open, a stat
fallback recovers the mode bits and the node records zero-length
contents; if that stat also fails the node is left untouched and the
EACCES result is returned.  The function is total (noexcept). -/
def xfr_reg_file2inmem (reglen : Nat) (o : OpenOutcome) :
    Nat × Option RegStore :=
  match o with
  | OpenOutcome.openFail e => (e, none)
  | OpenOutcome.fstatFail e => (e, none)
  | OpenOutcome.accessDenied none => (EACCES, none)
  | OpenOutcome.accessDenied (some m) =>
      (0, some ⟨0, true, m &&& stat_perm_mask⟩)
  | OpenOutcome.opened m evs =>
      let num := if 0 < reglen then read_loop reglen evs 0 else 0
      (0, some ⟨num, num = 0, m &&& stat_perm_mask⟩)

/-- xfr_reg_file2file (clone_pseudo_fs.cpp:1267-1357): returns the
errno-like result together with the destination write request as
(content byte count, mode bits) -- none when no write is attempted.
wres is the host result of the xfr_vec2file destination write. -/
def xfr_reg_file2file (reglen : Nat) (wres : Nat) (o : OpenOutcome) :
    Nat × Option (Nat × Nat) :=
  match o with
  | OpenOutcome.openFail e => (e, none)
  | OpenOutcome.fstatFail e => (e, none)
  | OpenOutcome.accessDenied none => (EACCES, none)
  | OpenOutcome.accessDenied (some m) =>
      (wres, some (0, m &&& stat_perm_mask))
  | OpenOutcome.opened m evs =>
      let num := if 0 < reglen then read_loop reglen evs 0 else 0
      (wres, some (num, m &&& stat_perm_mask))

/-- C9 counterexample: when open fails with EACCES and the fallback stat
itself also fails, the direct path writes nothing to the destination (the
file is dropped there) and the reader returns the EACCES errno, contrary
to the claim that every EACCES-on-open file is still recorded. -/
theorem C9_counterexample :
    xfr_reg_file2file 256 0 (OpenOutcome.accessDenied none) = (EACCES, none) := by
  decide

/-- C9 (amended): when open fails with EACCES and the fallback stat
succeeds, both readers record the file with zero-length contents and the
mode bits recovered by stat, and return without error; when the fallback
stat also fails, the cache path still keeps the node inserted by
cache_reg before the call, but the direct path drops the file and the
reader returns EACCES.  The readers are total functions (never throw). -/
theorem C9_eacces_stat_fallback (reglen m wres : Nat) :
    xfr_reg_file2inmem reglen (OpenOutcome.accessDenied (some m))
      = (0, some ⟨0, true, m &&& stat_perm_mask⟩) ∧
    xfr_reg_file2file reglen wres (OpenOutcome.accessDenied (some m))
      = (wres, some (0, m &&& stat_perm_mask)) := by
  exact ⟨rfl, rfl⟩

/-- parse_cmd_line's handling of --max-depth=MAXD
(clone_pseudo_fs.cpp:3381-3391): positive command-line values are
decremented by one and activate the limit; zero and negative values are
kept and leave it inactive.  An absent option leaves the zero-initialized
value 0. -/
def parse_max_depth (cli : Int) : Int × Bool :=
  if 0 < cli then (cli - 1, true) else (cli, false)

/-- The infinite-recursion configuration check of main
(clone_pseudo_fs.cpp:3797-3807): when a destination is in use, the
canonical destination is contained in the source, the parsed max-depth is
zero and no exclusion entry was accepted, main returns 1 before any clone
pass runs. -/
def infinite_recursion_exit (no_destin : Bool) (contained : Bool)
    (max_depth : Int) (ex_sz : Nat) : Bool :=
  !no_destin && contained && (max_depth == 0) && (ex_sz == 0)

/-- C10: if the canonical destination is contained in the source, no
exclusion entries were accepted, and --max-depth was absent, 0 or 1
(all of which parse to a stored max-depth of 0, the command-line value
being decremented during parsing), the program reports possible infinite
recursion and exits with code 1 before any clone pass runs. -/
theorem C10_infinite_recursion_config (S D : List Str) (hS : okComps S)
    (hD : okComps D) (cli : Int) (hcli : cli = 0 ∨ cli = 1)
    (hcont : PrefixOf S D) :
    (parse_max_depth cli).1 = 0 ∧
    infinite_recursion_exit false
      (path_contains_canon (render S) (render D)) (parse_max_depth cli).1 0
      = true := by
  have hmd : (parse_max_depth cli).1 = 0 := by
    rcases hcli with h | h <;> subst h <;> decide
  refine ⟨hmd, ?_⟩
  have hcc : path_contains_canon (render S) (render D) = true :=
    (path_contains_canon_iff_PrefixOf S D hS hD).mpr hcont
  rw [hcc, hmd]
  decide

/-- C10 witness: source "/a", destination "/a/b", --max-depth=1. -/
theorem C10_infinite_recursion_config_witness :
    okComps [['a']] ∧ okComps [['a'], ['b']] ∧ PrefixOf [['a']] [['a'], ['b']] ∧
    ((parse_max_depth 1).1 = 0 ∧
    infinite_recursion_exit false
      (path_contains_canon (render [['a']]) (render [['a'], ['b']]))
      (parse_max_depth 1).1 0 = true) :=
  ⟨by decide, by decide, by decide,
    C10_infinite_recursion_config [['a']] [['a'], ['b']] (by decide) (by decide)
      1 (Or.inr rfl) (by decide)⟩

/-- Lexicographic std::string comparison (operator< on std::string),
comparing characters by code point. -/
def strLt : Str → Str → Bool
  | [], [] => false
  | [], _ :: _ => true
  | _ :: _, [] => false
  | a :: as, b :: bs => if a < b then true else if b < a then false else strLt as bs

theorem strLt_irrefl (x : Str) : strLt x x = false := by
  induction x with
  | nil => rfl
  | cons a as ih =>
    show (if a < a then true else if a < a then false else strLt as as) = false
    rw [if_neg (lt_irrefl a), if_neg (lt_irrefl a)]
    exact ih

/-- binary_search_find_index (clone_pseudo_fs.cpp:535-545): the index of
the std::lower_bound position when it holds the searched value, none
otherwise.  On the sorted vectors the program searches, lower_bound
returns the first position whose element is not less than the key, which
is the value modelled here. -/
def binary_search_find_index (v : List Str) (data : Str) : Option Nat :=
  match v[v.findIdx (fun e => !strLt e data)]? with
  | some e => if e = data then some (v.findIdx (fun e => !strLt e data)) else none
  | none => none

/-- find_in_sorted_vec (clone_pseudo_fs.cpp:896-912): search pt in the
sorted vector; when found and rm_if_found holds, erase that element; the
second flag is false when an erase emptied the vector. -/
def find_in_sorted_vec (v : List Str) (pt : Str) (rm_if_found : Bool) :
    (Bool × Bool) × List Str :=
  match binary_search_find_index v pt with
  | some i =>
      if rm_if_found then
        let v2 := v.eraseIdx i
        ((true, !v2.isEmpty), v2)
      else ((true, true), v)
  | none => ((false, true), v)

/-- Sortedness of the program's vectors after main's sort+unique. -/
def SortedStrs (v : List Str) : Prop :=
  List.Pairwise (fun a b => strLt a b = true) v

instance : DecidablePred SortedStrs := fun v => by
  unfold SortedStrs; infer_instance

theorem lower_bound_hits {v : List Str} (hs : SortedStrs v) {pt : Str}
    (hm : pt ∈ v) :
    v[v.findIdx (fun e => !strLt e pt)]? = some pt := by
  induction v with
  | nil => simp at hm
  | cons e t ih =>
    rw [List.findIdx_cons]
    by_cases hlt : strLt e pt = true
    · have hne : e ≠ pt := by
        intro he
        rw [he, strLt_irrefl] at hlt
        simp at hlt
      have hmt : pt ∈ t := by
        rcases List.mem_cons.mp hm with h | h
        · exact absurd h.symm hne
        · exact h
      have hst : SortedStrs t := (List.pairwise_cons.mp hs).2
      simp only [hlt]
      show (e :: t)[t.findIdx (fun e => !strLt e pt) + 1]? = some pt
      rw [List.getElem?_cons_succ]
      exact ih hst hmt
    · have hb : (!strLt e pt) = true := by
        cases h : strLt e pt
        · rfl
        · exact absurd h hlt
      simp only [hb]
      show (e :: t)[0]? = some pt
      rw [List.getElem?_cons_zero]
      congr 1
      rcases List.mem_cons.mp hm with h | h
      · exact h.symm
      · exfalso
        have := (List.pairwise_cons.mp hs).1 pt h
        exact hlt this

theorem find_in_sorted_vec_found {v : List Str} (hs : SortedStrs v)
    {pt : Str} (hm : pt ∈ v) (rm : Bool) :
    (find_in_sorted_vec v pt rm).1.1 = true := by
  unfold find_in_sorted_vec binary_search_find_index
  rw [lower_bound_hits hs hm]
  simp only [if_pos rfl]
  cases rm <;> rfl

/-- The deref/exclude decision taken per entry by the direct scanner
clone_work (clone_pseudo_fs.cpp:1969-1995): the deref vector is searched
first (symlinks only), and the glob-exclude and excl-fn tests run only
when the entry was not a deref match.  std::ranges::binary_search on the
sorted excl-fn vector is membership.  Returns the deref and exclude flags
together with the updated deref and glob-exclude vectors. -/
structure EntryDecision where
  deref_entry : Bool
  exclude_entry : Bool
  deref_v : List Str
  glob_exclude_v : List Str
deriving DecidableEq

def clone_work_entry_decision (possible_deref possible_exclude possible_excl_fn : Bool)
    (deref_v glob_exclude_v excl_fn_v : List Str)
    (pt_s filename : Str) (is_symlink : Bool) : EntryDecision :=
  let d :=
    if possible_deref && is_symlink then find_in_sorted_vec deref_v pt_s true
    else ((false, possible_deref), deref_v)
  let deref_entry := d.1.1
  let e :=
    if !deref_entry && possible_exclude then
      find_in_sorted_vec glob_exclude_v pt_s true
    else ((false, possible_exclude), glob_exclude_v)
  let exclude1 := e.1.1
  let exclude_entry :=
    if !deref_entry && possible_excl_fn then
      exclude1 || excl_fn_v.contains filename
    else exclude1
  ⟨deref_entry, exclude_entry, d.2, e.2⟩

/-- The same decision in the cache scanner cache_src
(clone_pseudo_fs.cpp:2528-2554); the control flow is identical, only the
initialization of the possible-flags differs (exclude and deref searches
happen only during the first, non-recursive, cache_src call). -/
def cache_src_entry_decision (possible_deref possible_exclude possible_excl_fn : Bool)
    (deref_v glob_exclude_v excl_fn_v : List Str)
    (pt_s filename : Str) (is_symlink : Bool) : EntryDecision :=
  let d :=
    if possible_deref && is_symlink then find_in_sorted_vec deref_v pt_s true
    else ((false, possible_deref), deref_v)
  let deref_entry := d.1.1
  let e :=
    if !deref_entry && possible_exclude then
      find_in_sorted_vec glob_exclude_v pt_s true
    else ((false, possible_exclude), glob_exclude_v)
  let exclude1 := e.1.1
  let exclude_entry :=
    if !deref_entry && possible_excl_fn then
      exclude1 || excl_fn_v.contains filename
    else exclude1
  ⟨deref_entry, exclude_entry, d.2, e.2⟩

/-- C7: for a symlink entry whose path is in both the (sorted) deref
vector and the exclude vector, the deref match takes precedence: the
entry is marked for dereference, it is not excluded, and the exclude
vector is not even consulted (it is returned unchanged).  This holds in
the direct scanner and in the cache scanner. -/
theorem C7_deref_overrides_exclude
    (pe pf : Bool) (deref_v glob_exclude_v excl_fn_v : List Str)
    (pt_s filename : Str)
    (hs : SortedStrs deref_v) (hm : pt_s ∈ deref_v) :
    (clone_work_entry_decision (!deref_v.isEmpty) pe pf
        deref_v glob_exclude_v excl_fn_v pt_s filename true
      = ⟨true, false, (find_in_sorted_vec deref_v pt_s true).2,
          glob_exclude_v⟩) ∧
    (cache_src_entry_decision (!deref_v.isEmpty) pe pf
        deref_v glob_exclude_v excl_fn_v pt_s filename true
      = ⟨true, false, (find_in_sorted_vec deref_v pt_s true).2,
          glob_exclude_v⟩) := by
  have hne : deref_v.isEmpty = false := by
    cases deref_v with
    | nil => simp at hm
    | cons a t => rfl
  have hfound := find_in_sorted_vec_found hs hm true
  constructor
  · simp [clone_work_entry_decision, hne, hfound]
  · simp [cache_src_entry_decision, hne, hfound]

/-- C7 witness: path "/s/l" present in both vectors; deref wins in both
scanners. -/
theorem C7_deref_overrides_exclude_witness :
    SortedStrs [['/', 's', '/', 'l']] ∧ ['/', 's', '/', 'l'] ∈ [['/', 's', '/', 'l']] ∧
    (clone_work_entry_decision (!(([['/', 's', '/', 'l']] : List Str)).isEmpty) true true
        [['/', 's', '/', 'l']] [['/', 's', '/', 'l']] [] ['/', 's', '/', 'l'] ['l'] true
      = ⟨true, false, (find_in_sorted_vec [['/', 's', '/', 'l']] ['/', 's', '/', 'l'] true).2,
          [['/', 's', '/', 'l']]⟩) ∧
    (cache_src_entry_decision (!(([['/', 's', '/', 'l']] : List Str)).isEmpty) true true
        [['/', 's', '/', 'l']] [['/', 's', '/', 'l']] [] ['/', 's', '/', 'l'] ['l'] true
      = ⟨true, false, (find_in_sorted_vec [['/', 's', '/', 'l']] ['/', 's', '/', 'l'] true).2,
          [['/', 's', '/', 'l']]⟩) := by
  refine ⟨by decide, by decide, ?_, ?_⟩
  · exact (C7_deref_overrides_exclude true true [['/', 's', '/', 'l']]
      [['/', 's', '/', 'l']] [] ['/', 's', '/', 'l'] ['l'] (by decide) (by decide)).1
  · exact (C7_deref_overrides_exclude true true [['/', 's', '/', 'l']]
      [['/', 's', '/', 'l']] [] ['/', 's', '/', 'l'] ['l'] (by decide) (by decide)).2

/-- The prune_mask bit set (enum prune_mask_e, clone_pseudo_fs.cpp:132-138),
modelled as three flags over {exact, all_below, up_chain}. -/
structure PruneMask where
  pexact : Bool
  pallBelow : Bool
  pupChain : Bool
deriving DecidableEq

/-- prune_mask == 0. -/
def PruneMask.isZero (m : PruneMask) : Bool :=
  !m.pexact && !m.pallBelow && !m.pupChain

/-- prune_mask |= prune_up_chain. -/
def setUpChain (m : PruneMask) : PruneMask := ⟨m.pexact, m.pallBelow, true⟩

/-- prune_mask |= prune_all_below. -/
def setAllBelow (m : PruneMask) : PruneMask := ⟨m.pexact, true, m.pupChain⟩

/-- prune_mask &= ~prune_up_chain. -/
def clearUpChain (m : PruneMask) : PruneMask := ⟨m.pexact, m.pallBelow, false⟩

/-- The fields of inmem_base_t used by pass 2 (clone_pseudo_fs.cpp:145-177);
fields the prune pass neither reads nor writes (shstat, par_dir_ind) are
omitted. -/
structure IBase where
  filename : Str
  prune_mask : PruneMask
  is_root : Bool
deriving DecidableEq

/-- The in-memory node variant inm_var_t (clone_pseudo_fs.cpp:259-264),
restricted to the data pass 2 consults: directories carry the child
vector (their filename-to-index map is modelled by fnIndex); symlinks
carry their target text; depth, par_pt_s, contents and device payloads
are omitted (unused by the prune pass). -/
inductive INode where
  | other : IBase → INode
  | dir : IBase → List INode → INode
  | symlink : IBase → Str → INode
  | device : IBase → INode
  | fifosocket : IBase → INode
  | regular : IBase → INode

/-- The common base of a node (inmem_t::get_basep). -/
def INode.base : INode → IBase
  | INode.other b => b
  | INode.dir b _ => b
  | INode.symlink b _ => b
  | INode.device b => b
  | INode.fifosocket b => b
  | INode.regular b => b

/-- Replace a node's prune mask, keeping everything else. -/
def INode.withMask : INode → PruneMask → INode
  | INode.other b, m => INode.other ⟨b.filename, m, b.is_root⟩
  | INode.dir b ch, m => INode.dir ⟨b.filename, m, b.is_root⟩ ch
  | INode.symlink b t, m => INode.symlink ⟨b.filename, m, b.is_root⟩ t
  | INode.device b, m => INode.device ⟨b.filename, m, b.is_root⟩
  | INode.fifosocket b, m => INode.fifosocket ⟨b.filename, m, b.is_root⟩
  | INode.regular b, m => INode.regular ⟨b.filename, m, b.is_root⟩

def INode.isDir : INode → Bool
  | INode.dir _ _ => true
  | _ => false

def INode.isSymlink : INode → Bool
  | INode.symlink _ _ => true
  | _ => false

def INode.isRegular : INode → Bool
  | INode.regular _ => true
  | _ => false

def INode.children : INode → List INode
  | INode.dir _ ch => ch
  | _ => []

/-- Fetch the node at an address (child-index path) in the tree. -/
def getNode : List Nat → INode → Option INode
  | [], n => some n
  | i :: rest, INode.dir _ ch =>
      match ch[i]? with
      | some c => getNode rest c
      | none => none
  | _ :: _, _ => none

/-- Apply f to the prune mask of the node at an address. -/
def updateMask (f : PruneMask → PruneMask) : List Nat → INode → INode
  | [], n => n.withMask (f n.base.prune_mask)
  | i :: rest, INode.dir b ch =>
      match ch[i]? with
      | some c => INode.dir b (ch.set i (updateMask f rest c))
      | none => INode.dir b ch
  | _ :: _, n => n

/-- The filename-to-index map sdir_fn_ind_m of a directory
(clone_pseudo_fs.cpp:351, 772-773): pass 1 maps every directory child's
filename to its index; with distinct child filenames (true of a
directory scan) this is the unique directory child of that name,
modelled as the first one. -/
def fnIndex (ch : List INode) (fn : Str) : Option Nat :=
  ch.findIdx? (fun c => c.isDir && c.base.filename == fn)

/-- Result of prune_mark_up_chain: an error, the reached directory's
address, or the address of a regular file found by the fallback scan. -/
inductive UpRes where
  | err
  | foundDir (a : List Nat)
  | foundReg (a : List Nat)
deriving DecidableEq

/-- The walk of prune_mark_up_chain (clone_pseudo_fs.cpp:2340-2372):
step down the filename-to-index maps along the components, marking each
visited child with up_chain when its mask is zero; a missing map entry
falls back to scanning the children for a regular file of that name. -/
def markUpChainWalk : List Str → INode → List Nat → INode × UpRes
  | [], t, addr => (t, UpRes.foundDir addr)
  | ss :: rest, t, addr =>
    match getNode addr t with
    | some (INode.dir _ ch) =>
      (match fnIndex ch ss with
      | none =>
        (match ch.findIdx? (fun c => c.isRegular && c.base.filename == ss) with
        | some j => (t, UpRes.foundReg (addr ++ [j]))
        | none => (t, UpRes.err))
      | some i =>
        (match ch[i]? with
        | some c =>
          if c.isDir then
            let t2 := if c.base.prune_mask.isZero
              then updateMask setUpChain (addr ++ [i]) t else t
            markUpChainWalk rest t2 (addr ++ [i])
          else (t, UpRes.err)
        | none => (t, UpRes.err)))
    | _ => (t, UpRes.err)

/-- prune_mark_up_chain (clone_pseudo_fs.cpp:2320-2375): split par_pt
below the source root, mark the cache root with up_chain when unmarked,
then walk down, marking the chain. -/
def prune_mark_up_chain (t : INode) (par_pt source_pt : Str) : INode × UpRes :=
  match split_path par_pt source_pt source_pt with
  | (_, some _) => (t, UpRes.err)
  | (vs, none) =>
    let t1 := if t.base.prune_mask.isZero then updateMask setUpChain [] t else t
    markUpChainWalk vs t1 []

/-- State threaded through pass 2: the cached tree, the number of
num_prune_err increments, and a flag set when the model's fuel ran out
(the C++ recursion terminates by the all_below monotonicity; a run with
the flag set is void). -/
structure PSt where
  tree : INode
  errs : Nat
  fout : Bool

/-- prune_prop_reg (clone_pseudo_fs.cpp:3025-3059). -/
def prune_prop_reg (st : PSt) (addr : List Nat) (s_par_pt_s source_pt : Str)
    (in_prune : Bool) : PSt :=
  match getNode addr st.tree with
  | some (INode.regular b) =>
    if in_prune then
      if b.prune_mask.pallBelow then st
      else if b.prune_mask.pupChain then
        ⟨updateMask (fun m => setAllBelow (clearUpChain m)) addr st.tree,
          st.errs, st.fout⟩
      else
        match prune_mark_up_chain st.tree s_par_pt_s source_pt with
        | (t2, UpRes.err) => ⟨t2, st.errs + 1, st.fout⟩
        | (t2, _) => ⟨updateMask setAllBelow addr t2, st.errs, st.fout⟩
    else
      if b.prune_mask.pexact then
        match prune_mark_up_chain (updateMask setAllBelow addr st.tree)
            s_par_pt_s source_pt with
        | (t2, UpRes.err) => ⟨t2, st.errs + 1, st.fout⟩
        | (t2, _) => ⟨t2, st.errs, st.fout⟩
      else st
  | _ => ⟨st.tree, st.errs + 1, st.fout⟩

/-- A path that fs::path::is_relative holds for: no leading slash. -/
def isRelativePath (p : Str) : Bool :=
  match p with
  | [] => true
  | c :: _ => c ≠ '/'

/-- fs::path operator/ for a relative right operand. -/
def fsPathJoin (a b : Str) : Str :=
  if a = [] then b
  else if a.getLast? = some '/' then a ++ b
  else a ++ '/' :: b

mutual

/-- prune_prop_dir (clone_pseudo_fs.cpp:3068-3145): the pass-2 recursion
over a cached directory.  canon is the host's fs::canonical.  The fuel
argument only serves structural termination of the model (the C++
recursion terminates because all_below marks are never cleared); fuel
exhaustion sets the fout flag, voiding the run. -/
def prune_prop_dir (fuel : Nat) (st : PSt) (addr : List Nat)
    (s_par_pt_s source_pt : Str) (in_prune : Bool)
    (canon : Str → Option Str) : PSt :=
  match fuel with
  | 0 => ⟨st.tree, st.errs, true⟩
  | fuel + 1 =>
    match getNode addr st.tree with
    | some (INode.dir b ch) =>
      let at_src_rt := b.is_root
      let src_dir_pt_s :=
        if at_src_rt then s_par_pt_s else s_par_pt_s ++ '/' :: b.filename
      if in_prune then
        if b.prune_mask.pallBelow then st
        else if !at_src_rt && b.prune_mask.pupChain then
          prune_prop_children fuel
            ⟨updateMask (fun m => setAllBelow (clearUpChain m)) addr st.tree,
              st.errs, st.fout⟩
            addr src_dir_pt_s source_pt true canon ch.length 0
        else if !at_src_rt then
          match prune_mark_up_chain st.tree s_par_pt_s source_pt with
          | (t2, UpRes.err) => ⟨t2, st.errs + 1, st.fout⟩
          | (t2, _) =>
            prune_prop_children fuel
              ⟨updateMask setAllBelow addr t2, st.errs, st.fout⟩
              addr src_dir_pt_s source_pt true canon ch.length 0
        else
          prune_prop_children fuel
            ⟨updateMask setAllBelow addr st.tree, st.errs, st.fout⟩
            addr src_dir_pt_s source_pt true canon ch.length 0
      else
        if b.prune_mask.pexact then
          if !at_src_rt then
            match prune_mark_up_chain
                (updateMask setAllBelow addr st.tree) s_par_pt_s source_pt with
            | (t2, UpRes.err) => ⟨t2, st.errs + 1, st.fout⟩
            | (t2, _) =>
              prune_prop_children fuel ⟨t2, st.errs, st.fout⟩
                addr src_dir_pt_s source_pt true canon ch.length 0
          else
            prune_prop_children fuel
              ⟨updateMask setAllBelow addr st.tree, st.errs, st.fout⟩
              addr src_dir_pt_s source_pt true canon ch.length 0
        else
          prune_prop_children fuel st addr src_dir_pt_s source_pt false canon
            ch.length 0
    | _ => ⟨st.tree, st.errs + 1, st.fout⟩

/-- The range-based child loop of prune_prop_dir
(clone_pseudo_fs.cpp:3115-3144); rem counts the remaining iterations and
k is the current child index. -/
def prune_prop_children (fuel : Nat) (st : PSt) (addr : List Nat)
    (src_dir_pt_s source_pt : Str) (in_prune : Bool)
    (canon : Str → Option Str) (rem k : Nat) : PSt :=
  match fuel with
  | 0 => ⟨st.tree, st.errs, true⟩
  | fuel + 1 =>
    match rem with
    | 0 => st
    | rem + 1 =>
      match getNode (addr ++ [k]) st.tree with
      | none => st
      | some sib =>
        if sib.base.prune_mask.pallBelow then
          prune_prop_children fuel st addr src_dir_pt_s source_pt in_prune
            canon rem (k + 1)
        else
          let st1 : PSt :=
            if in_prune && sib.base.prune_mask.pupChain then
              ⟨updateMask clearUpChain (addr ++ [k]) st.tree, st.errs, st.fout⟩
            else st
          match sib with
          | INode.dir _ _ =>
            prune_prop_children fuel
              (prune_prop_dir fuel st1 (addr ++ [k]) src_dir_pt_s source_pt
                in_prune canon)
              addr src_dir_pt_s source_pt in_prune canon rem (k + 1)
          | INode.symlink _ _ =>
            if in_prune then
              prune_prop_children fuel
                (prune_prop_symlink fuel st1 (addr ++ [k]) src_dir_pt_s
                  source_pt canon).1
                addr src_dir_pt_s source_pt in_prune canon rem (k + 1)
            else if sib.base.prune_mask.pexact then
              let st2 : PSt :=
                if !sib.base.prune_mask.pallBelow then
                  ⟨updateMask setUpChain (addr ++ [k]) st1.tree, st1.errs,
                    st1.fout⟩
                else st1
              match prune_prop_symlink fuel st2 (addr ++ [k]) src_dir_pt_s
                  source_pt canon with
              | (st3, false) =>
                prune_prop_children fuel st3 addr src_dir_pt_s source_pt
                  in_prune canon rem (k + 1)
              | (st3, true) =>
                prune_prop_children fuel
                  ⟨(prune_mark_up_chain st3.tree src_dir_pt_s source_pt).1,
                    st3.errs, st3.fout⟩
                  addr src_dir_pt_s source_pt in_prune canon rem (k + 1)
            else
              prune_prop_children fuel st1 addr src_dir_pt_s source_pt
                in_prune canon rem (k + 1)
          | INode.regular _ =>
            prune_prop_children fuel
              (prune_prop_reg st1 (addr ++ [k]) src_dir_pt_s source_pt
                in_prune)
              addr src_dir_pt_s source_pt in_prune canon rem (k + 1)
          | _ =>
            let st2 : PSt :=
              if in_prune then
                ⟨updateMask setAllBelow (addr ++ [k]) st1.tree, st1.errs,
                  st1.fout⟩
              else st1
            prune_prop_children fuel st2 addr src_dir_pt_s source_pt in_prune
              canon rem (k + 1)

/-- prune_prop_symlink (clone_pseudo_fs.cpp:2968-3022): mark the symlink
with up_chain, canonicalize its target and, when the target lies inside
the source, mark its chain and propagate all_below into it. -/
def prune_prop_symlink (fuel : Nat) (st : PSt) (addr : List Nat)
    (src_dir_pt_s source_pt : Str) (canon : Str → Option Str) : PSt × Bool :=
  match fuel with
  | 0 => (⟨st.tree, st.errs, true⟩, false)
  | fuel + 1 =>
    match getNode addr st.tree with
    | some (INode.symlink _ target) =>
      let st1 : PSt := ⟨updateMask setUpChain addr st.tree, st.errs, st.fout⟩
      let tfull := if isRelativePath target
        then fsPathJoin src_dir_pt_s target else target
      (match canon tfull with
      | none => (st1, false)
      | some target_c =>
        if path_contains_canon source_pt target_c then
          if source_pt = target_c then (st1, false)
          else
            match prune_mark_up_chain st1.tree target_c source_pt with
            | (t2, UpRes.err) => (⟨t2, st1.errs, st1.fout⟩, false)
            | (t2, UpRes.foundReg ra) =>
              (⟨updateMask setAllBelow ra t2, st1.errs, st1.fout⟩, true)
            | (t2, UpRes.foundDir da) =>
              match getNode da t2 with
              | some nd =>
                if nd.base.prune_mask.pallBelow then
                  (⟨t2, st1.errs, st1.fout⟩, false)
                else
                  (prune_prop_dir fuel ⟨t2, st1.errs, st1.fout⟩ da
                    (parent_path target_c) source_pt true canon, true)
              | none => (⟨t2, st1.errs, st1.fout⟩, false)
        else (st1, false))
    | _ => (⟨st.tree, st.errs + 1, st.fout⟩, false)

end

/-- Pass 2 as invoked by do_cache (clone_pseudo_fs.cpp:3236-3237):
prune_prop_dir on the cache root with s_par_pt_s = the source path and
in_prune = prune_take_all. -/
def prune_pass (fuel : Nat) (t : INode) (source_pt : Str) (take_all : Bool)
    (canon : Str → Option Str) : PSt :=
  prune_prop_dir fuel ⟨t, 0, false⟩ [] source_pt source_pt take_all canon

/- ===== Infrastructure for the pass-2 (prune propagate) analysis ===== -/

mutual

/-- Erase every prune mask in a tree: the mask-independent shape. -/
def stripMask : INode → INode
  | INode.other b => INode.other ⟨b.filename, ⟨false, false, false⟩, b.is_root⟩
  | INode.dir b ch =>
      INode.dir ⟨b.filename, ⟨false, false, false⟩, b.is_root⟩ (stripList ch)
  | INode.symlink b t =>
      INode.symlink ⟨b.filename, ⟨false, false, false⟩, b.is_root⟩ t
  | INode.device b =>
      INode.device ⟨b.filename, ⟨false, false, false⟩, b.is_root⟩
  | INode.fifosocket b =>
      INode.fifosocket ⟨b.filename, ⟨false, false, false⟩, b.is_root⟩
  | INode.regular b =>
      INode.regular ⟨b.filename, ⟨false, false, false⟩, b.is_root⟩

def stripList : List INode → List INode
  | [] => []
  | c :: rest => stripMask c :: stripList rest

end

mutual

/-- Shape well-formedness below the cache root (established by pass 1):
filenames are valid path components, the children of a directory carry
distinct filenames, and is_root is false off the root. -/
def wfSub : INode → Bool
  | INode.dir b ch =>
      decide (okComp b.filename) && !b.is_root &&
      decide ((ch.map (fun c => c.base.filename)).Nodup) && wfList ch
  | n => decide (okComp n.base.filename) && !n.base.is_root

def wfList : List INode → Bool
  | [] => true
  | c :: rest => wfSub c && wfList rest

end

/-- Shape well-formedness of the cached tree: the root is a directory
flagged is_root (clone_pseudo_fs.cpp:3871-3894) and every other node
satisfies wfSub. -/
def wfRoot : INode → Bool
  | INode.dir b ch =>
      b.is_root && decide ((ch.map (fun c => c.base.filename)).Nodup) &&
      wfList ch
  | _ => false

mutual

/-- Mask discipline established by pass 1: no all_below or up_chain
marks anywhere, and exact marks only on directories, symlinks and
regular files, the only kinds tagged by pass 1
(clone_pseudo_fs.cpp:2147, 2187, 2618). -/
def initSub : INode → Bool
  | INode.dir b ch =>
      !b.prune_mask.pallBelow && !b.prune_mask.pupChain && initList ch
  | INode.symlink b _ => !b.prune_mask.pallBelow && !b.prune_mask.pupChain
  | INode.regular b => !b.prune_mask.pallBelow && !b.prune_mask.pupChain
  | n => !n.base.prune_mask.pallBelow && !n.base.prune_mask.pupChain &&
      !n.base.prune_mask.pexact

def initList : List INode → Bool
  | [] => true
  | c :: rest => initSub c && initList rest

end

/-- The prune mask of the node at an address. -/
def maskAt (p : List Nat) (t : INode) : Option PruneMask :=
  (getNode p t).map (fun n => n.base.prune_mask)

/-- The node at p exists and its mask is nonzero (what the unroller
tests to retain a node, clone_pseudo_fs.cpp:2928, 2942). -/
def nzAt (p : List Nat) (t : INode) : Prop :=
  ∃ m, maskAt p t = some m ∧ m.isZero = false

/-- The mark pass 2 drives each node of a pruned region to: all_below,
except for symlinks which only receive up_chain
(clone_pseudo_fs.cpp:2978 sets up_chain and prune_prop_symlink never
ors all_below into the symlink itself). -/
def markedB : INode → Bool
  | INode.symlink b _ => b.prune_mask.pupChain
  | n => n.base.prune_mask.pallBelow

/-- The node at p exists and is marked (markedB). -/
def markedAt (p : List Nat) (t : INode) : Prop :=
  ∃ n, getNode p t = some n ∧ markedB n = true

/-- Every proper ancestor of a has a nonzero mask. -/
def AncNZ (a : List Nat) (t : INode) : Prop :=
  ∀ q, ProperPrefixOf q a → nzAt q t

/-- The one-level completeness invariant: every directory marked
all_below whose address is not in the pending set S has all of its
children marked. -/
def GlobalInvL (S : List (List Nat)) (t : INode) : Prop :=
  ∀ p b ch, getNode p t = some (INode.dir b ch) →
    b.prune_mask.pallBelow = true → ¬ p ∈ S →
    ∀ (k : Nat) c, ch[k]? = some c → markedB c = true

/-- The chain invariant: every node marked all_below has all its proper
ancestors (outside the exception set X) carrying nonzero masks. -/
def ChainMX (X : List (List Nat)) (t : INode) : Prop :=
  ∀ p n, getNode p t = some n → n.base.prune_mask.pallBelow = true →
    ∀ q, ProperPrefixOf q p → ¬ q ∈ X → nzAt q t

/-- No symlink ever carries the all_below mark (no pass-2 site ors
all_below into a symlink). -/
def NoSymAll (t : INode) : Prop :=
  ∀ p b tg, getNode p t = some (INode.symlink b tg) →
    b.prune_mask.pallBelow = false

/-- exact marks sit only on directories, symlinks and regular files. -/
def ExactKinds (t : INode) : Prop :=
  ∀ p n, getNode p t = some n → n.base.prune_mask.pexact = true →
    n.isDir = true ∨ n.isSymlink = true ∨ n.isRegular = true

/-- The address a descends through directory children of t spelling the
component names ns, ending at a directory. -/
def DirPath : List Nat → List Str → INode → Prop
  | [], ns, t => ns = [] ∧ t.isDir = true
  | i :: rest, ns, INode.dir _ ch =>
      (match ch[i]? with
      | some c => ∃ ns2, ns = c.base.filename :: ns2 ∧ DirPath rest ns2 c
      | none => False)
  | _ :: _, _, _ => False

/-- The host's fs::canonical returns canonical absolute paths: rendered
component lists. -/
def canonOK (canon : Str → Option Str) : Prop :=
  ∀ p q, canon p = some q → ∃ cs, okComps cs ∧ q = render cs

/-- Mask evolution of a chain-marking step: the shape is unchanged and
each mask is unchanged or gains up_chain. -/
def MaskUp (t t2 : INode) : Prop :=
  stripMask t2 = stripMask t ∧
  ∀ p m, maskAt p t = some m →
    maskAt p t2 = some m ∨ maskAt p t2 = some (setUpChain m)

/-- Mask evolution across a whole error-free pass-2 step: the shape is
unchanged, exact bits are unchanged, all_below marks are never cleared,
nonzero masks stay nonzero, and marked nodes stay marked. -/
def Evo1 (t t2 : INode) : Prop :=
  stripMask t2 = stripMask t ∧
  (∀ p m, maskAt p t = some m → ∃ m2, maskAt p t2 = some m2 ∧
    m2.pexact = m.pexact ∧ (m.pallBelow = true → m2.pallBelow = true)) ∧
  (∀ p, nzAt p t → nzAt p t2) ∧
  (∀ p n, getNode p t = some n → markedB n = true →
    ∃ n2, getNode p t2 = some n2 ∧ markedB n2 = true)

theorem set_getElem_same {α : Type} : ∀ (l : List α) (i : Nat) (c : α),
    l[i]? = some c → l.set i c = l
  | [], i, c => by intro h; simp at h
  | a :: tl, 0, c => by
      intro h
      simp at h
      simp [List.set, h]
  | a :: tl, i + 1, c => by
      intro h
      simp at h
      simp [List.set, set_getElem_same tl i c h]

theorem nodup_getElem_inj {α : Type} : ∀ {l : List α} {i j : Nat} {x : α},
    l.Nodup → l[i]? = some x → l[j]? = some x → i = j := by
  intro l
  induction l with
  | nil => intro i j x _ h; simp at h
  | cons a tl ih =>
    intro i j x hnd hi hj
    rcases List.nodup_cons.mp hnd with ⟨hna, hndtl⟩
    match i, j with
    | 0, 0 => rfl
    | 0, j + 1 =>
      exfalso
      simp at hi hj
      exact hna (hi ▸ List.getElem?_mem hj)
    | i + 1, 0 =>
      exfalso
      simp at hi hj
      exact hna (hj ▸ List.getElem?_mem hi)
    | i + 1, j + 1 =>
      simp at hi hj
      exact congrArg (· + 1) (ih hndtl hi hj)

theorem findIdx?_some_spec {α : Type} (p : α → Bool) : ∀ (l : List α) (i : Nat),
    l.findIdx? p = some i →
    ∃ a, l[i]? = some a ∧ p a = true
  | [], i => by intro h; simp [List.findIdx?] at h
  | a :: tl, i => by
      intro h
      rw [List.findIdx?_cons] at h
      by_cases hp : p a
      · simp [hp] at h
        subst h
        exact ⟨a, by simp, hp⟩
      · simp [hp] at h
        rcases h with ⟨j, hj, hji⟩
        rcases findIdx?_some_spec p tl j hj with ⟨b, hb, hpb⟩
        exact ⟨b, by simpa [← hji] using hb, hpb⟩

theorem findIdx?_none_spec {α : Type} (p : α → Bool) (l : List α)
    (h : l.findIdx? p = none) : ∀ (j : Nat) (a : α),
    l[j]? = some a → p a = false := by
  intro j a hj
  rw [List.findIdx?_eq_none_iff] at h
  exact h a (List.getElem?_mem hj)

theorem stripMask_base (n : INode) : (stripMask n).base =
    ⟨n.base.filename, ⟨false, false, false⟩, n.base.is_root⟩ := by
  cases n <;> rfl

theorem stripMask_isDir (n : INode) : (stripMask n).isDir = n.isDir := by
  cases n <;> rfl

theorem stripMask_isSymlink (n : INode) :
    (stripMask n).isSymlink = n.isSymlink := by
  cases n <;> rfl

theorem stripMask_isRegular (n : INode) :
    (stripMask n).isRegular = n.isRegular := by
  cases n <;> rfl

theorem stripList_getElem? : ∀ (l : List INode) (i : Nat),
    (stripList l)[i]? = (l[i]?).map stripMask
  | [], i => by simp [stripList]
  | c :: tl, 0 => by simp [stripList]
  | c :: tl, i + 1 => by
      simp only [stripList, List.getElem?_cons_succ]
      exact stripList_getElem? tl i

theorem stripList_length : ∀ (l : List INode),
    (stripList l).length = l.length
  | [] => rfl
  | c :: tl => by simp [stripList, stripList_length tl]

theorem stripMask_withMask (n : INode) (m : PruneMask) :
    stripMask (n.withMask m) = stripMask n := by
  cases n <;> rfl

theorem getNode_stripMask : ∀ (p : List Nat) (t : INode),
    getNode p (stripMask t) = (getNode p t).map stripMask
  | [], t => by simp [getNode]
  | i :: rest, t => by
      cases t with
      | dir b ch =>
        simp only [stripMask, getNode, stripList_getElem?]
        cases hch : ch[i]? with
        | none => simp
        | some c => simpa using getNode_stripMask rest c
      | other b => rfl
      | symlink b tg => rfl
      | device b => rfl
      | fifosocket b => rfl
      | regular b => rfl

theorem strip_node_eq {t t2 : INode} (h : stripMask t2 = stripMask t)
    {p : List Nat} {n : INode} (hn : getNode p t = some n) :
    ∃ n2, getNode p t2 = some n2 ∧ stripMask n2 = stripMask n := by
  have h1 := getNode_stripMask p t2
  rw [h, getNode_stripMask p t, hn] at h1
  cases hg : getNode p t2 with
  | none => rw [hg] at h1; simp at h1
  | some n2 =>
    rw [hg] at h1
    simp at h1
    exact ⟨n2, rfl, h1.symm⟩

theorem strip_eq_fields {n2 n : INode} (h : stripMask n2 = stripMask n) :
    n2.isDir = n.isDir ∧ n2.isSymlink = n.isSymlink ∧
    n2.isRegular = n.isRegular ∧ n2.base.filename = n.base.filename ∧
    n2.base.is_root = n.base.is_root := by
  refine ⟨?_, ?_, ?_, ?_, ?_⟩
  · rw [← stripMask_isDir n2, ← stripMask_isDir n, h]
  · rw [← stripMask_isSymlink n2, ← stripMask_isSymlink n, h]
  · rw [← stripMask_isRegular n2, ← stripMask_isRegular n, h]
  · have := congrArg (fun x => IBase.filename (INode.base x)) h
    simpa [stripMask_base] using this
  · have := congrArg (fun x => IBase.is_root (INode.base x)) h
    simpa [stripMask_base] using this

theorem getNode_none_of_strip {t t2 : INode} (h : stripMask t2 = stripMask t)
    {p : List Nat} (hn : getNode p t = none) : getNode p t2 = none := by
  cases hg : getNode p t2 with
  | none => rfl
  | some n2 =>
    exfalso
    rcases strip_node_eq h.symm hg with ⟨n, hn2, _⟩
    rw [hn] at hn2
    simp at hn2

theorem getNode_append : ∀ (a b : List Nat) (t : INode),
    getNode (a ++ b) t = (getNode a t).bind (getNode b)
  | [], b, t => by simp [getNode]
  | i :: rest, b, t => by
      cases t with
      | dir bb ch =>
        simp only [List.cons_append, getNode]
        cases ch[i]? with
        | none => simp
        | some c => exact getNode_append rest b c
      | other bb => rfl
      | symlink bb tg => rfl
      | device bb => rfl
      | fifosocket bb => rfl
      | regular bb => rfl

theorem getNode_child {t : INode} {p : List Nat} {b : IBase}
    {ch : List INode} (h : getNode p t = some (INode.dir b ch)) (k : Nat) :
    getNode (p ++ [k]) t = ch[k]? := by
  rw [getNode_append, h]
  simp [getNode]
  cases ch[k]? <;> simp [getNode]

theorem updateMask_no_node : ∀ (f : PruneMask → PruneMask) (a : List Nat)
    (t : INode), getNode a t = none → updateMask f a t = t
  | f, [], t => by intro h; simp [getNode] at h
  | f, i :: rest, t => by
      intro h
      cases t with
      | dir b ch =>
        simp only [getNode] at h
        simp only [updateMask]
        cases hch : ch[i]? with
        | none => rfl
        | some c =>
          rw [hch] at h
          have h2 : getNode rest c = none := h
          show INode.dir b (ch.set i (updateMask f rest c)) = INode.dir b ch
          rw [updateMask_no_node f rest c h2, set_getElem_same ch i c hch]
      | other b => rfl
      | symlink b tg => rfl
      | device b => rfl
      | fifosocket b => rfl
      | regular b => rfl

theorem withMask_base (n : INode) (m : PruneMask) :
    (n.withMask m).base = ⟨n.base.filename, m, n.base.is_root⟩ := by
  cases n <;> rfl

theorem getNode_withMask (n : INode) (m : PruneMask) (i : Nat)
    (rest : List Nat) :
    getNode (i :: rest) (n.withMask m) = getNode (i :: rest) n := by
  cases n <;> rfl

theorem set_getElem?_self {α : Type} : ∀ (l : List α) (i : Nat) (a : α),
    i < l.length → (l.set i a)[i]? = some a
  | [], i, a => by intro h; simp at h
  | c :: tl, 0, a => by intro _; simp [List.set]
  | c :: tl, i + 1, a => by
      intro h
      simp only [List.set, List.getElem?_cons_succ]
      exact set_getElem?_self tl i a (by simpa using h)

theorem set_getElem?_ne {α : Type} : ∀ (l : List α) (i j : Nat) (a : α),
    i ≠ j → (l.set i a)[j]? = l[j]?
  | [], i, j, a => by intro _; simp
  | c :: tl, 0, 0, a => by intro h; exact absurd rfl h
  | c :: tl, 0, j + 1, a => by intro _; simp [List.set]
  | c :: tl, i + 1, 0, a => by intro _; simp [List.set]
  | c :: tl, i + 1, j + 1, a => by
      intro h
      simp only [List.set, List.getElem?_cons_succ]
      exact set_getElem?_ne tl i j a (by omega)

theorem maskAt_updateMask : ∀ (f : PruneMask → PruneMask) (a p : List Nat)
    (t : INode), maskAt p (updateMask f a t) =
      if p = a then (maskAt a t).map f else maskAt p t
  | f, [], p, t => by
      cases p with
      | nil => simp [maskAt, updateMask, getNode, withMask_base]
      | cons i rest =>
        simp only [maskAt, updateMask, reduceCtorEq, if_neg]
        rw [getNode_withMask]
        simp
  | f, j :: arest, p, t => by
      cases t with
      | dir b ch =>
        cases hch : ch[j]? with
        | none =>
          have hnone : getNode (j :: arest) (INode.dir b ch) = none := by
            simp [getNode, hch]
          rw [updateMask_no_node f (j :: arest) (INode.dir b ch) hnone]
          by_cases hp : p = j :: arest
          · subst hp
            simp [maskAt, hnone]
          · rw [if_neg hp]
        | some c =>
          simp only [updateMask, hch]
          cases p with
          | nil =>
            rw [if_neg (by simp)]
            rfl
          | cons i prest =>
            by_cases hij : i = j
            · subst hij
              have hset : (ch.set i (updateMask f arest c))[i]? =
                  some (updateMask f arest c) :=
                set_getElem?_self ch i _ (List.getElem?_eq_some_iff.mp hch).1
              by_cases hpr : prest = arest
              · subst hpr
                rw [if_pos rfl]
                simp only [maskAt, getNode, hset, hch]
                have := maskAt_updateMask f prest prest c
                rw [if_pos rfl] at this
                simpa [maskAt] using this
              · rw [if_neg (by simp [hpr])]
                simp only [maskAt, getNode, hset, hch]
                have := maskAt_updateMask f arest prest c
                rw [if_neg hpr] at this
                simpa [maskAt] using this
            · rw [if_neg (by simp [hij])]
              simp only [maskAt, getNode,
                set_getElem?_ne ch j i _ (fun h => hij h.symm)]
      | other b => by_cases hp : p = j :: arest <;>
          simp [updateMask, maskAt, getNode, hp]
      | symlink b tg => by_cases hp : p = j :: arest <;>
          simp [updateMask, maskAt, getNode, hp]
      | device b => by_cases hp : p = j :: arest <;>
          simp [updateMask, maskAt, getNode, hp]
      | fifosocket b => by_cases hp : p = j :: arest <;>
          simp [updateMask, maskAt, getNode, hp]
      | regular b => by_cases hp : p = j :: arest <;>
          simp [updateMask, maskAt, getNode, hp]

theorem stripList_set : ∀ (l : List INode) (i : Nat) (x : INode),
    stripList (l.set i x) = (stripList l).set i (stripMask x)
  | [], i, x => by simp [stripList]
  | c :: tl, 0, x => by simp [stripList]
  | c :: tl, i + 1, x => by
      simp [stripList, List.set, stripList_set tl i x]

theorem strip_updateMask : ∀ (f : PruneMask → PruneMask) (a : List Nat)
    (t : INode), stripMask (updateMask f a t) = stripMask t
  | f, [], t => stripMask_withMask t _
  | f, i :: rest, t => by
      cases t with
      | dir b ch =>
        simp only [updateMask]
        cases hch : ch[i]? with
        | none => rfl
        | some c =>
          simp only [stripMask, stripList_set]
          rw [strip_updateMask f rest c]
          congr 1
          apply set_getElem_same
          rw [stripList_getElem?, hch]
          simp
      | other b => rfl
      | symlink b tg => rfl
      | device b => rfl
      | fifosocket b => rfl
      | regular b => rfl

theorem stripList_names : ∀ (l : List INode),
    (stripList l).map (fun c => c.base.filename) =
    l.map (fun c => c.base.filename)
  | [] => rfl
  | c :: tl => by
      simp only [stripList, List.map_cons, stripList_names tl,
        stripMask_base]

mutual

theorem wfSub_strip : ∀ (n : INode), wfSub (stripMask n) = wfSub n
  | INode.other b => rfl
  | INode.dir b ch => by
      simp only [stripMask, wfSub, stripList_names, wfList_strip ch]
  | INode.symlink b tg => rfl
  | INode.device b => rfl
  | INode.fifosocket b => rfl
  | INode.regular b => rfl

theorem wfList_strip : ∀ (l : List INode), wfList (stripList l) = wfList l
  | [] => rfl
  | c :: tl => by
      simp only [stripList, wfList, wfSub_strip c, wfList_strip tl]

end

theorem wfRoot_strip (t : INode) : wfRoot (stripMask t) = wfRoot t := by
  cases t with
  | dir b ch => simp only [stripMask, wfRoot, stripList_names, wfList_strip]
  | other b => rfl
  | symlink b tg => rfl
  | device b => rfl
  | fifosocket b => rfl
  | regular b => rfl

theorem wfRoot_congr {t t2 : INode} (h : stripMask t2 = stripMask t) :
    wfRoot t2 = wfRoot t := by
  rw [← wfRoot_strip t2, ← wfRoot_strip t, h]

theorem wfList_getElem : ∀ (l : List INode) (i : Nat) (c : INode),
    wfList l = true → l[i]? = some c → wfSub c = true
  | [], i, c => by intro _ h; simp at h
  | a :: tl, 0, c => by
      intro hw h
      simp at h
      subst h
      simp only [wfList, Bool.and_eq_true] at hw
      exact hw.1
  | a :: tl, i + 1, c => by
      intro hw h
      simp at h
      simp only [wfList, Bool.and_eq_true] at hw
      exact wfList_getElem tl i c hw.2 h

theorem wfSub_at : ∀ (p : List Nat) (n n2 : INode), wfSub n = true →
    getNode p n = some n2 → wfSub n2 = true
  | [], n, n2 => by
      intro hw h
      simp [getNode] at h
      exact h ▸ hw
  | i :: rest, n, n2 => by
      intro hw h
      cases n with
      | dir b ch =>
        simp only [getNode] at h
        cases hch : ch[i]? with
        | none => rw [hch] at h; exact absurd h (by simp)
        | some c =>
          rw [hch] at h
          have hc : wfSub c = true := by
            simp only [wfSub, Bool.and_eq_true] at hw
            exact wfList_getElem ch i c hw.2 hch
          exact wfSub_at rest c n2 hc h
      | other b => exact absurd h (by simp [getNode])
      | symlink b tg => exact absurd h (by simp [getNode])
      | device b => exact absurd h (by simp [getNode])
      | fifosocket b => exact absurd h (by simp [getNode])
      | regular b => exact absurd h (by simp [getNode])

theorem wfSub_base {n : INode} (h : wfSub n = true) :
    okComp n.base.filename ∧ n.base.is_root = false := by
  cases n with
  | dir b ch =>
    simp only [wfSub, Bool.and_eq_true, decide_eq_true_eq] at h
    exact ⟨h.1.1.1, by simpa using h.1.1.2⟩
  | other b =>
    simp only [wfSub, Bool.and_eq_true, decide_eq_true_eq] at h
    exact ⟨h.1, by simpa using h.2⟩
  | symlink b tg =>
    simp only [wfSub, Bool.and_eq_true, decide_eq_true_eq] at h
    exact ⟨h.1, by simpa using h.2⟩
  | device b =>
    simp only [wfSub, Bool.and_eq_true, decide_eq_true_eq] at h
    exact ⟨h.1, by simpa using h.2⟩
  | fifosocket b =>
    simp only [wfSub, Bool.and_eq_true, decide_eq_true_eq] at h
    exact ⟨h.1, by simpa using h.2⟩
  | regular b =>
    simp only [wfSub, Bool.and_eq_true, decide_eq_true_eq] at h
    exact ⟨h.1, by simpa using h.2⟩

theorem wfSub_dir {b : IBase} {ch : List INode}
    (h : wfSub (INode.dir b ch) = true) :
    (ch.map (fun c => c.base.filename)).Nodup ∧ wfList ch = true := by
  simp only [wfSub, Bool.and_eq_true, decide_eq_true_eq] at h
  exact ⟨h.1.2, h.2⟩

theorem wf_root_dir {t : INode} (h : wfRoot t = true) :
    ∃ b ch, t = INode.dir b ch ∧ b.is_root = true ∧
      (ch.map (fun c => c.base.filename)).Nodup ∧ wfList ch = true := by
  cases t with
  | dir b ch =>
    simp only [wfRoot, Bool.and_eq_true, decide_eq_true_eq] at h
    exact ⟨b, ch, rfl, h.1.1, h.1.2, h.2⟩
  | other b => simp [wfRoot] at h
  | symlink b tg => simp [wfRoot] at h
  | device b => simp [wfRoot] at h
  | fifosocket b => simp [wfRoot] at h
  | regular b => simp [wfRoot] at h

theorem wf_sub_node {t : INode} (hw : wfRoot t = true) :
    ∀ (p : List Nat) (n : INode), getNode p t = some n → p ≠ [] →
    wfSub n = true := by
  intro p n hg hne
  rcases wf_root_dir hw with ⟨b, ch, ht, _, _, hwl⟩
  subst ht
  cases p with
  | nil => exact absurd rfl hne
  | cons i rest =>
    simp only [getNode] at hg
    cases hch : ch[i]? with
    | none => rw [hch] at hg; exact absurd hg (by simp)
    | some c =>
      rw [hch] at hg
      exact wfSub_at rest c n (wfList_getElem ch i c hwl hch) hg

theorem wf_dir_at {t : INode} (hw : wfRoot t = true) {p : List Nat}
    {b : IBase} {ch : List INode}
    (hg : getNode p t = some (INode.dir b ch)) :
    (ch.map (fun c => c.base.filename)).Nodup ∧ wfList ch = true ∧
    (b.is_root = true ↔ p = []) := by
  cases p with
  | nil =>
    rcases wf_root_dir hw with ⟨b2, ch2, ht, hr, hnd, hwl⟩
    subst ht
    simp [getNode] at hg
    rcases hg with ⟨hb, hc⟩
    subst hb; subst hc
    exact ⟨hnd, hwl, by simp [hr]⟩
  | cons i rest =>
    have hws := wf_sub_node hw (i :: rest) _ hg (by simp)
    refine ⟨(wfSub_dir hws).1, (wfSub_dir hws).2, ?_⟩
    have := (wfSub_base hws).2
    simp only [INode.base] at this
    simp [this]

theorem wf_node_base {t : INode} (hw : wfRoot t = true) {p : List Nat}
    {n : INode} (hg : getNode p t = some n) (hne : p ≠ []) :
    okComp n.base.filename ∧ n.base.is_root = false :=
  wfSub_base (wf_sub_node hw p n hg hne)

theorem PrefixOf_trans {α : Type} {a b c : List α} (h1 : PrefixOf a b)
    (h2 : PrefixOf b c) : PrefixOf a c := by
  have hab := PrefixOf_length_le h1
  unfold PrefixOf at h1 h2 ⊢
  rw [← h2, List.take_take, Nat.min_eq_left hab] at h1
  exact h1

theorem PrefixOf_append_self {α : Type} (a x : List α) :
    PrefixOf a (a ++ x) := by
  unfold PrefixOf
  rw [List.take_append_eq_append_take]
  simp

theorem PrefixOf_append_of {α : Type} {q a : List α} (x : List α)
    (h : PrefixOf q a) : PrefixOf q (a ++ x) :=
  PrefixOf_trans h (PrefixOf_append_self a x)

theorem PrefixOf_full {α : Type} {q r : List α} (h : PrefixOf q r)
    (hl : r.length ≤ q.length) : q = r := by
  unfold PrefixOf at h
  rw [List.take_of_length_le hl] at h
  exact h.symm

theorem prefix_total {α : Type} {p q r : List α} (hp : PrefixOf p r)
    (hq : PrefixOf q r) : PrefixOf p q ∨ PrefixOf q p := by
  rcases Nat.le_total p.length q.length with hle | hle
  · left
    unfold PrefixOf at hp hq ⊢
    rw [← hq, List.take_take, Nat.min_eq_left hle]
    exact hp
  · right
    unfold PrefixOf at hp hq ⊢
    rw [← hp, List.take_take, Nat.min_eq_left hle]
    exact hq

theorem prefix_snoc_case {α : Type} {q a : List α} {i : α}
    (h : PrefixOf q (a ++ [i])) : q = a ++ [i] ∨ PrefixOf q a := by
  rcases Nat.lt_or_ge q.length (a ++ [i]).length with hlt | hge
  · right
    have hle : q.length ≤ a.length := by
      simp at hlt; omega
    unfold PrefixOf at h ⊢
    rw [List.take_append_eq_append_take, Nat.sub_eq_zero_of_le hle] at h
    simpa using h
  · left
    exact PrefixOf_full h hge

theorem ProperPrefixOf_length_lt {α : Type} {q p : List α}
    (h : ProperPrefixOf q p) : q.length < p.length :=
  PrefixOf_length_lt h.1 h.2

theorem prefix_ext_step {α : Type} {a q : List α} {i : α} {ext : List α}
    (hp : ProperPrefixOf a q) (hq : PrefixOf q (a ++ i :: ext)) :
    q = a ++ [i] ∨ ProperPrefixOf (a ++ [i]) q := by
  have hlen := ProperPrefixOf_length_lt hp
  have hassoc : a ++ i :: ext = (a ++ [i]) ++ ext := by simp
  rw [hassoc] at hq
  rcases prefix_total hq (PrefixOf_append_self (a ++ [i]) ext) with h1 | h1
  · left
    apply PrefixOf_full h1
    simp
    omega
  · by_cases he : a ++ [i] = q
    · left; exact he.symm
    · right; exact ⟨h1, he⟩

theorem proper_prefix_snoc {α : Type} {q a : List α} {k : α}
    (h : ProperPrefixOf q (a ++ [k])) : PrefixOf q a := by
  rcases prefix_snoc_case h.1 with he | hp
  · exact absurd he h.2
  · exact hp

theorem ProperPrefixOf_of_le {α : Type} {q p r : List α}
    (h1 : ProperPrefixOf q p) (h2 : PrefixOf p r) : ProperPrefixOf q r := by
  refine ⟨PrefixOf_trans h1.1 h2, ?_⟩
  intro he
  subst he
  have := ProperPrefixOf_length_lt h1
  have := PrefixOf_length_le h2
  omega

theorem ProperPrefixOf_snoc_self {α : Type} (a : List α) (k : α) :
    ProperPrefixOf a (a ++ [k]) := by
  refine ⟨PrefixOf_append_self a [k], ?_⟩
  intro he
  have := congrArg List.length he
  simp at this

theorem not_prefix_snoc {α : Type} {a s : List α} {k : α}
    (h : ¬ PrefixOf a s) : ¬ PrefixOf (a ++ [k]) s := by
  intro h2
  exact h (PrefixOf_trans (PrefixOf_append_self a [k]) h2)

theorem mask_nz_iff (m : PruneMask) : m.isZero = false ↔
    (m.pexact = true ∨ m.pallBelow = true ∨ m.pupChain = true) := by
  rcases m with ⟨e, a, u⟩
  cases e <;> cases a <;> cases u <;> simp [PruneMask.isZero]

theorem markedB_nonzero {n : INode} (h : markedB n = true) :
    n.base.prune_mask.isZero = false := by
  rw [mask_nz_iff]
  cases n with
  | symlink b tg => right; right; exact h
  | other b => right; left; exact h
  | dir b ch => right; left; exact h
  | device b => right; left; exact h
  | fifosocket b => right; left; exact h
  | regular b => right; left; exact h

theorem markedB_eq (n : INode) : markedB n =
    (if n.isSymlink = true then n.base.prune_mask.pupChain
     else n.base.prune_mask.pallBelow) := by
  cases n <;> rfl

theorem isSymlink_ctor {n : INode} (h : n.isSymlink = true) :
    ∃ b tg, n = INode.symlink b tg := by
  cases n <;> simp [INode.isSymlink] at h ⊢

theorem isDir_ctor {n : INode} (h : n.isDir = true) :
    ∃ b ch, n = INode.dir b ch := by
  cases n <;> simp [INode.isDir] at h ⊢

theorem isRegular_ctor {n : INode} (h : n.isRegular = true) :
    ∃ b, n = INode.regular b := by
  cases n <;> simp [INode.isRegular] at h ⊢

theorem withMask_isDir (n : INode) (m : PruneMask) :
    (n.withMask m).isDir = n.isDir := by cases n <;> rfl

theorem withMask_isSymlink (n : INode) (m : PruneMask) :
    (n.withMask m).isSymlink = n.isSymlink := by cases n <;> rfl

theorem withMask_isRegular (n : INode) (m : PruneMask) :
    (n.withMask m).isRegular = n.isRegular := by cases n <;> rfl

theorem markedB_withMask (n : INode) (m : PruneMask) :
    markedB (n.withMask m) =
    (if n.isSymlink = true then m.pupChain else m.pallBelow) := by
  cases n <;> rfl

theorem getNode_updateMask_self : ∀ (f : PruneMask → PruneMask)
    (a : List Nat) (t : INode), getNode a (updateMask f a t) =
    (getNode a t).map (fun n => n.withMask (f n.base.prune_mask))
  | f, [], t => by simp [getNode, updateMask]
  | f, i :: rest, t => by
      cases t with
      | dir b ch =>
        cases hch : ch[i]? with
        | none =>
          have hnone : getNode (i :: rest) (INode.dir b ch) = none := by
            simp [getNode, hch]
          rw [updateMask_no_node f _ _ hnone, hnone]
          rfl
        | some c =>
          simp only [updateMask, hch]
          have hset : (ch.set i (updateMask f rest c))[i]? =
              some (updateMask f rest c) :=
            set_getElem?_self ch i _ (List.getElem?_eq_some_iff.mp hch).1
          simp only [getNode, hset, hch]
          exact getNode_updateMask_self f rest c
      | other b => rfl
      | symlink b tg => rfl
      | device b => rfl
      | fifosocket b => rfl
      | regular b => rfl

theorem maskAt_some {p : List Nat} {t : INode} {m : PruneMask} :
    maskAt p t = some m ↔
    ∃ n, getNode p t = some n ∧ n.base.prune_mask = m := by
  unfold maskAt
  cases h : getNode p t with
  | none => simp
  | some n => simp

/-- The per-directory shape facts navigation relies on. -/
def wfDirLevel : INode → Bool
  | INode.dir _ ch =>
      decide ((ch.map (fun c => c.base.filename)).Nodup) && wfList ch
  | _ => true

theorem wfDirLevel_of_root {t : INode} (h : wfRoot t = true) :
    wfDirLevel t = true := by
  rcases wf_root_dir h with ⟨b, ch, ht, _, hnd, hwl⟩
  subst ht
  simp [wfDirLevel, hnd, hwl]

theorem wfDirLevel_of_sub {n : INode} (h : wfSub n = true) :
    wfDirLevel n = true := by
  cases n with
  | dir b ch =>
    rcases wfSub_dir h with ⟨hnd, hwl⟩
    simp [wfDirLevel, hnd, hwl]
  | other b => rfl
  | symlink b tg => rfl
  | device b => rfl
  | fifosocket b => rfl
  | regular b => rfl

theorem wfDirLevel_dir {b : IBase} {ch : List INode}
    (h : wfDirLevel (INode.dir b ch) = true) :
    (ch.map (fun c => c.base.filename)).Nodup ∧ wfList ch = true := by
  simp only [wfDirLevel, Bool.and_eq_true, decide_eq_true_eq] at h
  exact h

theorem wfDirLevel_child {b : IBase} {ch : List INode} {i : Nat} {c : INode}
    (h : wfDirLevel (INode.dir b ch) = true) (hc : ch[i]? = some c) :
    wfDirLevel c = true :=
  wfDirLevel_of_sub (wfList_getElem ch i c (wfDirLevel_dir h).2 hc)

theorem dirpath_length : ∀ {a : List Nat} {ns : List Str} {t : INode},
    DirPath a ns t → ns.length = a.length := by
  intro a
  induction a with
  | nil => intro ns t h; rw [h.1]; rfl
  | cons i rest ih =>
    intro ns t h
    cases t with
    | dir b ch =>
      simp only [DirPath] at h
      cases hch : ch[i]? with
      | none => rw [hch] at h; exact absurd h (by simp)
      | some c =>
        rw [hch] at h
        rcases h with ⟨ns2, hns, hd⟩
        subst hns
        simp [ih hd]
    | other b => exact absurd h (by simp [DirPath])
    | symlink b tg => exact absurd h (by simp [DirPath])
    | device b => exact absurd h (by simp [DirPath])
    | fifosocket b => exact absurd h (by simp [DirPath])
    | regular b => exact absurd h (by simp [DirPath])

theorem dirpath_getNode : ∀ {a : List Nat} {ns : List Str} {t : INode},
    DirPath a ns t → ∃ b ch, getNode a t = some (INode.dir b ch) := by
  intro a
  induction a with
  | nil =>
    intro ns t h
    rcases isDir_ctor h.2 with ⟨b, ch, ht⟩
    exact ⟨b, ch, by simp [getNode, ht]⟩
  | cons i rest ih =>
    intro ns t h
    cases t with
    | dir b ch =>
      simp only [DirPath] at h
      cases hch : ch[i]? with
      | none => rw [hch] at h; exact absurd h (by simp)
      | some c =>
        rw [hch] at h
        rcases h with ⟨ns2, hns, hd⟩
        rcases ih hd with ⟨b2, ch2, hg⟩
        exact ⟨b2, ch2, by simp [getNode, hch, hg]⟩
    | other b => exact absurd h (by simp [DirPath])
    | symlink b tg => exact absurd h (by simp [DirPath])
    | device b => exact absurd h (by simp [DirPath])
    | fifosocket b => exact absurd h (by simp [DirPath])
    | regular b => exact absurd h (by simp [DirPath])

theorem dirpath_isdir_child {rest : List Nat} {ns2 : List Str}
    {c : INode} (hd : DirPath rest ns2 c) : c.isDir = true := by
  rcases dirpath_getNode hd with ⟨b2, ch2, hg⟩
  cases rest with
  | nil => exact hd.2
  | cons j r2 =>
    cases c with
    | dir bb cc => rfl
    | other bb => exact absurd hd (by simp [DirPath])
    | symlink bb tg => exact absurd hd (by simp [DirPath])
    | device bb => exact absurd hd (by simp [DirPath])
    | fifosocket bb => exact absurd hd (by simp [DirPath])
    | regular bb => exact absurd hd (by simp [DirPath])

theorem dirpath_ok : ∀ {a : List Nat} {ns : List Str} {t : INode},
    wfDirLevel t = true →
    DirPath a ns t → (∀ s ∈ ns, okComp s) := by
  intro a
  induction a with
  | nil =>
    intro ns t _ h s hs
    rw [h.1] at hs
    simp at hs
  | cons i rest ih =>
    intro ns t hwf h s hs
    cases t with
    | dir b ch =>
      simp only [DirPath] at h
      cases hch : ch[i]? with
      | none => rw [hch] at h; exact absurd h (by simp)
      | some c =>
        rw [hch] at h
        rcases h with ⟨ns2, hns, hd⟩
        subst hns
        have hcwf : wfSub c = true :=
          wfList_getElem ch i c (wfDirLevel_dir hwf).2 hch
        rcases List.mem_cons.mp hs with hs1 | hs2
        · subst hs1
          exact (wfSub_base hcwf).1
        · exact ih (wfDirLevel_of_sub hcwf) hd s hs2
    | other b => exact absurd h (by simp [DirPath])
    | symlink b tg => exact absurd h (by simp [DirPath])
    | device b => exact absurd h (by simp [DirPath])
    | fifosocket b => exact absurd h (by simp [DirPath])
    | regular b => exact absurd h (by simp [DirPath])

theorem dirpath_unique : ∀ {a1 a2 : List Nat} {ns : List Str} {t : INode},
    wfDirLevel t = true → DirPath a1 ns t → DirPath a2 ns t → a1 = a2 := by
  intro a1
  induction a1 with
  | nil =>
    intro a2 ns t _ h1 h2
    cases a2 with
    | nil => rfl
    | cons j r2 =>
      exfalso
      have := dirpath_length h2
      rw [h1.1] at this
      simp at this
  | cons i rest ih =>
    intro a2 ns t hwf h1 h2
    cases a2 with
    | nil =>
      exfalso
      have := dirpath_length h1
      rw [h2.1] at this
      simp at this
    | cons j r2 =>
      cases t with
      | dir b ch =>
        simp only [DirPath] at h1 h2
        cases hci : ch[i]? with
        | none => rw [hci] at h1; exact absurd h1 (by simp)
        | some c1 =>
          cases hcj : ch[j]? with
          | none => rw [hcj] at h2; exact absurd h2 (by simp)
          | some c2 =>
            rw [hci] at h1; rw [hcj] at h2
            rcases h1 with ⟨ns1, hns1, hd1⟩
            rcases h2 with ⟨ns2, hns2, hd2⟩
            have hname : c1.base.filename = c2.base.filename := by
              rw [hns1] at hns2
              exact (List.cons.injEq _ _ _ _ ▸ hns2).1
            have hij : i = j := by
              have hnd := (wfDirLevel_dir hwf).1
              have hmi : (ch.map (fun c => c.base.filename))[i]? =
                  some c1.base.filename := by
                rw [List.getElem?_map, hci]; rfl
              have hmj : (ch.map (fun c => c.base.filename))[j]? =
                  some c1.base.filename := by
                rw [List.getElem?_map, hcj, hname]; rfl
              exact nodup_getElem_inj hnd hmi hmj
            subst hij
            rw [hci] at hcj
            have hc : c1 = c2 := by simpa using hcj
            subst hc
            have hns : ns1 = ns2 := by
              rw [hns1] at hns2
              exact (List.cons.injEq _ _ _ _ ▸ hns2).2
            subst hns
            rw [ih (wfDirLevel_child hwf hci) hd1 hd2]
      | other b => exact absurd h1 (by simp [DirPath])
      | symlink b tg => exact absurd h1 (by simp [DirPath])
      | device b => exact absurd h1 (by simp [DirPath])
      | fifosocket b => exact absurd h1 (by simp [DirPath])
      | regular b => exact absurd h1 (by simp [DirPath])

theorem DirPath_congr : ∀ {a : List Nat} {ns : List Str} {t t2 : INode},
    stripMask t2 = stripMask t → DirPath a ns t → DirPath a ns t2 := by
  intro a
  induction a with
  | nil =>
    intro ns t t2 hs h
    refine ⟨h.1, ?_⟩
    rw [← stripMask_isDir t2, hs, stripMask_isDir]
    exact h.2
  | cons i rest ih =>
    intro ns t t2 hs h
    cases t with
    | dir b ch =>
      cases t2 with
      | dir b2 ch2 =>
        simp only [stripMask, INode.dir.injEq] at hs
        simp only [DirPath] at h ⊢
        cases hci : ch[i]? with
        | none => rw [hci] at h; exact absurd h (by simp)
        | some c =>
          rw [hci] at h
          rcases h with ⟨ns2, hns, hd⟩
          have hc2 : ∃ c2, ch2[i]? = some c2 ∧ stripMask c2 = stripMask c := by
            have h1 := stripList_getElem? ch2 i
            rw [hs.2, stripList_getElem?, hci] at h1
            cases hg : ch2[i]? with
            | none => rw [hg] at h1; simp at h1
            | some c2 =>
              rw [hg] at h1
              simp at h1
              exact ⟨c2, rfl, h1.symm⟩
          rcases hc2 with ⟨c2, hg2, hsc⟩
          rw [hg2]
          refine ⟨ns2, ?_, ih hsc hd⟩
          rw [hns, (strip_eq_fields hsc).2.2.2.1]
      | other b2 => exact absurd hs (by simp [stripMask])
      | symlink b2 tg => exact absurd hs (by simp [stripMask])
      | device b2 => exact absurd hs (by simp [stripMask])
      | fifosocket b2 => exact absurd hs (by simp [stripMask])
      | regular b2 => exact absurd hs (by simp [stripMask])
    | other b => exact absurd h (by simp [DirPath])
    | symlink b tg => exact absurd h (by simp [DirPath])
    | device b => exact absurd h (by simp [DirPath])
    | fifosocket b => exact absurd h (by simp [DirPath])
    | regular b => exact absurd h (by simp [DirPath])

theorem DirPath_dropLast : ∀ {a : List Nat} {ns : List Str} {t : INode},
    DirPath a ns t → DirPath a.dropLast ns.dropLast t := by
  intro a
  induction a with
  | nil =>
    intro ns t h
    rw [h.1]
    exact ⟨rfl, h.2⟩
  | cons i rest ih =>
    intro ns t h
    cases t with
    | dir b ch =>
      simp only [DirPath] at h
      cases hci : ch[i]? with
      | none => rw [hci] at h; exact absurd h (by simp)
      | some c =>
        rw [hci] at h
        rcases h with ⟨ns2, hns, hd⟩
        subst hns
        cases rest with
        | nil =>
          have hns2 : ns2 = [] :=
            List.eq_nil_of_length_eq_zero (dirpath_length hd)
          subst hns2
          exact ⟨rfl, rfl⟩
        | cons j r2 =>
          have hlen : ns2.length = (j :: r2).length := dirpath_length hd
          have hns2ne : ns2 ≠ [] := by
            intro he; rw [he] at hlen; simp at hlen
          have h1 : (i :: j :: r2).dropLast = i :: (j :: r2).dropLast := rfl
          rw [h1]
          have h2 : (c.base.filename :: ns2).dropLast =
              c.base.filename :: ns2.dropLast := by
            cases ns2 with
            | nil => exact absurd rfl hns2ne
            | cons x xs => rfl
          rw [h2]
          simp only [DirPath, hci]
          exact ⟨ns2.dropLast, rfl, ih hd⟩
    | other b => exact absurd h (by simp [DirPath])
    | symlink b tg => exact absurd h (by simp [DirPath])
    | device b => exact absurd h (by simp [DirPath])
    | fifosocket b => exact absurd h (by simp [DirPath])
    | regular b => exact absurd h (by simp [DirPath])

theorem DirPath_snoc : ∀ {a : List Nat} {ns : List Str} {t : INode}
    {b : IBase} {ch : List INode} {k : Nat} {c : INode},
    DirPath a ns t → getNode a t = some (INode.dir b ch) →
    ch[k]? = some c → c.isDir = true →
    DirPath (a ++ [k]) (ns ++ [c.base.filename]) t := by
  intro a
  induction a with
  | nil =>
    intro ns t b ch k c hd hg hk hdir
    simp [getNode] at hg
    rw [hd.1]
    subst hg
    simp only [List.nil_append, DirPath, hk]
    exact ⟨[], rfl, rfl, hdir⟩
  | cons i rest ih =>
    intro ns t b ch k c hd hg hk hdir
    cases t with
    | dir b0 ch0 =>
      simp only [DirPath] at hd
      cases hci : ch0[i]? with
      | none => rw [hci] at hd; exact absurd hd (by simp)
      | some c0 =>
        rw [hci] at hd
        rcases hd with ⟨ns2, hns, hd2⟩
        simp only [getNode, hci] at hg
        subst hns
        simp only [List.cons_append, DirPath, hci]
        exact ⟨ns2 ++ [c.base.filename], rfl, ih hd2 hg hk hdir⟩
    | other b0 => exact absurd hd (by simp [DirPath])
    | symlink b0 tg => exact absurd hd (by simp [DirPath])
    | device b0 => exact absurd hd (by simp [DirPath])
    | fifosocket b0 => exact absurd hd (by simp [DirPath])
    | regular b0 => exact absurd hd (by simp [DirPath])

theorem dirpath_last_name : ∀ {a : List Nat} {ns : List Str} {t : INode}
    {n : INode}, DirPath a ns t → getNode a t = some n → a ≠ [] →
    ns.getLast? = some n.base.filename := by
  intro a
  induction a with
  | nil => intro ns t n _ _ hne; exact absurd rfl hne
  | cons i rest ih =>
    intro ns t n hd hg hne
    cases t with
    | dir b ch =>
      simp only [DirPath] at hd
      cases hci : ch[i]? with
      | none => rw [hci] at hd; exact absurd hd (by simp)
      | some c =>
        rw [hci] at hd
        rcases hd with ⟨ns2, hns, hd2⟩
        simp only [getNode, hci] at hg
        subst hns
        cases rest with
        | nil =>
          have hns2 : ns2 = [] :=
            List.eq_nil_of_length_eq_zero (dirpath_length hd2)
          subst hns2
          simp [getNode] at hg
          subst hg
          rfl
        | cons j r2 =>
          have hlast := ih hd2 hg (by simp)
          rw [List.getLast?_cons, hlast]
          cases ns2 with
          | nil =>
            exfalso
            have := dirpath_length hd2
            simp at this
          | cons x xs => simp [List.getLast?_cons]
    | other b => exact absurd hd (by simp [DirPath])
    | symlink b tg => exact absurd hd (by simp [DirPath])
    | device b => exact absurd hd (by simp [DirPath])
    | fifosocket b => exact absurd hd (by simp [DirPath])
    | regular b => exact absurd hd (by simp [DirPath])

theorem fnIndex_some {ch : List INode} {fn : Str} {i : Nat}
    (h : fnIndex ch fn = some i) :
    ∃ c, ch[i]? = some c ∧ c.isDir = true ∧ c.base.filename = fn := by
  rcases findIdx?_some_spec _ ch i h with ⟨c, hc, hp⟩
  simp only [Bool.and_eq_true, beq_iff_eq] at hp
  exact ⟨c, hc, hp.1, hp.2⟩

theorem GlobalInvL_mono {S S2 : List (List Nat)} {t : INode}
    (hsub : ∀ s, s ∈ S2 → s ∈ S) (h : GlobalInvL S2 t) : GlobalInvL S t := by
  intro p b ch hg hb hp
  exact h p b ch hg hb (fun hm => hp (hsub p hm))

theorem GlobalInvL_weaken {S : List (List Nat)} {a : List Nat} {t : INode}
    (h : GlobalInvL S t) : GlobalInvL (a :: S) t :=
  fun p b ch hg hb hp => h p b ch hg hb (fun hm => hp (List.mem_cons_of_mem a hm))

theorem ChainMX_weaken {X : List (List Nat)} {a : List Nat} {t : INode}
    (h : ChainMX X t) : ChainMX (a :: X) t :=
  fun p n hg hb q hq hqx =>
    h p n hg hb q hq (fun hm => hqx (List.mem_cons_of_mem a hm))

theorem ChainMX_of_nil {X : List (List Nat)} {t : INode}
    (h : ChainMX [] t) : ChainMX X t :=
  fun p n hg hb q hq _ => h p n hg hb q hq (by simp)

theorem GlobalInvL_pres {S : List (List Nat)} {t t2 : INode}
    (h : GlobalInvL S t) (hs : stripMask t2 = stripMask t)
    (hall : ∀ p b2 ch2, getNode p t2 = some (INode.dir b2 ch2) →
      b2.prune_mask.pallBelow = true → ¬ p ∈ S →
      ∃ b ch, getNode p t = some (INode.dir b ch) ∧
        b.prune_mask.pallBelow = true)
    (hmb : ∀ p (k : Nat) n n2, ¬ p ∈ S → getNode (p ++ [k]) t = some n →
      getNode (p ++ [k]) t2 = some n2 →
      markedB n = true → markedB n2 = true) :
    GlobalInvL S t2 := by
  intro p b2 ch2 hg2 hb2 hpS k c2 hk2
  rcases hall p b2 ch2 hg2 hb2 hpS with ⟨b, ch, hg, hb⟩
  have hc2 : getNode (p ++ [k]) t2 = some c2 := by
    rw [getNode_child hg2 k]; exact hk2
  rcases strip_node_eq hs.symm hc2 with ⟨c, hc, _⟩
  have hck : ch[k]? = some c := by
    rw [← getNode_child hg k]; exact hc
  exact hmb p k c c2 hpS hc hc2 (h p b ch hg hb hpS k c hck)

theorem ChainMX_pres {X : List (List Nat)} {t t2 : INode}
    (h : ChainMX X t) (hs : stripMask t2 = stripMask t)
    (hall : ∀ p n2, getNode p t2 = some n2 →
      n2.base.prune_mask.pallBelow = true →
      ∃ n, getNode p t = some n ∧ n.base.prune_mask.pallBelow = true)
    (hnz : ∀ p, nzAt p t → nzAt p t2) :
    ChainMX X t2 := by
  intro p n2 hg2 hb2 q hq hqx
  rcases hall p n2 hg2 hb2 with ⟨n, hg, hb⟩
  exact hnz q (h p n hg hb q hq hqx)

theorem NoSymAll_pres {t t2 : INode}
    (h : NoSymAll t) (hs : stripMask t2 = stripMask t)
    (hall : ∀ p n2, getNode p t2 = some n2 → n2.isSymlink = true →
      n2.base.prune_mask.pallBelow = true →
      ∃ n, getNode p t = some n ∧ n.isSymlink = true ∧
        n.base.prune_mask.pallBelow = true) :
    NoSymAll t2 := by
  intro p b2 tg2 hg2
  by_contra hcon
  have hb2 : b2.prune_mask.pallBelow = true := by
    cases hh : b2.prune_mask.pallBelow
    · exact absurd hh hcon
    · rfl
  rcases hall p (INode.symlink b2 tg2) hg2 rfl hb2 with ⟨n, hg, hsym, hb⟩
  rcases isSymlink_ctor hsym with ⟨b, tg, hn⟩
  subst hn
  simp only [INode.base] at hb
  rw [h p b tg hg] at hb
  exact absurd hb (by simp)

theorem ExactKinds_pres {t t2 : INode}
    (h : ExactKinds t) (hs : stripMask t2 = stripMask t)
    (hex : ∀ p n2, getNode p t2 = some n2 →
      n2.base.prune_mask.pexact = true →
      ∃ n, getNode p t = some n ∧ n.base.prune_mask.pexact = true) :
    ExactKinds t2 := by
  intro p n2 hg2 he2
  rcases hex p n2 hg2 he2 with ⟨n, hg, he⟩
  rcases strip_node_eq hs hg with ⟨n2b, hg2b, hsn⟩
  rw [hg2] at hg2b
  have hn2 : n2 = n2b := by simpa using hg2b
  subst hn2
  rcases strip_eq_fields hsn with ⟨h1, h2, h3, _, _⟩
  rcases h p n hg he with hk | hk | hk
  · left; rw [h1, hk]
  · right; left; rw [h2, hk]
  · right; right; rw [h3, hk]

theorem setUpChain_idem (m : PruneMask) :
    setUpChain (setUpChain m) = setUpChain m := rfl

theorem MaskUp_refl (t : INode) : MaskUp t t :=
  ⟨rfl, fun _ m hm => Or.inl hm⟩

theorem MaskUp_trans {t t2 t3 : INode} (h1 : MaskUp t t2)
    (h2 : MaskUp t2 t3) : MaskUp t t3 := by
  refine ⟨h1.1 ▸ h2.1, ?_⟩
  intro p m hm
  rcases h1.2 p m hm with hm2 | hm2
  · exact h2.2 p m hm2
  · rcases h2.2 p (setUpChain m) hm2 with hm3 | hm3
    · right; exact hm3
    · right; rw [setUpChain_idem] at hm3; exact hm3

theorem MaskUp_updUp (a : List Nat) (t : INode) :
    MaskUp t (updateMask setUpChain a t) := by
  refine ⟨strip_updateMask _ a t, ?_⟩
  intro p m hm
  rw [maskAt_updateMask]
  by_cases hp : p = a
  · subst hp
    rw [if_pos rfl, hm]
    right; rfl
  · rw [if_neg hp]
    left; exact hm

theorem MaskUp_updUp_if (cond : Bool) (a : List Nat) (t : INode) :
    MaskUp t (if cond then updateMask setUpChain a t else t) := by
  cases cond
  · simp only [Bool.false_eq_true, if_neg]
    exact MaskUp_refl t
  · simp only [if_pos]
    exact MaskUp_updUp a t

theorem MaskUp_maskAt {t t2 : INode} (h : MaskUp t t2) {p : List Nat}
    {m : PruneMask} (hm : maskAt p t = some m) :
    ∃ m2, maskAt p t2 = some m2 ∧ m2.pexact = m.pexact ∧
      m2.pallBelow = m.pallBelow ∧ (m.pupChain = true → m2.pupChain = true) := by
  rcases h.2 p m hm with hm2 | hm2
  · exact ⟨m, hm2, rfl, rfl, fun hu => hu⟩
  · exact ⟨setUpChain m, hm2, rfl, rfl, fun _ => rfl⟩

theorem MaskUp_maskAt_rev {t t2 : INode} (h : MaskUp t t2) {p : List Nat}
    {m2 : PruneMask} (hm2 : maskAt p t2 = some m2) :
    ∃ m, maskAt p t = some m ∧ m2.pexact = m.pexact ∧
      m2.pallBelow = m.pallBelow ∧ (m.pupChain = true → m2.pupChain = true) := by
  rcases maskAt_some.mp hm2 with ⟨n2, hg2, hmm2⟩
  rcases strip_node_eq h.1.symm hg2 with ⟨n, hg, _⟩
  have hm : maskAt p t = some n.base.prune_mask :=
    maskAt_some.mpr ⟨n, hg, rfl⟩
  rcases MaskUp_maskAt h hm with ⟨m2b, hm2b, he, ha, hu⟩
  rw [hm2] at hm2b
  have heq : m2 = m2b := by simpa using hm2b
  subst heq
  exact ⟨n.base.prune_mask, hm, he, ha, hu⟩

theorem MaskUp_nz {t t2 : INode} (h : MaskUp t t2) (p : List Nat)
    (hnz : nzAt p t) : nzAt p t2 := by
  rcases hnz with ⟨m, hm, hz⟩
  rcases MaskUp_maskAt h hm with ⟨m2, hm2, he, ha, hu⟩
  refine ⟨m2, hm2, ?_⟩
  rw [mask_nz_iff] at hz ⊢
  rcases hz with hz | hz | hz
  · left; rw [he]; exact hz
  · right; left; rw [ha]; exact hz
  · right; right; exact hu hz

theorem MaskUp_node {t t2 : INode} (h : MaskUp t t2) {p : List Nat}
    {n : INode} (hg : getNode p t = some n) :
    ∃ n2, getNode p t2 = some n2 ∧ stripMask n2 = stripMask n ∧
      (markedB n = true → markedB n2 = true) := by
  rcases strip_node_eq h.1 hg with ⟨n2, hg2, hsn⟩
  refine ⟨n2, hg2, hsn, ?_⟩
  intro hmb
  have hm : maskAt p t = some n.base.prune_mask :=
    maskAt_some.mpr ⟨n, hg, rfl⟩
  have hm2 : maskAt p t2 = some n2.base.prune_mask :=
    maskAt_some.mpr ⟨n2, hg2, rfl⟩
  rcases MaskUp_maskAt h hm with ⟨m2, hm2b, he, ha, hu⟩
  rw [hm2] at hm2b
  have hmeq : n2.base.prune_mask = m2 := by simpa using hm2b
  cases hmeq
  rw [markedB_eq] at hmb ⊢
  rw [(strip_eq_fields hsn).2.1]
  by_cases hsym : n.isSymlink = true
  · rw [if_pos hsym] at hmb ⊢
    exact hu hmb
  · rw [if_neg hsym] at hmb ⊢
    rw [ha]
    exact hmb

theorem MaskUp_Evo1 {t t2 : INode} (h : MaskUp t t2) : Evo1 t t2 := by
  refine ⟨h.1, ?_, MaskUp_nz h, ?_⟩
  · intro p m hm
    rcases MaskUp_maskAt h hm with ⟨m2, hm2, he, ha, _⟩
    exact ⟨m2, hm2, he, fun hb => ha ▸ hb⟩
  · intro p n hg hmb
    rcases MaskUp_node h hg with ⟨n2, hg2, _, hmb2⟩
    exact ⟨n2, hg2, hmb2 hmb⟩

theorem MaskUp_GlobalInvL {S : List (List Nat)} {t t2 : INode}
    (h : GlobalInvL S t) (hu : MaskUp t t2) : GlobalInvL S t2 := by
  refine GlobalInvL_pres h hu.1 ?_ ?_
  · intro p b2 ch2 hg2 hb2 _
    rcases strip_node_eq hu.1.symm hg2 with ⟨n, hg, hsn⟩
    rcases isDir_ctor (by rw [(strip_eq_fields hsn).1]; rfl) with ⟨b, ch, hn⟩
    subst hn
    refine ⟨b, ch, hg, ?_⟩
    have hm2 : maskAt p t2 = some b2.prune_mask :=
      maskAt_some.mpr ⟨_, hg2, rfl⟩
    rcases MaskUp_maskAt_rev hu hm2 with ⟨m, hm, _, ha, _⟩
    rcases maskAt_some.mp hm with ⟨nb, hgb, hmb⟩
    rw [hg] at hgb
    have hnb : INode.dir b ch = nb := by simpa using hgb
    rw [← hnb] at hmb
    simp only [INode.base] at hmb
    rw [hmb, ← ha]
    exact hb2
  · intro p k n n2 _ hg hg2 hmb
    rcases MaskUp_node hu hg with ⟨n2b, hg2b, _, hmb2⟩
    rw [hg2] at hg2b
    have hbe : n2 = n2b := by simpa using hg2b
    subst hbe
    exact hmb2 hmb

theorem MaskUp_ChainMX {X : List (List Nat)} {t t2 : INode}
    (h : ChainMX X t) (hu : MaskUp t t2) : ChainMX X t2 := by
  refine ChainMX_pres h hu.1 ?_ (MaskUp_nz hu)
  intro p n2 hg2 hb2
  have hm2 : maskAt p t2 = some n2.base.prune_mask :=
    maskAt_some.mpr ⟨_, hg2, rfl⟩
  rcases MaskUp_maskAt_rev hu hm2 with ⟨m, hm, _, ha, _⟩
  rcases maskAt_some.mp hm with ⟨n, hg, hmb⟩
  refine ⟨n, hg, ?_⟩
  rw [hmb, ← ha]
  exact hb2

theorem MaskUp_NoSymAll {t t2 : INode} (h : NoSymAll t) (hu : MaskUp t t2) :
    NoSymAll t2 := by
  refine NoSymAll_pres h hu.1 ?_
  intro p n2 hg2 hsym2 hb2
  have hm2 : maskAt p t2 = some n2.base.prune_mask :=
    maskAt_some.mpr ⟨_, hg2, rfl⟩
  rcases MaskUp_maskAt_rev hu hm2 with ⟨m, hm, _, ha, _⟩
  rcases maskAt_some.mp hm with ⟨n, hg, hmb⟩
  rcases strip_node_eq hu.1 hg with ⟨n2b, hg2b, hsn⟩
  rw [hg2] at hg2b
  have hbe : n2 = n2b := by simpa using hg2b
  subst hbe
  refine ⟨n, hg, ?_, ?_⟩
  · rw [← (strip_eq_fields hsn).2.1]; exact hsym2
  · rw [hmb, ← ha]; exact hb2

theorem MaskUp_ExactKinds {t t2 : INode} (h : ExactKinds t)
    (hu : MaskUp t t2) : ExactKinds t2 := by
  refine ExactKinds_pres h hu.1 ?_
  intro p n2 hg2 he2
  have hm2 : maskAt p t2 = some n2.base.prune_mask :=
    maskAt_some.mpr ⟨_, hg2, rfl⟩
  rcases MaskUp_maskAt_rev hu hm2 with ⟨m, hm, he, _, _⟩
  rcases maskAt_some.mp hm with ⟨n, hg, hmb⟩
  refine ⟨n, hg, ?_⟩
  rw [hmb, ← he]
  exact he2

theorem Evo1_refl (t : INode) : Evo1 t t :=
  ⟨rfl, fun _ m hm => ⟨m, hm, rfl, fun hb => hb⟩, fun _ h => h,
    fun _ n hg hb => ⟨n, hg, hb⟩⟩

theorem Evo1_trans {t t2 t3 : INode} (h1 : Evo1 t t2) (h2 : Evo1 t2 t3) :
    Evo1 t t3 := by
  refine ⟨h1.1 ▸ h2.1, ?_, ?_, ?_⟩
  · intro p m hm
    rcases h1.2.1 p m hm with ⟨m2, hm2, he2, ha2⟩
    rcases h2.2.1 p m2 hm2 with ⟨m3, hm3, he3, ha3⟩
    exact ⟨m3, hm3, he3.trans he2, fun hb => ha3 (ha2 hb)⟩
  · intro p hnz
    exact h2.2.2.1 p (h1.2.2.1 p hnz)
  · intro p n hg hb
    rcases h1.2.2.2 p n hg hb with ⟨n2, hg2, hb2⟩
    exact h2.2.2.2 p n2 hg2 hb2

theorem setAllBelow_nz (m : PruneMask) : (setAllBelow m).isZero = false := by
  rw [mask_nz_iff]
  right; left; rfl

theorem Evo1_mk {t t2 : INode} (hs : stripMask t2 = stripMask t)
    (hm : ∀ p m, maskAt p t = some m → ∃ m2, maskAt p t2 = some m2 ∧
      m2.pexact = m.pexact ∧ (m.pallBelow = true → m2.pallBelow = true) ∧
      (m.isZero = false → m2.isZero = false))
    (hsym : ∀ p n, getNode p t = some n → n.isSymlink = true →
      n.base.prune_mask.pupChain = true →
      ∃ m2, maskAt p t2 = some m2 ∧ m2.pupChain = true) : Evo1 t t2 := by
  refine ⟨hs, ?_, ?_, ?_⟩
  · intro p m hmm
    rcases hm p m hmm with ⟨m2, hm2, he, ha, _⟩
    exact ⟨m2, hm2, he, ha⟩
  · intro p hnz
    rcases hnz with ⟨m, hmm, hz⟩
    rcases hm p m hmm with ⟨m2, hm2, _, _, hnzp⟩
    exact ⟨m2, hm2, hnzp hz⟩
  · intro p n hg hmb
    rcases strip_node_eq hs hg with ⟨n2, hg2, hsn⟩
    refine ⟨n2, hg2, ?_⟩
    rw [markedB_eq] at hmb ⊢
    rw [(strip_eq_fields hsn).2.1]
    by_cases hsl : n.isSymlink = true
    · rw [if_pos hsl] at hmb ⊢
      rcases hsym p n hg hsl hmb with ⟨m2, hm2, hup⟩
      rcases maskAt_some.mp hm2 with ⟨n2b, hg2b, hmask⟩
      rw [hg2] at hg2b
      have hbe : n2 = n2b := by simpa using hg2b
      subst hbe
      rw [← hmask] at hup
      exact hup
    · rw [if_neg hsl] at hmb ⊢
      have hm1 : maskAt p t = some n.base.prune_mask :=
        maskAt_some.mpr ⟨n, hg, rfl⟩
      rcases hm p _ hm1 with ⟨m2, hm2, _, ha, _⟩
      rcases maskAt_some.mp hm2 with ⟨n2b, hg2b, hmask⟩
      rw [hg2] at hg2b
      have hbe : n2 = n2b := by simpa using hg2b
      subst hbe
      rw [hmask]
      exact ha hmb

theorem upd_setAll_Evo1 (a : List Nat) (t : INode) :
    Evo1 t (updateMask setAllBelow a t) := by
  refine Evo1_mk (strip_updateMask _ a t) ?_ ?_
  · intro p m hm
    rw [maskAt_updateMask]
    by_cases hp : p = a
    · subst hp
      rw [if_pos rfl, hm]
      exact ⟨setAllBelow m, rfl, rfl, fun _ => rfl, fun _ => setAllBelow_nz m⟩
    · rw [if_neg hp]
      exact ⟨m, hm, rfl, fun hb => hb, fun hz => hz⟩
  · intro p n hg hsl hup
    rw [maskAt_updateMask]
    by_cases hp : p = a
    · subst hp
      rw [if_pos rfl, maskAt_some.mpr ⟨n, hg, rfl⟩]
      exact ⟨setAllBelow n.base.prune_mask, rfl, hup⟩
    · rw [if_neg hp]
      exact ⟨n.base.prune_mask, maskAt_some.mpr ⟨n, hg, rfl⟩, hup⟩

theorem upd_setAllClear_Evo1 (a : List Nat) (t : INode)
    (hnsym : ∀ n, getNode a t = some n → n.isSymlink = false) :
    Evo1 t (updateMask (fun m => setAllBelow (clearUpChain m)) a t) := by
  refine Evo1_mk (strip_updateMask _ a t) ?_ ?_
  · intro p m hm
    rw [maskAt_updateMask]
    by_cases hp : p = a
    · subst hp
      rw [if_pos rfl, hm]
      exact ⟨_, rfl, rfl, fun _ => rfl, fun _ => setAllBelow_nz _⟩
    · rw [if_neg hp]
      exact ⟨m, hm, rfl, fun hb => hb, fun hz => hz⟩
  · intro p n hg hsl hup
    rw [maskAt_updateMask]
    by_cases hp : p = a
    · subst hp
      rw [hnsym n hg] at hsl
      exact absurd hsl (by simp)
    · rw [if_neg hp]
      exact ⟨n.base.prune_mask, maskAt_some.mpr ⟨n, hg, rfl⟩, hup⟩

theorem NoSymAll_upd {t : INode} {a : List Nat} {f : PruneMask → PruneMask}
    (h : NoSymAll t)
    (hcond : (∀ m, (f m).pallBelow = m.pallBelow) ∨
      (∀ n, getNode a t = some n → n.isSymlink = false)) :
    NoSymAll (updateMask f a t) := by
  refine NoSymAll_pres h (strip_updateMask f a t) ?_
  intro p n2 hg2 hsym2 hb2
  rcases strip_node_eq (strip_updateMask f a t).symm hg2 with ⟨n, hg, hsn⟩
  refine ⟨n, hg, ?_, ?_⟩
  · rw [(strip_eq_fields hsn).2.1]; exact hsym2
  · have hm2 : maskAt p (updateMask f a t) = some n2.base.prune_mask :=
      maskAt_some.mpr ⟨n2, hg2, rfl⟩
    rw [maskAt_updateMask] at hm2
    by_cases hp : p = a
    · subst hp
      rw [if_pos rfl, maskAt_some.mpr ⟨n, hg, rfl⟩] at hm2
      have hmask : f n.base.prune_mask = n2.base.prune_mask := by
        simpa using hm2
      rcases hcond with hf | hns
      · rw [← hmask, hf] at hb2
        exact hb2
      · exfalso
        have hns2 := hns n hg
        rw [(strip_eq_fields hsn).2.1, hsym2] at hns2
        exact absurd hns2 (by simp)
    · rw [if_neg hp, maskAt_some.mpr ⟨n, hg, rfl⟩] at hm2
      have hmask : n.base.prune_mask = n2.base.prune_mask := by
        simpa using hm2
      rw [← hmask] at hb2
      exact hb2

theorem ExactKinds_upd {t : INode} {a : List Nat} {f : PruneMask → PruneMask}
    (h : ExactKinds t) (hf : ∀ m, (f m).pexact = m.pexact) :
    ExactKinds (updateMask f a t) := by
  refine ExactKinds_pres h (strip_updateMask f a t) ?_
  intro p n2 hg2 he2
  rcases strip_node_eq (strip_updateMask f a t).symm hg2 with ⟨n, hg, hsn⟩
  refine ⟨n, hg, ?_⟩
  have hm2 : maskAt p (updateMask f a t) = some n2.base.prune_mask :=
    maskAt_some.mpr ⟨n2, hg2, rfl⟩
  rw [maskAt_updateMask] at hm2
  by_cases hp : p = a
  · subst hp
    rw [if_pos rfl, maskAt_some.mpr ⟨n, hg, rfl⟩] at hm2
    have hmask : f n.base.prune_mask = n2.base.prune_mask := by
      simpa using hm2
    rw [← hmask, hf] at he2
    exact he2
  · rw [if_neg hp, maskAt_some.mpr ⟨n, hg, rfl⟩] at hm2
    have hmask : n.base.prune_mask = n2.base.prune_mask := by
      simpa using hm2
    rw [← hmask] at he2
    exact he2

theorem GlobalInvL_upd {S : List (List Nat)} {t : INode} {a : List Nat}
    {f : PruneMask → PruneMask} (h : GlobalInvL S t)
    (hdir : ∀ b ch, getNode a t = some (INode.dir b ch) →
      (f b.prune_mask).pallBelow = true →
      b.prune_mask.pallBelow = true ∨ a ∈ S)
    (hmb : ∀ n, getNode a t = some n → markedB n = true →
      markedB (n.withMask (f n.base.prune_mask)) = true) :
    GlobalInvL S (updateMask f a t) := by
  refine GlobalInvL_pres h (strip_updateMask f a t) ?_ ?_
  · intro p b2 ch2 hg2 hb2 hpS
    rcases strip_node_eq (strip_updateMask f a t).symm hg2 with ⟨n, hg, hsn⟩
    have hdirn : n.isDir = true := by
      rw [(strip_eq_fields hsn).1]; rfl
    rcases isDir_ctor hdirn with ⟨b, ch, hn⟩
    subst hn
    refine ⟨b, ch, hg, ?_⟩
    have hm2 : maskAt p (updateMask f a t) = some b2.prune_mask :=
      maskAt_some.mpr ⟨_, hg2, rfl⟩
    rw [maskAt_updateMask] at hm2
    by_cases hp : p = a
    · subst hp
      rw [if_pos rfl, maskAt_some.mpr ⟨_, hg, rfl⟩] at hm2
      have hmask : f (INode.dir b ch).base.prune_mask = b2.prune_mask := by
        simpa using hm2
      simp only [INode.base] at hmask
      rcases hdir b ch hg (by rw [hmask]; exact hb2) with hall | hmem
      · exact hall
      · exact absurd hmem hpS
    · rw [if_neg hp, maskAt_some.mpr ⟨_, hg, rfl⟩] at hm2
      have hmask : (INode.dir b ch).base.prune_mask = b2.prune_mask := by
        simpa using hm2
      simp only [INode.base] at hmask
      rw [hmask]
      exact hb2
  · intro pp kk n n2 _ hg hg2 hmbn
    have hm2 : maskAt (pp ++ [kk]) (updateMask f a t) =
        some n2.base.prune_mask :=
      maskAt_some.mpr ⟨n2, hg2, rfl⟩
    rw [maskAt_updateMask] at hm2
    rcases strip_node_eq (strip_updateMask f a t) hg with ⟨n2b, hg2b, hsn⟩
    rw [hg2] at hg2b
    have hbe : n2 = n2b := by simpa using hg2b
    subst hbe
    by_cases hp : pp ++ [kk] = a
    · subst hp
      rw [if_pos rfl, maskAt_some.mpr ⟨n, hg, rfl⟩] at hm2
      have hmask : f n.base.prune_mask = n2.base.prune_mask := by
        simpa using hm2
      have hres := hmb n hg hmbn
      rw [markedB_withMask, hmask] at hres
      rw [markedB_eq, (strip_eq_fields hsn).2.1]
      exact hres
    · rw [if_neg hp, maskAt_some.mpr ⟨n, hg, rfl⟩] at hm2
      have hmask : n.base.prune_mask = n2.base.prune_mask := by
        simpa using hm2
      rw [markedB_eq, (strip_eq_fields hsn).2.1, ← hmask]
      rw [markedB_eq] at hmbn
      exact hmbn

theorem ChainMX_upd {X : List (List Nat)} {t : INode} {a : List Nat}
    {f : PruneMask → PruneMask} (h : ChainMX X t)
    (hall : ∀ n, getNode a t = some n →
      (f n.base.prune_mask).pallBelow = true →
      n.base.prune_mask.pallBelow = true ∨
      (∀ q, ProperPrefixOf q a → ¬ q ∈ X → nzAt q (updateMask f a t)))
    (hnzf : ∀ m, m.isZero = false → (f m).isZero = false) :
    ChainMX X (updateMask f a t) := by
  have hnzp : ∀ q, nzAt q t → nzAt q (updateMask f a t) := by
    intro q hq
    rcases hq with ⟨m, hm, hz⟩
    unfold nzAt
    rw [maskAt_updateMask]
    by_cases hp : q = a
    · subst hp
      rw [if_pos rfl, hm]
      exact ⟨f m, rfl, hnzf m hz⟩
    · rw [if_neg hp]
      exact ⟨m, hm, hz⟩
  intro p n2 hg2 hball2 q hq hqX
  rcases strip_node_eq (strip_updateMask f a t).symm hg2 with ⟨n, hg, hsn⟩
  have hm2 : maskAt p (updateMask f a t) = some n2.base.prune_mask :=
    maskAt_some.mpr ⟨n2, hg2, rfl⟩
  rw [maskAt_updateMask] at hm2
  by_cases hp : p = a
  · subst hp
    rw [if_pos rfl, maskAt_some.mpr ⟨n, hg, rfl⟩] at hm2
    have hmask : f n.base.prune_mask = n2.base.prune_mask := by
      simpa using hm2
    rcases hall n hg (by rw [hmask]; exact hball2) with hall1 | hdirect
    · exact hnzp q (h p n hg hall1 q hq hqX)
    · exact hdirect q hq hqX
  · rw [if_neg hp, maskAt_some.mpr ⟨n, hg, rfl⟩] at hm2
    have hmask : n.base.prune_mask = n2.base.prune_mask := by
      simpa using hm2
    exact hnzp q (h p n hg (by rw [hmask]; exact hball2) q hq hqX)

theorem walk_spec : ∀ (vs : List Str) (t : INode) (a0 : List Nat)
    (b0 : IBase) (ch0 : List INode),
    getNode a0 t = some (INode.dir b0 ch0) →
    MaskUp t (markUpChainWalk vs t a0).1 ∧
    (∀ da, (markUpChainWalk vs t a0).2 = UpRes.foundDir da →
      (∃ ext, da = a0 ++ ext ∧ DirPath ext vs (INode.dir b0 ch0)) ∧
      ∀ q, ProperPrefixOf a0 q → PrefixOf q da →
        nzAt q (markUpChainWalk vs t a0).1) ∧
    (∀ ra, (markUpChainWalk vs t a0).2 = UpRes.foundReg ra →
      ∃ q0 j, ra = q0 ++ [j] ∧ PrefixOf a0 q0 ∧
        (∃ nr, getNode ra t = some nr ∧ nr.isRegular = true) ∧
        ∀ q, ProperPrefixOf a0 q → PrefixOf q q0 →
          nzAt q (markUpChainWalk vs t a0).1) := by
  intro vs
  induction vs with
  | nil =>
    intro t a0 b0 ch0 hdir0
    refine ⟨MaskUp_refl t, ?_, ?_⟩
    · intro da hda
      simp only [markUpChainWalk, UpRes.foundDir.injEq] at hda
      subst hda
      refine ⟨⟨[], by simp, rfl, rfl⟩, ?_⟩
      intro q hq1 hq2
      exfalso
      have h1 := ProperPrefixOf_length_lt hq1
      have h2 := PrefixOf_length_le hq2
      omega
    · intro ra hra
      simp [markUpChainWalk] at hra
  | cons ss rest ih =>
    intro t a0 b0 ch0 hdir0
    cases hfi : fnIndex ch0 ss with
    | none =>
      cases hreg : ch0.findIdx? (fun c => c.isRegular && c.base.filename == ss)
        with
      | some j =>
        have hunf : markUpChainWalk (ss :: rest) t a0 =
            (t, UpRes.foundReg (a0 ++ [j])) := by
          simp [markUpChainWalk, hdir0, hfi, hreg]
        rw [hunf]
        refine ⟨MaskUp_refl t, ?_, ?_⟩
        · intro da hda; simp at hda
        · intro ra hra
          simp only [UpRes.foundReg.injEq] at hra
          subst hra
          rcases findIdx?_some_spec _ ch0 j hreg with ⟨c, hc, hp⟩
          simp only [Bool.and_eq_true, beq_iff_eq] at hp
          refine ⟨a0, j, rfl, PrefixOf_refl a0, ?_, ?_⟩
          · refine ⟨c, ?_, hp.1⟩
            rw [getNode_child hdir0 j]
            exact hc
          · intro q hq1 hq2
            exfalso
            have h1 := ProperPrefixOf_length_lt hq1
            have h2 := PrefixOf_length_le hq2
            omega
      | none =>
        have hunf : markUpChainWalk (ss :: rest) t a0 = (t, UpRes.err) := by
          simp [markUpChainWalk, hdir0, hfi, hreg]
        rw [hunf]
        refine ⟨MaskUp_refl t, ?_, ?_⟩
        · intro da hda; simp at hda
        · intro ra hra; simp at hra
    | some i =>
      rcases fnIndex_some hfi with ⟨c, hci, hcdir, hcname⟩
      have hunf : markUpChainWalk (ss :: rest) t a0 =
          markUpChainWalk rest
            (if c.base.prune_mask.isZero
              then updateMask setUpChain (a0 ++ [i]) t else t) (a0 ++ [i]) := by
        simp [markUpChainWalk, hdir0, hfi, hci, hcdir]
      set t2 := if c.base.prune_mask.isZero
        then updateMask setUpChain (a0 ++ [i]) t else t with ht2
      have hmu1 : MaskUp t t2 := by
        rw [ht2]
        cases c.base.prune_mask.isZero
        · simp only [Bool.false_eq_true, if_neg]
          exact MaskUp_refl t
        · simp only [if_pos]
          exact MaskUp_updUp (a0 ++ [i]) t
      have hct : getNode (a0 ++ [i]) t = some c := by
        rw [getNode_child hdir0 i]; exact hci
      rcases MaskUp_node hmu1 hct with ⟨c2, hc2, hsc2, _⟩
      have hc2dir : c2.isDir = true := by
        rw [(strip_eq_fields hsc2).1]; exact hcdir
      rcases isDir_ctor hc2dir with ⟨b1, ch1, hc2eq⟩
      subst hc2eq
      have hnzchild : nzAt (a0 ++ [i]) t2 := by
        rw [ht2]
        cases hz : c.base.prune_mask.isZero
        · simp only [Bool.false_eq_true, if_neg]
          exact ⟨c.base.prune_mask, maskAt_some.mpr ⟨c, hct, rfl⟩, hz⟩
        · simp only [if_pos]
          refine ⟨setUpChain c.base.prune_mask, ?_, ?_⟩
          · rw [maskAt_updateMask, if_pos rfl, maskAt_some.mpr ⟨c, hct, rfl⟩]
            rfl
          · rw [mask_nz_iff]
            right; right; rfl
      have hih := ih t2 (a0 ++ [i]) b1 ch1 hc2
      rw [hunf]
      have hmu : MaskUp t (markUpChainWalk rest t2 (a0 ++ [i])).1 :=
        MaskUp_trans hmu1 hih.1
      refine ⟨hmu, ?_, ?_⟩
      · intro da hda
        rcases hih.2.1 da hda with ⟨⟨ext, hdaeq, hdp⟩, hmarks⟩
        constructor
        · refine ⟨i :: ext, by simp [hdaeq], ?_⟩
          simp only [DirPath, hci]
          exact ⟨rest, by rw [hcname], DirPath_congr hsc2.symm hdp⟩
        · intro q hq1 hq2
          have hqda : PrefixOf q ((a0 ++ [i]) ++ ext) := by
            rw [hdaeq] at hq2
            simpa using hq2
          rcases prefix_total hqda (PrefixOf_append_self (a0 ++ [i]) ext)
            with hcase | hcase
          · have hqeq : q = a0 ++ [i] := by
              apply PrefixOf_full hcase
              have := ProperPrefixOf_length_lt hq1
              simp
              omega
            subst hqeq
            exact MaskUp_nz hih.1 _ hnzchild
          · by_cases hqe : q = a0 ++ [i]
            · subst hqe
              exact MaskUp_nz hih.1 _ hnzchild
            · exact hmarks q ⟨hcase, fun h => hqe h.symm⟩ hq2
      · intro ra hra
        rcases hih.2.2 ra hra with ⟨q0, j, hraeq, hq0pre, ⟨nr, hnr, hnrreg⟩,
          hmarks⟩
        refine ⟨q0, j, hraeq, PrefixOf_trans (PrefixOf_append_self a0 [i])
          hq0pre, ?_, ?_⟩
        · rcases strip_node_eq hmu1.1.symm hnr with ⟨nrt, hnrt, hsnr⟩
          refine ⟨nrt, hnrt, ?_⟩
          rw [(strip_eq_fields hsnr).2.2.1]
          exact hnrreg
        · intro q hq1 hq2
          rcases prefix_total hq2 hq0pre with hcase | hcase
          · have hqeq : q = a0 ++ [i] := by
              apply PrefixOf_full hcase
              have := ProperPrefixOf_length_lt hq1
              simp
              omega
            subst hqeq
            exact MaskUp_nz hih.1 _ hnzchild
          · by_cases hqe : q = a0 ++ [i]
            · subst hqe
              exact MaskUp_nz hih.1 _ hnzchild
            · exact hmarks q ⟨hcase, fun h => hqe h.symm⟩ hq2

theorem muc_spec (t : INode) (S0 T : List Str) (hS0 : okComps S0)
    (hT : okComps T) (hw : wfRoot t = true) :
    MaskUp t (prune_mark_up_chain t (render T) (render S0)).1 ∧
    (∀ da, (prune_mark_up_chain t (render T) (render S0)).2 =
        UpRes.foundDir da →
      PrefixOf S0 T ∧ DirPath da (T.drop S0.length) t ∧
      ∀ q, PrefixOf q da →
        nzAt q (prune_mark_up_chain t (render T) (render S0)).1) ∧
    (∀ ra, (prune_mark_up_chain t (render T) (render S0)).2 =
        UpRes.foundReg ra →
      (∃ nr, getNode ra t = some nr ∧ nr.isRegular = true) ∧
      ∀ q, ProperPrefixOf q ra →
        nzAt q (prune_mark_up_chain t (render T) (render S0)).1) := by
  by_cases hpre : PrefixOf S0 T
  · have heq : prune_mark_up_chain t (render T) (render S0) =
        markUpChainWalk (T.drop S0.length)
          (if t.base.prune_mask.isZero
            then updateMask setUpChain [] t else t) [] := by
      unfold prune_mark_up_chain
      rw [split_path_source_eq S0 T hS0 hT, if_pos hpre]
    set t1 := if t.base.prune_mask.isZero
      then updateMask setUpChain [] t else t with ht1
    have hmu0 : MaskUp t t1 := by
      rw [ht1]
      cases t.base.prune_mask.isZero
      · simp only [Bool.false_eq_true, if_neg]
        exact MaskUp_refl t
      · simp only [if_pos]
        exact MaskUp_updUp [] t
    have hroot : getNode ([] : List Nat) t = some t := rfl
    have hnzroot : nzAt [] t1 := by
      rw [ht1]
      cases hz : t.base.prune_mask.isZero
      · simp only [Bool.false_eq_true, if_neg]
        exact ⟨t.base.prune_mask, maskAt_some.mpr ⟨t, hroot, rfl⟩, hz⟩
      · simp only [if_pos]
        refine ⟨setUpChain t.base.prune_mask, ?_, ?_⟩
        · rw [maskAt_updateMask, if_pos rfl,
            maskAt_some.mpr ⟨t, hroot, rfl⟩]
          rfl
        · rw [mask_nz_iff]
          right; right; rfl
    rcases MaskUp_node hmu0 hroot with ⟨t1b, ht1b, hst1, _⟩
    have ht1bself : t1 = t1b := by
      simpa [getNode] using ht1b
    subst ht1bself
    have ht1dir : t1.isDir = true := by
      rw [(strip_eq_fields hst1).1]
      rcases wf_root_dir hw with ⟨b, ch, ht, _, _, _⟩
      rw [ht]
      rfl
    rcases isDir_ctor ht1dir with ⟨b1, ch1, ht1eq⟩
    have hg1 : getNode ([] : List Nat) t1 = some (INode.dir b1 ch1) := by
      rw [← ht1eq]
      rfl
    have hws := walk_spec (T.drop S0.length) t1 [] b1 ch1 hg1
    rw [heq]
    have hmu : MaskUp t (markUpChainWalk (T.drop S0.length) t1 []).1 :=
      MaskUp_trans hmu0 hws.1
    refine ⟨hmu, ?_, ?_⟩
    · intro da hda
      rcases hws.2.1 da hda with ⟨⟨ext, hdaeq, hdp⟩, hmarks⟩
      have hdp2 : DirPath da (T.drop S0.length) t := by
        apply DirPath_congr hst1.symm
        rw [hdaeq]
        simp only [List.nil_append]
        rw [← ht1eq] at hdp
        exact hdp
      refine ⟨hpre, hdp2, ?_⟩
      intro q hq
      by_cases hqnil : q = []
      · subst hqnil
        exact MaskUp_nz hws.1 _ hnzroot
      · refine hmarks q ⟨?_, fun h => hqnil h.symm⟩ hq
        unfold PrefixOf
        simp
    · intro ra hra
      rcases hws.2.2 ra hra with ⟨q0, j, hraeq, _, ⟨nr, hnr, hnrreg⟩, hmarks⟩
      constructor
      · rcases strip_node_eq hmu0.1.symm hnr with ⟨nrt, hnrt, hsnr⟩
        refine ⟨nrt, hnrt, ?_⟩
        rw [(strip_eq_fields hsnr).2.2.1]
        exact hnrreg
      · intro q hq
        by_cases hqnil : q = []
        · subst hqnil
          exact MaskUp_nz hws.1 _ hnzroot
        · rw [hraeq] at hq
          refine hmarks q ⟨?_, fun h => hqnil h.symm⟩ (proper_prefix_snoc hq)
          unfold PrefixOf
          simp
  · have heq : prune_mark_up_chain t (render T) (render S0) =
        (t, UpRes.err) := by
      unfold prune_mark_up_chain
      rw [split_path_source_eq S0 T hS0 hT, if_neg hpre]
    rw [heq]
    refine ⟨MaskUp_refl t, ?_, ?_⟩
    · intro da hda; simp at hda
    · intro ra hra; simp at hra

theorem reg_mono (tr : INode) (e : Nat) (b : Bool) (addr : List Nat)
    (sp src : Str) (ip : Bool) :
    e ≤ (prune_prop_reg ⟨tr, e, b⟩ addr sp src ip).errs ∧
    (prune_prop_reg ⟨tr, e, b⟩ addr sp src ip).fout = b := by
  unfold prune_prop_reg
  repeat' split
  all_goals
    first
    | exact ⟨Nat.le_refl _, rfl⟩
    | exact ⟨Nat.le_add_right _ 1, rfl⟩

set_option maxHeartbeats 2000000 in
mutual

theorem dir_mono : ∀ (fuel : Nat) (tr : INode) (e : Nat) (b : Bool)
    (addr : List Nat) (sp src : Str) (ip : Bool)
    (canon : Str → Option Str),
    e ≤ (prune_prop_dir fuel ⟨tr, e, b⟩ addr sp src ip canon).errs ∧
    (b = true → (prune_prop_dir fuel ⟨tr, e, b⟩ addr sp src ip canon).fout =
      true)
  | 0, tr, e, b, addr, sp, src, ip, canon => ⟨Nat.le_refl _, fun _ => rfl⟩
  | fuel + 1, tr, e, b, addr, sp, src, ip, canon => by
      simp only [prune_prop_dir]
      repeat' split
      all_goals
        first
        | exact ⟨Nat.le_refl _, fun hf => hf⟩
        | exact ⟨Nat.le_add_right _ 1, fun hf => hf⟩
        | exact ⟨(children_mono fuel _ _ _ _ _ _ _ _ _ _).1,
            fun hf => (children_mono fuel _ _ _ _ _ _ _ _ _ _).2 hf⟩

theorem children_mono : ∀ (fuel : Nat) (tr : INode) (e : Nat) (b : Bool)
    (addr : List Nat) (sd src : Str) (ip : Bool) (canon : Str → Option Str)
    (rem k : Nat),
    e ≤ (prune_prop_children fuel ⟨tr, e, b⟩ addr sd src ip canon rem
      k).errs ∧
    (b = true → (prune_prop_children fuel ⟨tr, e, b⟩ addr sd src ip canon rem
      k).fout = true)
  | 0, tr, e, b, addr, sd, src, ip, canon, rem, k =>
      ⟨Nat.le_refl _, fun _ => rfl⟩
  | fuel + 1, tr, e, b, addr, sd, src, ip, canon, rem, k => by
      simp only [prune_prop_children]
      repeat' split
      all_goals
        first
        | exact ⟨Nat.le_refl _, fun hf => hf⟩
        | exact ⟨(children_mono fuel _ _ _ _ _ _ _ _ _ _).1,
            fun hf => (children_mono fuel _ _ _ _ _ _ _ _ _ _).2 hf⟩
        | exact ⟨Nat.le_trans (dir_mono fuel _ _ _ _ _ _ _ _).1
              (children_mono fuel _ _ _ _ _ _ _ _ _ _).1,
            fun hf => (children_mono fuel _ _ _ _ _ _ _ _ _ _).2
              ((dir_mono fuel _ _ _ _ _ _ _ _).2 hf)⟩
        | exact ⟨Nat.le_trans (symlink_mono fuel _ _ _ _ _ _ _).1
              (children_mono fuel _ _ _ _ _ _ _ _ _ _).1,
            fun hf => (children_mono fuel _ _ _ _ _ _ _ _ _ _).2
              ((symlink_mono fuel _ _ _ _ _ _ _).2 hf)⟩
        | exact ⟨Nat.le_trans (reg_mono _ _ _ _ _ _ _).1
              (children_mono fuel _ _ _ _ _ _ _ _ _ _).1,
            fun hf => (children_mono fuel _ _ _ _ _ _ _ _ _ _).2
              (((reg_mono _ _ _ _ _ _ _).2).symm ▸ hf)⟩
        | (rename_i st3 heq
           repeat' split at heq
           all_goals
             exact ⟨Nat.le_trans (Nat.le_trans
                 (symlink_mono fuel _ _ _ _ _ _ _).1
                 (Nat.le_of_eq (congrArg (fun r => r.1.errs) heq)))
               (children_mono fuel _ _ _ _ _ _ _ _ _ _).1,
              fun hf => (children_mono fuel _ _ _ _ _ _ _ _ _ _).2
                (congrArg (fun r => r.1.fout) heq ▸
                  (symlink_mono fuel _ _ _ _ _ _ _).2 hf)⟩)

theorem symlink_mono : ∀ (fuel : Nat) (tr : INode) (e : Nat) (b : Bool)
    (addr : List Nat) (sd src : Str) (canon : Str → Option Str),
    e ≤ (prune_prop_symlink fuel ⟨tr, e, b⟩ addr sd src canon).1.errs ∧
    (b = true →
      (prune_prop_symlink fuel ⟨tr, e, b⟩ addr sd src canon).1.fout = true)
  | 0, tr, e, b, addr, sd, src, canon => ⟨Nat.le_refl _, fun _ => rfl⟩
  | fuel + 1, tr, e, b, addr, sd, src, canon => by
      simp only [prune_prop_symlink]
      repeat' split
      all_goals
        first
        | exact ⟨Nat.le_refl _, fun hf => hf⟩
        | exact ⟨Nat.le_add_right _ 1, fun hf => hf⟩
        | exact ⟨(dir_mono fuel _ _ _ _ _ _ _ _).1,
            fun hf => (dir_mono fuel _ _ _ _ _ _ _ _).2 hf⟩

end

theorem ChainMX_discharge {X : List (List Nat)} {a : List Nat} {t : INode}
    (h : ChainMX (a :: X) t) (hnz : nzAt a t) : ChainMX X t := by
  intro p n hg hb q hq hqx
  by_cases hqa : q = a
  · subst hqa; exact hnz
  · exact h p n hg hb q hq (by simp [hqa, hqx])

theorem wfDirLevel_at {t : INode} (hw : wfRoot t = true) {p : List Nat}
    {n : INode} (hg : getNode p t = some n) : wfDirLevel n = true := by
  cases p with
  | nil =>
    simp [getNode] at hg
    subst hg
    exact wfDirLevel_of_root hw
  | cons i rest =>
    exact wfDirLevel_of_sub (wf_sub_node hw (i :: rest) n hg (by simp))

theorem walk_total : ∀ (vs : List Str) (t : INode) (a0 : List Nat)
    (b0 : IBase) (ch0 : List INode) (ext : List Nat),
    wfRoot t = true → getNode a0 t = some (INode.dir b0 ch0) →
    DirPath ext vs (INode.dir b0 ch0) →
    ∃ da, (markUpChainWalk vs t a0).2 = UpRes.foundDir da := by
  intro vs
  induction vs with
  | nil =>
    intro t a0 b0 ch0 ext hw hg hdp
    exact ⟨a0, rfl⟩
  | cons ss rest ih =>
    intro t a0 b0 ch0 ext hw hg hdp
    cases ext with
    | nil =>
      exfalso
      have := dirpath_length hdp
      simp at this
    | cons i ext2 =>
      simp only [DirPath] at hdp
      cases hci : ch0[i]? with
      | none => rw [hci] at hdp; exact absurd hdp (by simp)
      | some c =>
        rw [hci] at hdp
        rcases hdp with ⟨ns2, hns, hdp2⟩
        have hname : c.base.filename = ss := by
          have := (List.cons.injEq _ _ _ _ ▸ hns).1
          exact this.symm
        have hcdir : c.isDir = true := dirpath_isdir_child hdp2
        have hns2 : rest = ns2 := (List.cons.injEq _ _ _ _ ▸ hns).2
        subst hns2
        have hnd : (ch0.map (fun c => c.base.filename)).Nodup :=
          (wfDirLevel_dir (wfDirLevel_at hw hg)).1
        have hfi : fnIndex ch0 ss = some i := by
          cases hfi2 : fnIndex ch0 ss with
          | none =>
            exfalso
            have := findIdx?_none_spec _ ch0 hfi2 i c hci
            rw [hcdir, hname] at this
            simp at this
          | some i2 =>
            rcases fnIndex_some hfi2 with ⟨c2, hc2, hc2dir, hc2name⟩
            have hmi2 : (ch0.map (fun c => c.base.filename))[i2]? = some ss := by
              rw [List.getElem?_map, hc2]
              simp [hc2name]
            have hmi : (ch0.map (fun c => c.base.filename))[i]? = some ss := by
              rw [List.getElem?_map, hci]
              simp [hname]
            rw [nodup_getElem_inj hnd hmi2 hmi]
        have hunf : markUpChainWalk (ss :: rest) t a0 =
            markUpChainWalk rest
              (if c.base.prune_mask.isZero
                then updateMask setUpChain (a0 ++ [i]) t else t) (a0 ++ [i]) := by
          simp [markUpChainWalk, hg, hfi, hci, hcdir]
        rw [hunf]
        set t2 := if c.base.prune_mask.isZero
          then updateMask setUpChain (a0 ++ [i]) t else t with ht2
        have hmu1 : MaskUp t t2 := by
          rw [ht2]
          cases c.base.prune_mask.isZero
          · simp only [Bool.false_eq_true, if_neg]
            exact MaskUp_refl t
          · simp only [if_pos]
            exact MaskUp_updUp (a0 ++ [i]) t
        have hct : getNode (a0 ++ [i]) t = some c := by
          rw [getNode_child hg i]; exact hci
        rcases MaskUp_node hmu1 hct with ⟨c2, hc2, hsc2, _⟩
        have hc2dir : c2.isDir = true := by
          rw [(strip_eq_fields hsc2).1]; exact hcdir
        rcases isDir_ctor hc2dir with ⟨b1, ch1, hc2eq⟩
        subst hc2eq
        have hw2 : wfRoot t2 = true := by
          rw [wfRoot_congr hmu1.1]
          exact hw
        exact ih t2 (a0 ++ [i]) b1 ch1 ext2 hw2 hc2
          (DirPath_congr hsc2 hdp2)

theorem okComps_append {A B : List Str} (hA : okComps A) (hB : okComps B) :
    okComps (A ++ B) := by
  intro c hc
  rcases List.mem_append.mp hc with h | h
  · exact hA c h
  · exact hB c h

theorem muc_total (t : INode) (S0 ens : List Str) (da0 : List Nat)
    (hS0 : okComps S0) (hens : okComps ens)
    (hw : wfRoot t = true) (hdp : DirPath da0 ens t) :
    (prune_mark_up_chain t (render (S0 ++ ens)) (render S0)).2 =
      UpRes.foundDir da0 := by
  have hok : okComps (S0 ++ ens) := okComps_append hS0 hens
  have hpre : PrefixOf S0 (S0 ++ ens) := PrefixOf_append_self S0 ens
  have hdrop : (S0 ++ ens).drop S0.length = ens := by
    rw [List.drop_left]
  have heq : prune_mark_up_chain t (render (S0 ++ ens)) (render S0) =
      markUpChainWalk ((S0 ++ ens).drop S0.length)
        (if t.base.prune_mask.isZero
          then updateMask setUpChain [] t else t) [] := by
    unfold prune_mark_up_chain
    rw [split_path_source_eq S0 (S0 ++ ens) hS0 hok, if_pos hpre]
  set t1 := if t.base.prune_mask.isZero
    then updateMask setUpChain [] t else t with ht1
  have hmu0 : MaskUp t t1 := by
    rw [ht1]
    cases t.base.prune_mask.isZero
    · simp only [Bool.false_eq_true, if_neg]
      exact MaskUp_refl t
    · simp only [if_pos]
      exact MaskUp_updUp [] t
  have hroot : getNode ([] : List Nat) t = some t := rfl
  rcases MaskUp_node hmu0 hroot with ⟨t1b, ht1b, hst1, _⟩
  have ht1bself : t1 = t1b := by
    simpa [getNode] using ht1b
  subst ht1bself
  have ht1dir : t1.isDir = true := by
    rw [(strip_eq_fields hst1).1]
    rcases wf_root_dir hw with ⟨b, ch, ht, _, _, _⟩
    rw [ht]
    rfl
  rcases isDir_ctor ht1dir with ⟨b1, ch1, ht1eq⟩
  have hg1 : getNode ([] : List Nat) t1 = some (INode.dir b1 ch1) := by
    rw [← ht1eq]
    rfl
  have hw1 : wfRoot t1 = true := by
    rw [wfRoot_congr hst1]
    exact hw
  have hdp1 : DirPath da0 ens (INode.dir b1 ch1) := by
    rw [← ht1eq]
    exact DirPath_congr hst1 hdp
  rcases walk_total ens t1 [] b1 ch1 da0 hw1 hg1 hdp1 with ⟨da, hda⟩
  have hda2 : (prune_mark_up_chain t (render (S0 ++ ens)) (render S0)).2 =
      UpRes.foundDir da := by
    rw [heq, hdrop]
    exact hda
  rcases (muc_spec t S0 (S0 ++ ens) hS0 hok hw).2.1 da hda2 with
    ⟨_, hdpda, _⟩
  rw [hdrop] at hdpda
  rw [hda2, dirpath_unique (wfDirLevel_of_root hw) hdpda hdp]

theorem setAll_markedB {n : INode} (h : n.isSymlink = false)
    (m : PruneMask) : markedB (n.withMask (setAllBelow m)) = true := by
  rw [markedB_withMask, h]
  simp [setAllBelow]

theorem setAllClear_markedB {n : INode} (h : n.isSymlink = false)
    (m : PruneMask) :
    markedB (n.withMask (setAllBelow (clearUpChain m))) = true := by
  rw [markedB_withMask, h]
  simp [setAllBelow]

theorem nz_of_all {p : List Nat} {t : INode} {n : INode}
    (hg : getNode p t = some n) (h : n.base.prune_mask.pallBelow = true) :
    nzAt p t := by
  refine ⟨n.base.prune_mask, maskAt_some.mpr ⟨n, hg, rfl⟩, ?_⟩
  rw [mask_nz_iff]
  right; left; exact h

theorem markedAt_upd_setAll {t : INode} {a : List Nat} {n : INode}
    (hg : getNode a t = some n) (hns : n.isSymlink = false) :
    markedAt a (updateMask setAllBelow a t) := by
  refine ⟨n.withMask (setAllBelow n.base.prune_mask), ?_, ?_⟩
  · rw [getNode_updateMask_self, hg]
    rfl
  · exact setAll_markedB hns _

theorem markedAt_upd_setAllClear {t : INode} {a : List Nat} {n : INode}
    (hg : getNode a t = some n) (hns : n.isSymlink = false) :
    markedAt a (updateMask (fun m => setAllBelow (clearUpChain m)) a t) := by
  refine ⟨n.withMask (setAllBelow (clearUpChain n.base.prune_mask)), ?_, ?_⟩
  · rw [getNode_updateMask_self, hg]
    rfl
  · exact setAllClear_markedB hns _

theorem AncNZ_of_Evo1 {a : List Nat} {t t2 : INode} (h : AncNZ a t)
    (he : Evo1 t t2) : AncNZ a t2 :=
  fun q hq => he.2.2.1 q (h q hq)

theorem markedAt_of_Evo1 {a : List Nat} {t t2 : INode} (h : markedAt a t)
    (he : Evo1 t t2) : markedAt a t2 := by
  rcases h with ⟨n, hg, hb⟩
  exact he.2.2.2 a n hg hb

theorem nz_of_markedAt {a : List Nat} {t : INode} (h : markedAt a t) :
    nzAt a t := by
  rcases h with ⟨n, hg, hb⟩
  exact ⟨n.base.prune_mask, maskAt_some.mpr ⟨n, hg, rfl⟩, markedB_nonzero hb⟩

theorem prefix_decomp {α : Type} {a p : List α} (h : PrefixOf a p) :
    p = a ++ p.drop a.length := by
  conv_lhs => rw [← List.take_append_drop a.length p]
  rw [h]

theorem ProperPrefixOf_decomp {α : Type} {a p : List α}
    (h : ProperPrefixOf a p) : ∃ e, p = a ++ e ∧ e ≠ [] := by
  refine ⟨p.drop a.length, prefix_decomp h.1, ?_⟩
  intro he
  have hl := ProperPrefixOf_length_lt h
  have := congrArg List.length he
  simp at this
  omega

theorem getNode_cons_nondir {n : INode} (hnd : n.isDir = false) (i : Nat)
    (e : List Nat) : getNode (i :: e) n = none := by
  cases n with
  | dir b ch => simp [INode.isDir] at hnd
  | other b => rfl
  | symlink b tg => rfl
  | device b => rfl
  | fifosocket b => rfl
  | regular b => rfl

theorem no_node_below_nondir {t : INode} {a : List Nat} {n : INode}
    (hg : getNode a t = some n) (hnd : n.isDir = false) {p : List Nat}
    (hp : ProperPrefixOf a p) : getNode p t = none := by
  rcases ProperPrefixOf_decomp hp with ⟨e, hpe, hene⟩
  subst hpe
  rw [getNode_append, hg]
  cases e with
  | nil => exact absurd rfl hene
  | cons i e2 =>
    show getNode (i :: e2) n = none
    exact getNode_cons_nondir hnd i e2

/-- The invariants carried across pass-2 steps. -/
def InvPack (S : List (List Nat)) (t : INode) : Prop :=
  GlobalInvL S t ∧ ChainMX [] t ∧ NoSymAll t ∧ ExactKinds t

theorem reg_spec (st : PSt) (pa : List Nat) (j : Nat) (ns S0 : List Str)
    (source_pt : Str) (ip : Bool) (S : List (List Nat))
    (hS0 : okComps S0) (hsrc : source_pt = render S0)
    (hw : wfRoot st.tree = true)
    (hdp : DirPath pa ns st.tree)
    (hGI : GlobalInvL S st.tree) (hCM : ChainMX [pa ++ [j]] st.tree)
    (hNS : NoSymAll st.tree) (hEK : ExactKinds st.tree)
    (hanc : ip = true → AncNZ (pa ++ [j]) st.tree)
    (hnoall : ∀ n, getNode (pa ++ [j]) st.tree = some n →
      n.base.prune_mask.pallBelow = false)
    (herr : (prune_prop_reg st (pa ++ [j]) (render (S0 ++ ns)) source_pt
      ip).errs = st.errs) :
    Evo1 st.tree (prune_prop_reg st (pa ++ [j]) (render (S0 ++ ns))
      source_pt ip).tree ∧
    InvPack S (prune_prop_reg st (pa ++ [j]) (render (S0 ++ ns))
      source_pt ip).tree ∧
    (ip = true → markedAt (pa ++ [j]) (prune_prop_reg st (pa ++ [j])
      (render (S0 ++ ns)) source_pt ip).tree) ∧
    (ip = false → ∀ n, getNode (pa ++ [j]) st.tree = some n →
      n.base.prune_mask.pexact = true →
      markedAt (pa ++ [j]) (prune_prop_reg st (pa ++ [j])
        (render (S0 ++ ns)) source_pt ip).tree) := by
  subst hsrc
  have hok : okComps (S0 ++ ns) :=
    okComps_append hS0 (dirpath_ok (wfDirLevel_of_root hw) hdp)
  cases hg : getNode (pa ++ [j]) st.tree with
  | none =>
    have hres : prune_prop_reg st (pa ++ [j]) (render (S0 ++ ns))
        (render S0) ip = ⟨st.tree, st.errs + 1, st.fout⟩ := by
      simp [prune_prop_reg, hg]
    rw [hres] at herr
    exact absurd herr (by simp)
  | some n =>
    have hnall := hnoall n hg
    cases n with
    | other b =>
      have hres : prune_prop_reg st (pa ++ [j]) (render (S0 ++ ns))
          (render S0) ip = ⟨st.tree, st.errs + 1, st.fout⟩ := by
        simp [prune_prop_reg, hg]
      rw [hres] at herr
      exact absurd herr (by simp)
    | dir b ch =>
      have hres : prune_prop_reg st (pa ++ [j]) (render (S0 ++ ns))
          (render S0) ip = ⟨st.tree, st.errs + 1, st.fout⟩ := by
        simp [prune_prop_reg, hg]
      rw [hres] at herr
      exact absurd herr (by simp)
    | symlink b tg =>
      have hres : prune_prop_reg st (pa ++ [j]) (render (S0 ++ ns))
          (render S0) ip = ⟨st.tree, st.errs + 1, st.fout⟩ := by
        simp [prune_prop_reg, hg]
      rw [hres] at herr
      exact absurd herr (by simp)
    | device b =>
      have hres : prune_prop_reg st (pa ++ [j]) (render (S0 ++ ns))
          (render S0) ip = ⟨st.tree, st.errs + 1, st.fout⟩ := by
        simp [prune_prop_reg, hg]
      rw [hres] at herr
      exact absurd herr (by simp)
    | fifosocket b =>
      have hres : prune_prop_reg st (pa ++ [j]) (render (S0 ++ ns))
          (render S0) ip = ⟨st.tree, st.errs + 1, st.fout⟩ := by
        simp [prune_prop_reg, hg]
      rw [hres] at herr
      exact absurd herr (by simp)
    | regular b =>
      simp only [INode.base] at hnall
      have hnsym2 : ∀ n', getNode (pa ++ [j]) st.tree = some n' →
          n'.isSymlink = false := by
        intro n' hg'
        rw [hg] at hg'
        have hne : INode.regular b = n' := by simpa using hg'
        rw [← hne]
        rfl
      cases ip with
      | true =>
        by_cases hup : b.prune_mask.pupChain = true
        · have hres : prune_prop_reg st (pa ++ [j]) (render (S0 ++ ns))
              (render S0) true =
              ⟨updateMask (fun m => setAllBelow (clearUpChain m))
                (pa ++ [j]) st.tree, st.errs, st.fout⟩ := by
            simp [prune_prop_reg, hg, hnall, hup]
          rw [hres]
          have hEvo := upd_setAllClear_Evo1 (pa ++ [j]) st.tree hnsym2
          refine ⟨hEvo, ⟨?_, ?_, ?_, ?_⟩, ?_, ?_⟩
          · refine GlobalInvL_upd hGI ?_ ?_
            · intro b' ch' hgd
              rw [hg] at hgd
              simp at hgd
            · intro n' hg' hmb'
              rw [markedB_withMask, hnsym2 n' hg']
              simp [setAllBelow]
          · refine ChainMX_discharge ?_
              (nz_of_markedAt (markedAt_upd_setAllClear hg rfl))
            refine ChainMX_upd hCM ?_ ?_
            · intro n' hg' _
              exact Or.inr (fun q hq _ => hEvo.2.2.1 q (hanc rfl q hq))
            · intro m _
              exact setAllBelow_nz _
          · exact NoSymAll_upd hNS (Or.inr hnsym2)
          · exact ExactKinds_upd hEK (fun m => rfl)
          · intro _
            exact markedAt_upd_setAllClear hg rfl
          · intro h
            exact Bool.noConfusion h
        · cases hmuc : prune_mark_up_chain st.tree (render (S0 ++ ns))
            (render S0) with
          | mk t2 r =>
            have hspec := muc_spec st.tree S0 (S0 ++ ns) hS0 hok hw
            rw [hmuc] at hspec
            have hfin : ∀ (rr : UpRes),
                prune_prop_reg st (pa ++ [j]) (render (S0 ++ ns))
                  (render S0) true =
                ⟨updateMask setAllBelow (pa ++ [j]) t2, st.errs, st.fout⟩ →
                Evo1 st.tree (prune_prop_reg st (pa ++ [j])
                  (render (S0 ++ ns)) (render S0) true).tree ∧
                InvPack S (prune_prop_reg st (pa ++ [j])
                  (render (S0 ++ ns)) (render S0) true).tree ∧
                (true = true → markedAt (pa ++ [j]) (prune_prop_reg st
                  (pa ++ [j]) (render (S0 ++ ns)) (render S0) true).tree) ∧
                (true = false → ∀ n,
                  some (INode.regular b) = some n →
                  n.base.prune_mask.pexact = true →
                  markedAt (pa ++ [j]) (prune_prop_reg st (pa ++ [j])
                    (render (S0 ++ ns)) (render S0) true).tree) := by
              intro rr hres
              rw [hres]
              have hmu : MaskUp st.tree t2 := hspec.1
              rcases MaskUp_node hmu hg with ⟨n2, hg2, hsn2, _⟩
              have hns2 : n2.isSymlink = false := by
                rw [(strip_eq_fields hsn2).2.1]
                rfl
              have hnsym3 : ∀ n', getNode (pa ++ [j]) t2 = some n' →
                  n'.isSymlink = false := by
                intro n' hg'
                rw [hg2] at hg'
                have hne : n2 = n' := by simpa using hg'
                rw [← hne]
                exact hns2
              have hEvo := Evo1_trans (MaskUp_Evo1 hmu)
                (upd_setAll_Evo1 (pa ++ [j]) t2)
              refine ⟨hEvo, ⟨?_, ?_, ?_, ?_⟩, ?_, ?_⟩
              · refine GlobalInvL_upd (MaskUp_GlobalInvL hGI hmu) ?_ ?_
                · intro b' ch' hgd _
                  exfalso
                  rw [hg2] at hgd
                  have hne : n2 = INode.dir b' ch' := by simpa using hgd
                  have hdirn : n2.isDir = false := by
                    rw [(strip_eq_fields hsn2).1]
                    rfl
                  rw [hne] at hdirn
                  exact absurd hdirn (by simp [INode.isDir])
                · intro n' hg' hmb'
                  rw [markedB_withMask, hnsym3 n' hg']
                  simp [setAllBelow]
              · refine ChainMX_discharge ?_
                  (nz_of_markedAt (markedAt_upd_setAll hg2 hns2))
                refine ChainMX_upd (MaskUp_ChainMX hCM hmu) ?_ ?_
                · intro n' hg' _
                  refine Or.inr (fun q hq _ => ?_)
                  refine (upd_setAll_Evo1 (pa ++ [j]) t2).2.2.1 q ?_
                  exact MaskUp_nz hmu q (hanc rfl q hq)
                · intro m _
                  exact setAllBelow_nz _
              · exact NoSymAll_upd (MaskUp_NoSymAll hNS hmu) (Or.inr hnsym3)
              · exact ExactKinds_upd (MaskUp_ExactKinds hEK hmu)
                  (fun m => rfl)
              · intro _
                exact markedAt_upd_setAll hg2 hns2
              · intro h
                exact Bool.noConfusion h
            cases r with
            | err =>
              have hres : prune_prop_reg st (pa ++ [j]) (render (S0 ++ ns))
                  (render S0) true = ⟨t2, st.errs + 1, st.fout⟩ := by
                simp [prune_prop_reg, hg, hnall, hup, hmuc]
              rw [hres] at herr
              exact absurd herr (by simp)
            | foundDir da =>
              refine hfin (UpRes.foundDir da) ?_
              simp [prune_prop_reg, hg, hnall, hup, hmuc]
            | foundReg ra =>
              refine hfin (UpRes.foundReg ra) ?_
              simp [prune_prop_reg, hg, hnall, hup, hmuc]
      | false =>
        by_cases hex : b.prune_mask.pexact = true
        · have hwmid : wfRoot (updateMask setAllBelow (pa ++ [j])
              st.tree) = true := by
            rw [wfRoot_congr (strip_updateMask _ _ _)]
            exact hw
          have hdpmid : DirPath pa ns (updateMask setAllBelow (pa ++ [j])
              st.tree) :=
            DirPath_congr (strip_updateMask _ _ _) hdp
          have htot := muc_total (updateMask setAllBelow (pa ++ [j]) st.tree)
            S0 ns pa hS0 (dirpath_ok (wfDirLevel_of_root hw) hdp) hwmid hdpmid
          cases hmuc : prune_mark_up_chain
              (updateMask setAllBelow (pa ++ [j]) st.tree)
              (render (S0 ++ ns)) (render S0) with
          | mk t2 r =>
            rw [hmuc] at htot
            have hr : r = UpRes.foundDir pa := htot
            subst hr
            have hspec := muc_spec (updateMask setAllBelow (pa ++ [j])
              st.tree) S0 (S0 ++ ns) hS0 hok hwmid
            rw [hmuc] at hspec
            have hmu : MaskUp (updateMask setAllBelow (pa ++ [j]) st.tree)
              t2 := hspec.1
            rcases hspec.2.1 pa rfl with ⟨_, _, hmarks⟩
            have hres : prune_prop_reg st (pa ++ [j]) (render (S0 ++ ns))
                (render S0) false = ⟨t2, st.errs, st.fout⟩ := by
              simp [prune_prop_reg, hg, hex, hmuc]
            rw [hres]
            have hEvoMid := upd_setAll_Evo1 (pa ++ [j]) st.tree
            have hEvo := Evo1_trans hEvoMid (MaskUp_Evo1 hmu)
            have hgmid : getNode (pa ++ [j]) (updateMask setAllBelow
                (pa ++ [j]) st.tree) = some ((INode.regular b).withMask
                (setAllBelow b.prune_mask)) := by
              rw [getNode_updateMask_self, hg]
              rfl
            rcases MaskUp_node hmu hgmid with ⟨n2, hg2, hsn2, hmb2⟩
            have hmarked2 : markedAt (pa ++ [j]) t2 :=
              ⟨n2, hg2, hmb2 (@setAll_markedB (INode.regular b) rfl
                b.prune_mask)⟩
            refine ⟨hEvo, ⟨?_, ?_, ?_, ?_⟩, ?_, ?_⟩
            · refine MaskUp_GlobalInvL ?_ hmu
              refine GlobalInvL_upd hGI ?_ ?_
              · intro b' ch' hgd
                rw [hg] at hgd
                simp at hgd
              · intro n' hg' hmb'
                rw [markedB_withMask, hnsym2 n' hg']
                simp [setAllBelow]
            · intro p np hgp hbp q hq _
              by_cases hpa : p = pa ++ [j]
              · subst hpa
                exact hmarks q (proper_prefix_snoc hq)
              · have hbmid : ∃ nm, getNode p (updateMask setAllBelow
                    (pa ++ [j]) st.tree) = some nm ∧
                    nm.base.prune_mask.pallBelow = true := by
                  have hmp : maskAt p t2 = some np.base.prune_mask :=
                    maskAt_some.mpr ⟨np, hgp, rfl⟩
                  rcases MaskUp_maskAt_rev hmu hmp with ⟨mm, hmm, _, haa, _⟩
                  rcases maskAt_some.mp hmm with ⟨nm, hgm, hmaskm⟩
                  exact ⟨nm, hgm, by rw [hmaskm, ← haa]; exact hbp⟩
                rcases hbmid with ⟨nm, hgm, hbm⟩
                have hbst : ∃ nst, getNode p st.tree = some nst ∧
                    nst.base.prune_mask.pallBelow = true := by
                  have hmp : maskAt p (updateMask setAllBelow (pa ++ [j])
                      st.tree) = some nm.base.prune_mask :=
                    maskAt_some.mpr ⟨nm, hgm, rfl⟩
                  rw [maskAt_updateMask, if_neg hpa] at hmp
                  rcases maskAt_some.mp hmp with ⟨nst, hgst, hmaskst⟩
                  exact ⟨nst, hgst, by rw [hmaskst]; exact hbm⟩
                rcases hbst with ⟨nst, hgst, hbst2⟩
                by_cases hqa : q = pa ++ [j]
                · subst hqa
                  refine (MaskUp_Evo1 hmu).2.2.1 _ ?_
                  exact nz_of_all hgmid rfl
                · refine hEvo.2.2.1 q ?_
                  exact hCM p nst hgst hbst2 q hq (by simp [hqa])
            · exact MaskUp_NoSymAll (NoSymAll_upd hNS (Or.inr hnsym2)) hmu
            · exact MaskUp_ExactKinds
                (@ExactKinds_upd st.tree (pa ++ [j]) setAllBelow hEK
                  (fun m => rfl)) hmu
            · intro h
              exact Bool.noConfusion h
            · intro _ n' hg' _
              exact hmarked2
        · have hres : prune_prop_reg st (pa ++ [j]) (render (S0 ++ ns))
              (render S0) false = st := by
            simp [prune_prop_reg, hg, hex]
          rw [hres]
          refine ⟨Evo1_refl _, ⟨hGI, ?_, hNS, hEK⟩, ?_, ?_⟩
          · intro p np hgp hbp q hq _
            by_cases hqa : q = pa ++ [j]
            · subst hqa
              exfalso
              have hnone := no_node_below_nondir hg rfl hq
              rw [hnone] at hgp
              exact Option.noConfusion hgp
            · exact hCM p np hgp hbp q hq (by simp [hqa])
          · intro h
            exact Bool.noConfusion h
          · intro _ n' hg' hex'
            have hne : INode.regular b = n' := by simpa using hg'
            rw [← hne] at hex'
            simp only [INode.base] at hex'
            exact absurd hex' hex

theorem snoc_inj {α : Type} {p pa : List α} {x y : α}
    (h : p ++ [x] = pa ++ [y]) : p = pa ∧ x = y := by
  have hl : p.length = pa.length := by
    have := congrArg List.length h
    simp at this
    exact this
  constructor
  · have h1 := congrArg (fun l => List.take p.length l) h
    simpa [List.take_left, hl, List.take_left] using h1
  · have h2 := congrArg (fun l => l.getLast?) h
    simpa using h2

theorem ChainMX_upd_clear {X : List (List Nat)} {t : INode} {a : List Nat}
    (h : ChainMX X t) : ChainMX (a :: X) (updateMask clearUpChain a t) := by
  intro p n2 hg2 hb2 q hq hqx
  have hqa : q ≠ a := fun he => hqx (he ▸ List.mem_cons_self a X)
  have hqX : ¬ q ∈ X := fun hm => hqx (List.mem_cons_of_mem a hm)
  rcases strip_node_eq (strip_updateMask _ _ _).symm hg2 with ⟨n, hg, hsn⟩
  have hm2 : maskAt p (updateMask clearUpChain a t) =
      some n2.base.prune_mask := maskAt_some.mpr ⟨n2, hg2, rfl⟩
  rw [maskAt_updateMask] at hm2
  have hnall : n.base.prune_mask.pallBelow = true := by
    by_cases hp : p = a
    · subst hp
      rw [if_pos rfl, maskAt_some.mpr ⟨n, hg, rfl⟩] at hm2
      have hmask : clearUpChain n.base.prune_mask = n2.base.prune_mask := by
        simpa using hm2
      rw [← hmask] at hb2
      exact hb2
    · rw [if_neg hp, maskAt_some.mpr ⟨n, hg, rfl⟩] at hm2
      have hmask : n.base.prune_mask = n2.base.prune_mask := by
        simpa using hm2
      rw [hmask]
      exact hb2
  have hnz := h p n hg hnall q hq hqX
  rcases hnz with ⟨m, hm, hz⟩
  refine ⟨m, ?_, hz⟩
  rw [maskAt_updateMask, if_neg hqa]
  exact hm

theorem GlobalInvL_upd_clear {SS : List (List Nat)} {t : INode}
    {pa : List Nat} {k : Nat} (h : GlobalInvL SS t) (hpa : pa ∈ SS) :
    GlobalInvL SS (updateMask clearUpChain (pa ++ [k]) t) := by
  refine GlobalInvL_pres h (strip_updateMask _ _ _) ?_ ?_
  · intro p b2 ch2 hg2 hb2 hpS
    rcases strip_node_eq (strip_updateMask _ _ _).symm hg2 with ⟨n, hg, hsn⟩
    have hdirn : n.isDir = true := by
      rw [(strip_eq_fields hsn).1]; rfl
    rcases isDir_ctor hdirn with ⟨b, ch, hn⟩
    subst hn
    refine ⟨b, ch, hg, ?_⟩
    have hm2 : maskAt p (updateMask clearUpChain (pa ++ [k]) t) =
        some b2.prune_mask := maskAt_some.mpr ⟨_, hg2, rfl⟩
    rw [maskAt_updateMask] at hm2
    by_cases hp : p = pa ++ [k]
    · subst hp
      rw [if_pos rfl, maskAt_some.mpr ⟨_, hg, rfl⟩] at hm2
      have hmask : clearUpChain (INode.dir b ch).base.prune_mask =
          b2.prune_mask := by simpa using hm2
      simp only [INode.base] at hmask
      rw [← hmask] at hb2
      exact hb2
    · rw [if_neg hp, maskAt_some.mpr ⟨_, hg, rfl⟩] at hm2
      have hmask : (INode.dir b ch).base.prune_mask = b2.prune_mask := by
        simpa using hm2
      simp only [INode.base] at hmask
      rw [hmask]
      exact hb2
  · intro pp kk n n2 hppS hg hg2 hmbn
    have hpc : pp ++ [kk] ≠ pa ++ [k] := by
      intro he
      exact hppS ((snoc_inj he).1 ▸ hpa)
    have hm2 : maskAt (pp ++ [kk]) (updateMask clearUpChain (pa ++ [k]) t) =
        some n2.base.prune_mask := maskAt_some.mpr ⟨n2, hg2, rfl⟩
    rw [maskAt_updateMask, if_neg hpc,
      maskAt_some.mpr ⟨n, hg, rfl⟩] at hm2
    have hmask : n.base.prune_mask = n2.base.prune_mask := by
      simpa using hm2
    rcases strip_node_eq (strip_updateMask clearUpChain (pa ++ [k]) t) hg
      with ⟨n2b, hg2b, hsnb⟩
    rw [hg2] at hg2b
    have hbe : n2 = n2b := by simpa using hg2b
    subst hbe
    rw [markedB_eq] at hmbn ⊢
    rw [(strip_eq_fields hsnb).2.1, ← hmask]
    exact hmbn

theorem Evo1_patch {t t1 tr : INode} {c : List Nat}
    (hstrip : stripMask t1 = stripMask t)
    (hmask : ∀ p m, maskAt p t = some m → ∃ m1, maskAt p t1 = some m1 ∧
      m1.pexact = m.pexact ∧ (m.pallBelow = true → m1.pallBelow = true))
    (hrest : ∀ p, p ≠ c → maskAt p t1 = maskAt p t)
    (hE : Evo1 t1 tr) (hc : markedAt c tr) : Evo1 t tr := by
  refine ⟨hstrip ▸ hE.1, ?_, ?_, ?_⟩
  · intro p m hm
    rcases hmask p m hm with ⟨m1, hm1, he1, ha1⟩
    rcases hE.2.1 p m1 hm1 with ⟨m2, hm2, he2, ha2⟩
    exact ⟨m2, hm2, he2.trans he1, fun hb => ha2 (ha1 hb)⟩
  · intro p hnz
    by_cases hpc : p = c
    · subst hpc
      exact nz_of_markedAt hc
    · refine hE.2.2.1 p ?_
      rcases hnz with ⟨m, hm, hz⟩
      exact ⟨m, (hrest p hpc) ▸ hm, hz⟩
  · intro p n hg hb
    by_cases hpc : p = c
    · subst hpc
      exact hc
    · rcases strip_node_eq hstrip hg with ⟨n1, hg1, hsn1⟩
      refine hE.2.2.2 p n1 hg1 ?_
      have hm1 : maskAt p t1 = some n1.base.prune_mask :=
        maskAt_some.mpr ⟨n1, hg1, rfl⟩
      rw [hrest p hpc, maskAt_some.mpr ⟨n, hg, rfl⟩] at hm1
      have hmeq : n.base.prune_mask = n1.base.prune_mask := by
        simpa using hm1
      rw [markedB_eq] at hb ⊢
      rw [(strip_eq_fields hsn1).2.1, ← hmeq]
      exact hb

theorem dirall_of_Evo1 {t tr : INode} {addr : List Nat} {b : IBase}
    {ch : List INode} (hE : Evo1 t tr)
    (hg : getNode addr t = some (INode.dir b ch))
    (hb : b.prune_mask.pallBelow = true) :
    ∃ b2 ch2, getNode addr tr = some (INode.dir b2 ch2) ∧
      b2.prune_mask.pallBelow = true ∧ ch2.length = ch.length := by
  rcases strip_node_eq hE.1 hg with ⟨n2, hg2, hsn2⟩
  have hdirn : n2.isDir = true := by
    rw [(strip_eq_fields hsn2).1]; rfl
  rcases isDir_ctor hdirn with ⟨b2, ch2, hn2⟩
  subst hn2
  refine ⟨b2, ch2, hg2, ?_, ?_⟩
  · rcases hE.2.1 addr b.prune_mask (maskAt_some.mpr ⟨_, hg, rfl⟩) with
      ⟨m2, hm2, _, ha2⟩
    rcases maskAt_some.mp hm2 with ⟨nn, hgnn, hmask⟩
    rw [hg2] at hgnn
    have hnn : INode.dir b2 ch2 = nn := by simpa using hgnn
    rw [← hnn] at hmask
    simp only [INode.base] at hmask
    rw [hmask]
    exact ha2 hb
  · have h1 : stripList ch2 = stripList ch := by
      have := hsn2
      simp [stripMask] at this
      exact this.2
    have h2 := congrArg List.length h1
    rw [stripList_length, stripList_length] at h2
    exact h2

theorem dir_shape_transfer {t t2 : INode} {addr : List Nat} {b : IBase}
    {ch : List INode} (hs : stripMask t2 = stripMask t)
    (hg : getNode addr t = some (INode.dir b ch)) :
    ∃ b2 ch2, getNode addr t2 = some (INode.dir b2 ch2) ∧
      ch2.length = ch.length := by
  rcases strip_node_eq hs hg with ⟨n2, hg2, hsn2⟩
  have hdirn : n2.isDir = true := by
    rw [(strip_eq_fields hsn2).1]; rfl
  rcases isDir_ctor hdirn with ⟨b2, ch2, hn2⟩
  subst hn2
  refine ⟨b2, ch2, hg2, ?_⟩
  have h1 : stripList ch2 = stripList ch := by
    have := hsn2
    simp [stripMask] at this
    exact this.2
  have h2 := congrArg List.length h1
  rw [stripList_length, stripList_length] at h2
  exact h2

theorem AncNZ_child {t : INode} {addr : List Nat} {k : Nat} {b : IBase}
    {ch : List INode} (hg : getNode addr t = some (INode.dir b ch))
    (hb : b.prune_mask.pallBelow = true) (hCM : ChainMX [] t) :
    AncNZ (addr ++ [k]) t := by
  intro q hq
  rcases prefix_snoc_case hq.1 with he | hple
  · exact absurd he hq.2
  · by_cases hqa : q = addr
    · subst hqa
      exact nz_of_all hg hb
    · exact hCM addr (INode.dir b ch) hg hb q ⟨hple, hqa⟩ (by simp)

theorem markedB_of_all_nosym {t : INode} {p : List Nat} {n : INode}
    (hNS : NoSymAll t) (hg : getNode p t = some n)
    (hb : n.base.prune_mask.pallBelow = true) : markedB n = true := by
  rw [markedB_eq]
  by_cases hsl : n.isSymlink = true
  · exfalso
    rcases isSymlink_ctor hsl with ⟨bb, tg, hn⟩
    subst hn
    simp only [INode.base] at hb
    rw [hNS p bb tg hg] at hb
    exact absurd hb (by simp)
  · rw [if_neg hsl]
    exact hb

theorem deep_marked {t : INode} {S : List (List Nat)} (hG : GlobalInvL S t) :
    ∀ (e p : List Nat) (np : INode), getNode p t = some np →
      markedB np = true → (∀ s ∈ S, ¬ PrefixOf p s) →
      ∀ n, getNode (p ++ e) t = some n → markedB n = true := by
  intro e
  induction e with
  | nil =>
    intro p np hgp hmb _ n hgn
    rw [List.append_nil, hgp] at hgn
    have hne : np = n := by simpa using hgn
    rw [← hne]
    exact hmb
  | cons i e2 ih =>
    intro p np hgp hmb hS n hgn
    have hsplit : getNode (p ++ i :: e2) t =
        (getNode (p ++ [i]) t).bind (getNode e2) := by
      have h1 : p ++ i :: e2 = (p ++ [i]) ++ e2 := by simp
      rw [h1, getNode_append]
    rw [hsplit] at hgn
    cases hc : getNode (p ++ [i]) t with
    | none => rw [hc] at hgn; exact absurd hgn (by simp)
    | some c =>
      rw [hc] at hgn
      have h2 : getNode [i] np = some c := by
        have h3 : getNode (p ++ [i]) t = some c := hc
        rw [getNode_append, hgp] at h3
        exact h3
      have hnpd : ∃ b ch, np = INode.dir b ch := by
        cases np with
        | dir b ch => exact ⟨b, ch, rfl⟩
        | other b => simp [getNode] at h2
        | symlink b tg => simp [getNode] at h2
        | device b => simp [getNode] at h2
        | fifosocket b => simp [getNode] at h2
        | regular b => simp [getNode] at h2
      rcases hnpd with ⟨b, ch, hnp⟩
      subst hnp
      have hball : b.prune_mask.pallBelow = true := hmb
      have hci : ch[i]? = some c := by
        rw [← getNode_child hgp i]
        exact hc
      have hmbc : markedB c = true := by
        refine hG p b ch hgp hball ?_ i c hci
        intro hmem
        exact hS p hmem (PrefixOf_refl p)
      have hS2 : ∀ s ∈ S, ¬ PrefixOf (p ++ [i]) s := by
        intro s hs hpre
        exact hS s hs (PrefixOf_trans (PrefixOf_append_self p [i]) hpre)
      have hgn2 : getNode ((p ++ [i]) ++ e2) t = some n := by
        rw [getNode_append, hc]
        exact hgn
      exact ih (p ++ [i]) c hc hmbc hS2 n hgn2

theorem exact_of_Evo1 {t t2 : INode} {m : List Nat} {nm : INode}
    (hE : Evo1 t t2) (hg : getNode m t = some nm)
    (he : nm.base.prune_mask.pexact = true) :
    ∃ nm2, getNode m t2 = some nm2 ∧ nm2.base.prune_mask.pexact = true := by
  rcases strip_node_eq hE.1 hg with ⟨nm2, hg2, _⟩
  refine ⟨nm2, hg2, ?_⟩
  rcases hE.2.1 m nm.base.prune_mask (maskAt_some.mpr ⟨nm, hg, rfl⟩) with
    ⟨m2, hm2, he2, _⟩
  rcases maskAt_some.mp hm2 with ⟨nn, hgnn, hmask⟩
  rw [hg2] at hgnn
  have hnn : nm2 = nn := by simpa using hgnn
  rw [hnn, hmask, he2]
  exact he

theorem ChainMX_clear_sym {t : INode} {c : List Nat} {bs : IBase} {tgs : Str}
    (h : ChainMX [] t) (hNS : NoSymAll t)
    (hgc : getNode c t = some (INode.symlink bs tgs)) :
    ChainMX [] (updateMask clearUpChain c t) := by
  intro p n2 hg2 hb2 q hq hqx
  rcases strip_node_eq (strip_updateMask _ _ _).symm hg2 with ⟨n, hg, hsn⟩
  have hm2 : maskAt p (updateMask clearUpChain c t) =
      some n2.base.prune_mask := maskAt_some.mpr ⟨n2, hg2, rfl⟩
  rw [maskAt_updateMask] at hm2
  have hnall : n.base.prune_mask.pallBelow = true := by
    by_cases hp : p = c
    · subst hp
      rw [if_pos rfl, maskAt_some.mpr ⟨n, hg, rfl⟩] at hm2
      have hmask : clearUpChain n.base.prune_mask = n2.base.prune_mask := by
        simpa using hm2
      rw [← hmask] at hb2
      exact hb2
    · rw [if_neg hp, maskAt_some.mpr ⟨n, hg, rfl⟩] at hm2
      have hmask : n.base.prune_mask = n2.base.prune_mask := by
        simpa using hm2
      rw [hmask]
      exact hb2
  have hpc : p ≠ c := by
    intro he
    subst he
    rw [hgc] at hg
    have hne : INode.symlink bs tgs = n := by simpa using hg
    rw [← hne] at hnall
    simp only [INode.base] at hnall
    rw [hNS p bs tgs hgc] at hnall
    exact absurd hnall (by simp)
  have hqc : q ≠ c := by
    intro he
    subst he
    have hnone := no_node_below_nondir hgc rfl
      (ProperPrefixOf_of_le hq (PrefixOf_refl p))
    rw [hnone] at hg
    exact Option.noConfusion hg
  rcases h p n hg hnall q hq (by simp) with ⟨m, hm, hz⟩
  refine ⟨m, ?_, hz⟩
  rw [maskAt_updateMask, if_neg hqc]
  exact hm
set_option maxHeartbeats 4000000 in
mutual

/-- Master specification of prune_prop_dir: an error-free, fuel-sufficient
run preserves the invariant pack, evolves masks monotonically (Evo1) and,
with in_prune set, marks the directory itself; without in_prune it marks
every exact node at or below the directory. -/
theorem dir_spec : ∀ (fuel : Nat) (st : PSt) (addr : List Nat)
    (ns S0 : List Str) (canon : Str → Option Str) (ip : Bool)
    (S : List (List Nat)),
    okComps S0 → S0 ≠ [] → canonOK canon →
    wfRoot st.tree = true →
    DirPath addr ns st.tree →
    GlobalInvL (if ip = true then addr :: S else S) st.tree →
    ChainMX (if ip = true then [addr] else []) st.tree →
    NoSymAll st.tree → ExactKinds st.tree →
    (ip = true → AncNZ addr st.tree) →
    (ip = true → ∀ n, getNode addr st.tree = some n →
      n.base.prune_mask.pallBelow = false) →
    (ip = false → ∀ s ∈ S, ¬ PrefixOf addr s) →
    st.fout = false →
    (prune_prop_dir fuel st addr (render (S0 ++ ns.dropLast)) (render S0)
      ip canon).fout = false →
    (prune_prop_dir fuel st addr (render (S0 ++ ns.dropLast)) (render S0)
      ip canon).errs = st.errs →
    Evo1 st.tree (prune_prop_dir fuel st addr
      (render (S0 ++ ns.dropLast)) (render S0) ip canon).tree ∧
    InvPack S (prune_prop_dir fuel st addr
      (render (S0 ++ ns.dropLast)) (render S0) ip canon).tree ∧
    (ip = true → markedAt addr (prune_prop_dir fuel st addr
      (render (S0 ++ ns.dropLast)) (render S0) ip canon).tree) ∧
    (ip = false → ∀ m nm, getNode m st.tree = some nm →
      nm.base.prune_mask.pexact = true → PrefixOf addr m →
      markedAt m (prune_prop_dir fuel st addr
        (render (S0 ++ ns.dropLast)) (render S0) ip canon).tree)
  | 0, st, addr, ns, S0, canon, ip, S => by
      intro hS0 hS0ne hcanon hw hdp hGI hCM hNS hEK hanc hnalldir hSd hf0
        hf1 herr
      exact absurd hf1 (by simp [prune_prop_dir])
  | fuel + 1, st, addr, ns, S0, canon, ip, S => by
      intro hS0 hS0ne hcanon hw hdp hGI hCM hNS hEK hanc hnalldir hSd hf0
        hf1 herr
      rcases dirpath_getNode hdp with ⟨b, ch, hg⟩
      have hwd := wf_dir_at hw hg
      have hnsok : okComps ns := dirpath_ok (wfDirLevel_of_root hw) hdp
      have hnsymA : ∀ n, getNode addr st.tree = some n →
          n.isSymlink = false := by
        intro n hn
        rw [hg] at hn
        have hne : INode.dir b ch = n := by simpa using hn
        rw [← hne]
        rfl
      -- every branch that marks the directory all_below on a tree t1 and
      -- then runs the child loop with in_prune finishes the same way
      have hfinish : ∀ (t1 : INode),
          prune_prop_dir (fuel + 1) st addr (render (S0 ++ ns.dropLast))
            (render S0) ip canon =
            prune_prop_children fuel ⟨t1, st.errs, st.fout⟩ addr
              (render (S0 ++ ns)) (render S0) true canon ch.length 0 →
          Evo1 st.tree t1 →
          wfRoot t1 = true →
          DirPath addr ns t1 →
          (∃ b1 ch1, getNode addr t1 = some (INode.dir b1 ch1) ∧
            b1.prune_mask.pallBelow = true ∧ ch1.length = ch.length) →
          GlobalInvL (addr :: S) t1 →
          ChainMX [] t1 →
          NoSymAll t1 → ExactKinds t1 →
          Evo1 st.tree (prune_prop_dir (fuel + 1) st addr
            (render (S0 ++ ns.dropLast)) (render S0) ip canon).tree ∧
          InvPack S (prune_prop_dir (fuel + 1) st addr
            (render (S0 ++ ns.dropLast)) (render S0) ip canon).tree ∧
          markedAt addr (prune_prop_dir (fuel + 1) st addr
            (render (S0 ++ ns.dropLast)) (render S0) ip canon).tree := by
        intro t1 hres hE1 hw1 hdp1 hdall1 hGI1 hCM1 hNS1 hEK1
        rcases hdall1 with ⟨b1, ch1, hg1, hb1, hlen1⟩
        have herrC := herr
        rw [hres] at herrC
        have hf1C := hf1
        rw [hres] at hf1C
        rw [hres]
        have hcs := children_spec fuel ⟨t1, st.errs, st.fout⟩ addr ns S0
          canon true S ch.length 0 b1 ch1 hS0 hS0ne hcanon hw1 hdp1 hg1
          (by omega) (by simpa using hGI1) hCM1 hNS1 hEK1 (fun _ => hb1)
          (fun h => Bool.noConfusion h) hf0 hf1C herrC
        have hmk1 : markedAt addr t1 :=
          ⟨INode.dir b1 ch1, hg1, hb1⟩
        have hmkR : markedAt addr (prune_prop_children fuel
            ⟨t1, st.errs, st.fout⟩ addr (render (S0 ++ ns)) (render S0)
            true canon ch.length 0).tree :=
          markedAt_of_Evo1 hmk1 hcs.1
        refine ⟨Evo1_trans hE1 hcs.1, ⟨?_, hcs.2.2.1, hcs.2.2.2.1,
          hcs.2.2.2.2.1⟩, hmkR⟩
        intro p bp chp hgp hbp hpS
        by_cases hpa : p = addr
        · subst hpa
          intro kk c hkk
          rcases dir_shape_transfer hcs.1.1 hg1 with ⟨b2, ch2, hg2, hl2⟩
          rw [hgp] at hg2
          obtain ⟨hbe, hche⟩ : bp = b2 ∧ chp = ch2 := by
            simpa using hg2
          have hkklt : kk < chp.length := by
            exact (List.getElem?_eq_some_iff.mp hkk).1
          have hlchain : chp.length = ch.length := by
            rw [hche, hl2, hlen1]
          rcases hcs.2.2.2.2.2.1 rfl kk (Nat.zero_le kk) (by omega) with
            ⟨cn, hgcn, hmbcn⟩
          rw [getNode_child hgp kk, hkk] at hgcn
          have hce : c = cn := by simpa using hgcn
          rw [hce]
          exact hmbcn
        · exact hcs.2.1 p bp chp hgp hbp (by simp [hpa, hpS])
      -- the closing move of the two exact (not in_prune) branches
      have hEFclose : ip = false →
          (Evo1 st.tree (prune_prop_dir (fuel + 1) st addr
            (render (S0 ++ ns.dropLast)) (render S0) ip canon).tree ∧
          InvPack S (prune_prop_dir (fuel + 1) st addr
            (render (S0 ++ ns.dropLast)) (render S0) ip canon).tree ∧
          markedAt addr (prune_prop_dir (fuel + 1) st addr
            (render (S0 ++ ns.dropLast)) (render S0) ip canon).tree) →
          Evo1 st.tree (prune_prop_dir (fuel + 1) st addr
            (render (S0 ++ ns.dropLast)) (render S0) ip canon).tree ∧
          InvPack S (prune_prop_dir (fuel + 1) st addr
            (render (S0 ++ ns.dropLast)) (render S0) ip canon).tree ∧
          (ip = true → markedAt addr (prune_prop_dir (fuel + 1) st addr
            (render (S0 ++ ns.dropLast)) (render S0) ip canon).tree) ∧
          (ip = false → ∀ m nm, getNode m st.tree = some nm →
            nm.base.prune_mask.pexact = true → PrefixOf addr m →
            markedAt m (prune_prop_dir (fuel + 1) st addr
              (render (S0 ++ ns.dropLast)) (render S0) ip canon).tree)
          := by
        intro hip htri
        rcases htri with ⟨h1, h2, h3⟩
        refine ⟨h1, h2,
          fun ht => Bool.noConfusion (hip.symm.trans ht), ?_⟩
        intro _ m nm hgm hex hpm
        rcases strip_node_eq h1.1 hgm with ⟨nm2, hgm2, _⟩
        refine ⟨nm2, hgm2, ?_⟩
        rcases h3 with ⟨na, hga, hmba⟩
        refine deep_marked h2.1 (m.drop addr.length) addr na hga hmba
          (hSd hip) nm2 ?_
        rw [← prefix_decomp hpm]
        exact hgm2
      -- the closing move of the not-exact, not-in_prune branch
      have hGclose : ip = false → b.prune_mask.pexact = false →
          prune_prop_dir (fuel + 1) st addr (render (S0 ++ ns.dropLast))
            (render S0) ip canon =
            prune_prop_children fuel st addr (render (S0 ++ ns))
              (render S0) false canon ch.length 0 →
          Evo1 st.tree (prune_prop_dir (fuel + 1) st addr
            (render (S0 ++ ns.dropLast)) (render S0) ip canon).tree ∧
          InvPack S (prune_prop_dir (fuel + 1) st addr
            (render (S0 ++ ns.dropLast)) (render S0) ip canon).tree ∧
          (ip = true → markedAt addr (prune_prop_dir (fuel + 1) st addr
            (render (S0 ++ ns.dropLast)) (render S0) ip canon).tree) ∧
          (ip = false → ∀ m nm, getNode m st.tree = some nm →
            nm.base.prune_mask.pexact = true → PrefixOf addr m →
            markedAt m (prune_prop_dir (fuel + 1) st addr
              (render (S0 ++ ns.dropLast)) (render S0) ip canon).tree)
          := by
        intro hip hbexf hres
        subst hip
        have herr2 := herr
        rw [hres] at herr2
        have hf2 := hf1
        rw [hres] at hf2
        have hcs := children_spec fuel st addr ns S0 canon false S
          ch.length 0 b ch hS0 hS0ne hcanon hw hdp hg (by omega)
          (by simpa using hGI) (by simpa using hCM) hNS hEK
          (fun h => Bool.noConfusion h) (fun _ => hSd rfl) hf0 hf2 herr2
        rw [hres]
        refine ⟨hcs.1, ⟨by simpa using hcs.2.1, hcs.2.2.1, hcs.2.2.2.1,
          hcs.2.2.2.2.1⟩, fun h => Bool.noConfusion h, ?_⟩
        intro _ m nm hgm hex hpm
        by_cases hma : m = addr
        · exfalso
          have hgm2 : getNode addr st.tree = some nm := by
            rw [← hma]
            exact hgm
          rw [hg] at hgm2
          have hne : INode.dir b ch = nm := by simpa using hgm2
          rw [← hne] at hex
          simp only [INode.base] at hex
          rw [hbexf] at hex
          exact Bool.noConfusion hex
        · rcases ProperPrefixOf_decomp ⟨hpm, fun he => hma he.symm⟩ with
            ⟨e0, hmeq, hene⟩
          cases e0 with
          | nil => exact absurd (by simpa using hmeq) hma
          | cons i e2 =>
            have hmeq2 : m = (addr ++ [i]) ++ e2 := by
              rw [hmeq]
              simp
            obtain ⟨cc, hcc⟩ : ∃ cc, ch[i]? = some cc := by
              have hgm2 := hgm
              rw [hmeq2, getNode_append] at hgm2
              cases hci : getNode (addr ++ [i]) st.tree with
              | none =>
                rw [hci] at hgm2
                exact absurd hgm2 (by simp)
              | some cc0 =>
                rw [getNode_child hg i] at hci
                exact ⟨cc0, hci⟩
            have hilt : i < ch.length :=
              (List.getElem?_eq_some_iff.mp hcc).1
            refine hcs.2.2.2.2.2.2 rfl m nm hgm hex
              ⟨i, Nat.zero_le i, by omega, ?_⟩
            rw [hmeq2]
            exact PrefixOf_append_self (addr ++ [i]) e2
      cases hroot : b.is_root with
      | true =>
        have haddrnil : addr = [] := hwd.2.2.mp hroot
        subst haddrnil
        have hnsnil : ns = [] :=
          List.eq_nil_of_length_eq_zero (dirpath_length hdp)
        subst hnsnil
        have hE1 := upd_setAll_Evo1 [] st.tree
        have hw1 : wfRoot (updateMask setAllBelow [] st.tree) = true := by
          rw [wfRoot_congr (strip_updateMask _ _ _)]
          exact hw
        have hdp1 := DirPath_congr (strip_updateMask setAllBelow []
          st.tree) hdp
        have hdall : ∃ b1 ch1, getNode []
            (updateMask setAllBelow [] st.tree) =
            some (INode.dir b1 ch1) ∧ b1.prune_mask.pallBelow = true ∧
            ch1.length = ch.length := by
          refine ⟨⟨b.filename, setAllBelow b.prune_mask, b.is_root⟩, ch,
            ?_, rfl, rfl⟩
          rw [getNode_updateMask_self, hg]
          rfl
        have hNS1 : NoSymAll (updateMask setAllBelow [] st.tree) :=
          NoSymAll_upd hNS (Or.inr hnsymA)
        have hEK1 : ExactKinds (updateMask setAllBelow [] st.tree) :=
          ExactKinds_upd hEK (fun m => rfl)
        cases ip with
        | true =>
          -- the root is marked all_below and the loop runs with in_prune
          have hballf : b.prune_mask.pallBelow = false := by
            have h0 := hnalldir rfl (INode.dir b ch) hg
            simpa using h0
          have hres : prune_prop_dir (fuel + 1) st []
              (render (S0 ++ List.dropLast [])) (render S0) true canon =
              prune_prop_children fuel
                ⟨updateMask setAllBelow [] st.tree, st.errs, st.fout⟩ []
                (render (S0 ++ [])) (render S0) true canon ch.length
                0 := by
            simp [prune_prop_dir, hg, hroot, hballf]
          have hGIt : GlobalInvL (([] : List Nat) :: S) st.tree := by
            simpa using hGI
          have hGI1 : GlobalInvL (([] : List Nat) :: S)
              (updateMask setAllBelow [] st.tree) := by
            refine GlobalInvL_upd hGIt ?_ ?_
            · intro b2 ch2 hgd hfb
              exact Or.inr (by simp)
            · intro n hn hmbn
              rw [markedB_withMask, hnsymA n hn]
              simp [setAllBelow]
          have hCM1 : ChainMX []
              (updateMask setAllBelow [] st.tree) := by
            refine ChainMX_discharge ?_
              (nz_of_markedAt (markedAt_upd_setAll hg
                (hnsymA (INode.dir b ch) hg)))
            refine ChainMX_upd (by simpa using hCM) ?_ ?_
            · intro n hn _
              refine Or.inr (fun q hq _ => ?_)
              exact absurd (ProperPrefixOf_length_lt hq) (by simp)
            · intro m _
              exact setAllBelow_nz m
          have htri := hfinish (updateMask setAllBelow [] st.tree) hres
            hE1 hw1 hdp1 hdall hGI1 hCM1 hNS1 hEK1
          exact ⟨htri.1, htri.2.1, fun _ => htri.2.2,
            fun h => Bool.noConfusion h⟩
        | false =>
          by_cases hbex : b.prune_mask.pexact = true
          · -- the exact root: marked all_below, loop with in_prune
            have hres : prune_prop_dir (fuel + 1) st []
                (render (S0 ++ List.dropLast [])) (render S0) false
                canon =
                prune_prop_children fuel
                  ⟨updateMask setAllBelow [] st.tree, st.errs, st.fout⟩
                  [] (render (S0 ++ [])) (render S0) true canon ch.length
                  0 := by
              simp [prune_prop_dir, hg, hroot, hbex]
            have hGI1 : GlobalInvL (([] : List Nat) :: S)
                (updateMask setAllBelow [] st.tree) := by
              refine GlobalInvL_upd
                (GlobalInvL_weaken (show GlobalInvL S st.tree by
                  simpa using hGI)) ?_ ?_
              · intro b2 ch2 hgd hfb
                exact Or.inr (by simp)
              · intro n hn hmbn
                rw [markedB_withMask, hnsymA n hn]
                simp [setAllBelow]
            have hCM1 : ChainMX []
                (updateMask setAllBelow [] st.tree) := by
              refine ChainMX_upd (show ChainMX [] st.tree by
                simpa using hCM) ?_ ?_
              · intro n hn _
                refine Or.inr (fun q hq _ => ?_)
                exact absurd (ProperPrefixOf_length_lt hq) (by simp)
              · intro m _
                exact setAllBelow_nz m
            exact hEFclose rfl (hfinish (updateMask setAllBelow []
              st.tree) hres hE1 hw1 hdp1 hdall hGI1 hCM1 hNS1 hEK1)
          · -- the inert root: loop without in_prune
            have hbexf : b.prune_mask.pexact = false :=
              (Bool.not_eq_true _).mp hbex
            refine hGclose rfl hbexf ?_
            simp [prune_prop_dir, hg, hroot, hbexf]
      | false =>
        have haddrne : addr ≠ [] := by
          intro he
          have h0 := hwd.2.2.mpr he
          rw [hroot] at h0
          exact Bool.noConfusion h0
        rcases List.eq_nil_or_concat ns with hnsnil | ⟨ns0, c0, hnseq⟩
        · exfalso
          have hl := dirpath_length hdp
          rw [hnsnil] at hl
          exact haddrne (List.eq_nil_of_length_eq_zero hl.symm)
        rw [List.concat_eq_append] at hnseq
        subst hnseq
        have hlast := dirpath_last_name hdp hg haddrne
        have hc0 : c0 = b.filename := by
          have h0 : (ns0 ++ [c0]).getLast? = some c0 := by simp
          rw [h0] at hlast
          simpa using hlast
        subst hc0
        have hdl : (ns0 ++ [b.filename]).dropLast = ns0 :=
          List.dropLast_concat
        rw [hdl] at herr hf1 hfinish hEFclose hGclose ⊢
        have hok0 : okComps ns0 := by
          intro c hc
          exact hnsok c (List.mem_append_left _ hc)
        have hS0nsne : S0 ++ ns0 ≠ [] := by
          intro he
          exact hS0ne (List.append_eq_nil.mp he).1
        have hsd : render (S0 ++ ns0) ++ '/' :: b.filename =
            render (S0 ++ (ns0 ++ [b.filename])) := by
          rw [← List.append_assoc, render_append, if_neg hS0nsne]
        cases ip with
        | true =>
          have hballf : b.prune_mask.pallBelow = false := by
            have h0 := hnalldir rfl (INode.dir b ch) hg
            simpa using h0
          have hGIt : GlobalInvL (addr :: S) st.tree := by simpa using hGI
          have hCMt : ChainMX [addr] st.tree := by simpa using hCM
          by_cases hup : b.prune_mask.pupChain = true
          · -- the up_chain mark is traded for all_below, then the loop
            have hres : prune_prop_dir (fuel + 1) st addr
                (render (S0 ++ ns0)) (render S0) true canon =
                prune_prop_children fuel
                  ⟨updateMask (fun m => setAllBelow (clearUpChain m))
                    addr st.tree, st.errs, st.fout⟩ addr
                  (render (S0 ++ (ns0 ++ [b.filename]))) (render S0) true
                  canon ch.length 0 := by
              rw [← hsd]
              simp [prune_prop_dir, hg, hroot, hballf, hup]
            have hE1 := upd_setAllClear_Evo1 addr st.tree hnsymA
            have hw1 : wfRoot (updateMask (fun m =>
                setAllBelow (clearUpChain m)) addr st.tree) = true := by
              rw [wfRoot_congr (strip_updateMask _ _ _)]
              exact hw
            have hdp1 := DirPath_congr (strip_updateMask
              (fun m => setAllBelow (clearUpChain m)) addr st.tree) hdp
            have hdall : ∃ b1 ch1, getNode addr (updateMask (fun m =>
                setAllBelow (clearUpChain m)) addr st.tree) =
                some (INode.dir b1 ch1) ∧ b1.prune_mask.pallBelow = true ∧
                ch1.length = ch.length := by
              refine ⟨⟨b.filename,
                setAllBelow (clearUpChain b.prune_mask), b.is_root⟩, ch,
                ?_, rfl, rfl⟩
              rw [getNode_updateMask_self, hg]
              rfl
            have hGI1 : GlobalInvL (addr :: S) (updateMask (fun m =>
                setAllBelow (clearUpChain m)) addr st.tree) := by
              refine GlobalInvL_upd hGIt ?_ ?_
              · intro b2 ch2 hgd hfb
                exact Or.inr (by simp)
              · intro n hn hmbn
                rw [markedB_withMask, hnsymA n hn]
                simp [setAllBelow]
            have hCM1 : ChainMX [] (updateMask (fun m =>
                setAllBelow (clearUpChain m)) addr st.tree) := by
              refine ChainMX_discharge ?_
                (nz_of_markedAt (markedAt_upd_setAllClear hg
                  (hnsymA (INode.dir b ch) hg)))
              refine ChainMX_upd hCMt ?_ ?_
              · intro n hn _
                exact Or.inr (fun q hq _ => hE1.2.2.1 q (hanc rfl q hq))
              · intro m _
                exact setAllBelow_nz _
            have hNS1 : NoSymAll (updateMask (fun m =>
                setAllBelow (clearUpChain m)) addr st.tree) :=
              NoSymAll_upd hNS (Or.inr hnsymA)
            have hEK1 : ExactKinds (updateMask (fun m =>
                setAllBelow (clearUpChain m)) addr st.tree) :=
              ExactKinds_upd hEK (fun m => rfl)
            have htri := hfinish (updateMask (fun m =>
              setAllBelow (clearUpChain m)) addr st.tree) hres hE1 hw1
              hdp1 hdall hGI1 hCM1 hNS1 hEK1
            exact ⟨htri.1, htri.2.1, fun _ => htri.2.2,
              fun h => Bool.noConfusion h⟩
          · -- walk the parent chain first, then mark and run the loop
            cases hmuc : prune_mark_up_chain st.tree (render (S0 ++ ns0))
                (render S0) with
            | mk t2 r =>
              have hspec := muc_spec st.tree S0 (S0 ++ ns0) hS0
                (okComps_append hS0 hok0) hw
              rw [hmuc] at hspec
              have hmu : MaskUp st.tree t2 := hspec.1
              have hfin2 : prune_prop_dir (fuel + 1) st addr
                  (render (S0 ++ ns0)) (render S0) true canon =
                  prune_prop_children fuel
                    ⟨updateMask setAllBelow addr t2, st.errs, st.fout⟩
                    addr (render (S0 ++ (ns0 ++ [b.filename])))
                    (render S0) true canon ch.length 0 →
                  Evo1 st.tree (prune_prop_dir (fuel + 1) st addr
                    (render (S0 ++ ns0)) (render S0) true canon).tree ∧
                  InvPack S (prune_prop_dir (fuel + 1) st addr
                    (render (S0 ++ ns0)) (render S0) true canon).tree ∧
                  (true = true → markedAt addr (prune_prop_dir (fuel + 1)
                    st addr (render (S0 ++ ns0)) (render S0) true
                    canon).tree) ∧
                  (true = false → ∀ m nm, getNode m st.tree = some nm →
                    nm.base.prune_mask.pexact = true → PrefixOf addr m →
                    markedAt m (prune_prop_dir (fuel + 1) st addr
                      (render (S0 ++ ns0)) (render S0) true canon).tree)
                  := by
                intro hres
                rcases dir_shape_transfer hmu.1 hg with ⟨b2, ch2, hg2,
                  hl2⟩
                have hnsym2 : ∀ n, getNode addr t2 = some n →
                    n.isSymlink = false := by
                  intro n hn
                  rw [hg2] at hn
                  have hne : INode.dir b2 ch2 = n := by simpa using hn
                  rw [← hne]
                  rfl
                have hE1 : Evo1 st.tree (updateMask setAllBelow addr
                    t2) := Evo1_trans (MaskUp_Evo1 hmu)
                  (upd_setAll_Evo1 addr t2)
                have hw1 : wfRoot (updateMask setAllBelow addr t2) =
                    true := by
                  rw [wfRoot_congr (strip_updateMask _ _ _),
                    wfRoot_congr hmu.1]
                  exact hw
                have hdp1 := DirPath_congr (strip_updateMask setAllBelow
                  addr t2) (DirPath_congr hmu.1 hdp)
                have hdall : ∃ b1 ch1, getNode addr
                    (updateMask setAllBelow addr t2) =
                    some (INode.dir b1 ch1) ∧
                    b1.prune_mask.pallBelow = true ∧
                    ch1.length = ch.length := by
                  refine ⟨⟨b2.filename, setAllBelow b2.prune_mask,
                    b2.is_root⟩, ch2, ?_, rfl, hl2⟩
                  rw [getNode_updateMask_self, hg2]
                  rfl
                have hGI1 : GlobalInvL (addr :: S)
                    (updateMask setAllBelow addr t2) := by
                  refine GlobalInvL_upd (MaskUp_GlobalInvL hGIt hmu) ?_ ?_
                  · intro b3 ch3 hgd hfb
                    exact Or.inr (by simp)
                  · intro n hn hmbn
                    rw [markedB_withMask, hnsym2 n hn]
                    simp [setAllBelow]
                have hCM1 : ChainMX []
                    (updateMask setAllBelow addr t2) := by
                  refine ChainMX_discharge ?_
                    (nz_of_markedAt (markedAt_upd_setAll hg2
                      (hnsym2 (INode.dir b2 ch2) hg2)))
                  refine ChainMX_upd (MaskUp_ChainMX hCMt hmu) ?_ ?_
                  · intro n hn _
                    refine Or.inr (fun q hq _ => ?_)
                    exact (upd_setAll_Evo1 addr t2).2.2.1 q
                      (MaskUp_nz hmu q (hanc rfl q hq))
                  · intro m _
                    exact setAllBelow_nz _
                have hNS1 : NoSymAll (updateMask setAllBelow addr t2) :=
                  NoSymAll_upd (MaskUp_NoSymAll hNS hmu) (Or.inr hnsym2)
                have hEK1 : ExactKinds
                    (updateMask setAllBelow addr t2) :=
                  ExactKinds_upd (MaskUp_ExactKinds hEK hmu)
                    (fun m => rfl)
                have htri := hfinish (updateMask setAllBelow addr t2)
                  hres hE1 hw1 hdp1 hdall hGI1 hCM1 hNS1 hEK1
                exact ⟨htri.1, htri.2.1, fun _ => htri.2.2,
                  fun h => Bool.noConfusion h⟩
              cases r with
              | err =>
                have hres : prune_prop_dir (fuel + 1) st addr
                    (render (S0 ++ ns0)) (render S0) true canon =
                    ⟨t2, st.errs + 1, st.fout⟩ := by
                  simp [prune_prop_dir, hg, hroot, hballf, hup, hmuc]
                rw [hres] at herr
                exact absurd herr (by simp)
              | foundDir da =>
                refine hfin2 ?_
                rw [← hsd]
                simp [prune_prop_dir, hg, hroot, hballf, hup, hmuc]
              | foundReg ra =>
                refine hfin2 ?_
                rw [← hsd]
                simp [prune_prop_dir, hg, hroot, hballf, hup, hmuc]
        | false =>
          by_cases hbex : b.prune_mask.pexact = true
          · -- the exact directory: mark, walk the chain, run the loop
            have hCMf : ChainMX [] st.tree := by simpa using hCM
            have hGIf : GlobalInvL S st.tree := by simpa using hGI
            have hw0 : wfRoot (updateMask setAllBelow addr st.tree) =
                true := by
              rw [wfRoot_congr (strip_updateMask _ _ _)]
              exact hw
            have hdpd : DirPath addr.dropLast ns0 st.tree := by
              have h0 := DirPath_dropLast hdp
              rw [hdl] at h0
              exact h0
            have hdpd0 : DirPath addr.dropLast ns0
                (updateMask setAllBelow addr st.tree) :=
              DirPath_congr (strip_updateMask setAllBelow addr st.tree)
                hdpd
            have htot := muc_total (updateMask setAllBelow addr st.tree)
              S0 ns0 addr.dropLast hS0 hok0 hw0 hdpd0
            cases hmuc : prune_mark_up_chain
                (updateMask setAllBelow addr st.tree)
                (render (S0 ++ ns0)) (render S0) with
            | mk t2 r =>
              rw [hmuc] at htot
              have hreq : r = UpRes.foundDir addr.dropLast := htot
              subst hreq
              have hspec := muc_spec (updateMask setAllBelow addr
                st.tree) S0 (S0 ++ ns0) hS0 (okComps_append hS0 hok0) hw0
              rw [hmuc] at hspec
              have hmu : MaskUp (updateMask setAllBelow addr st.tree)
                t2 := hspec.1
              rcases hspec.2.1 addr.dropLast rfl with ⟨_, _, hmarks⟩
              have hres : prune_prop_dir (fuel + 1) st addr
                  (render (S0 ++ ns0)) (render S0) false canon =
                  prune_prop_children fuel ⟨t2, st.errs, st.fout⟩ addr
                    (render (S0 ++ (ns0 ++ [b.filename]))) (render S0)
                    true canon ch.length 0 := by
                rw [← hsd]
                simp [prune_prop_dir, hg, hroot, hbex, hmuc]
              have hgmid : getNode addr
                  (updateMask setAllBelow addr st.tree) =
                  some (INode.dir ⟨b.filename, setAllBelow b.prune_mask,
                    b.is_root⟩ ch) := by
                rw [getNode_updateMask_self, hg]
                rfl
              rcases dirall_of_Evo1 (MaskUp_Evo1 hmu) hgmid rfl with
                ⟨b2, ch2, hg2, hb2, hl2⟩
              have hE0 := upd_setAll_Evo1 addr st.tree
              have hE1 : Evo1 st.tree t2 :=
                Evo1_trans hE0 (MaskUp_Evo1 hmu)
              have hw1 : wfRoot t2 = true := by
                rw [wfRoot_congr hmu.1]
                exact hw0
              have hdp1 : DirPath addr (ns0 ++ [b.filename]) t2 :=
                DirPath_congr hE1.1 hdp
              have hdall : ∃ b1 ch1, getNode addr t2 =
                  some (INode.dir b1 ch1) ∧
                  b1.prune_mask.pallBelow = true ∧
                  ch1.length = ch.length := ⟨b2, ch2, hg2, hb2, hl2⟩
              have hGI1 : GlobalInvL (addr :: S) t2 := by
                refine MaskUp_GlobalInvL ?_ hmu
                refine GlobalInvL_upd (GlobalInvL_weaken hGIf) ?_ ?_
                · intro b3 ch3 hgd hfb
                  exact Or.inr (by simp)
                · intro n hn hmbn
                  rw [markedB_withMask, hnsymA n hn]
                  simp [setAllBelow]
              have hCM1 : ChainMX [] t2 := by
                intro p np hgp hbp q hq _
                by_cases hpa : p = addr
                · subst hpa
                  rcases List.eq_nil_or_concat p with hae | ⟨a0, j0,
                    haeq⟩
                  · exact absurd hae haddrne
                  · rw [List.concat_eq_append] at haeq
                    refine hmarks q ?_
                    rw [haeq, List.dropLast_concat]
                    exact proper_prefix_snoc (haeq ▸ hq)
                · have hmp : maskAt p t2 = some np.base.prune_mask :=
                    maskAt_some.mpr ⟨np, hgp, rfl⟩
                  rcases MaskUp_maskAt_rev hmu hmp with
                    ⟨mm, hmm, _, haa, _⟩
                  rcases maskAt_some.mp hmm with ⟨nm0, hgm0, hmaskm⟩
                  have hbm0 : nm0.base.prune_mask.pallBelow = true := by
                    rw [hmaskm, ← haa]
                    exact hbp
                  have hmp2 : maskAt p (updateMask setAllBelow addr
                      st.tree) = some nm0.base.prune_mask :=
                    maskAt_some.mpr ⟨nm0, hgm0, rfl⟩
                  rw [maskAt_updateMask, if_neg hpa] at hmp2
                  rcases maskAt_some.mp hmp2 with ⟨nst, hgst, hmaskst⟩
                  have hbst : nst.base.prune_mask.pallBelow = true := by
                    rw [hmaskst]
                    exact hbm0
                  have hnzst := hCMf p nst hgst hbst q hq (by simp)
                  exact MaskUp_nz hmu q (hE0.2.2.1 q hnzst)
              have hNS1 : NoSymAll t2 :=
                MaskUp_NoSymAll (@NoSymAll_upd st.tree addr setAllBelow
                  hNS (Or.inr hnsymA)) hmu
              have hEK1 : ExactKinds t2 :=
                MaskUp_ExactKinds (@ExactKinds_upd st.tree addr
                  setAllBelow hEK (fun m => rfl)) hmu
              exact hEFclose rfl (hfinish t2 hres hE1 hw1 hdp1 hdall
                hGI1 hCM1 hNS1 hEK1)
          · -- the inert directory: loop without in_prune
            have hbexf : b.prune_mask.pexact = false :=
              (Bool.not_eq_true _).mp hbex
            refine hGclose rfl hbexf ?_
            rw [← hsd]
            simp [prune_prop_dir, hg, hroot, hbexf]

/-- Specification of the child loop of prune_prop_dir: under the loop
invariant it preserves the pack and marks the children scanned
(in_prune) or the exact nodes under them (not in_prune). -/
theorem children_spec : ∀ (fuel : Nat) (st : PSt) (addr : List Nat)
    (ns S0 : List Str) (canon : Str → Option Str) (ip : Bool)
    (S : List (List Nat)) (rem k : Nat) (b : IBase) (ch : List INode),
    okComps S0 → S0 ≠ [] → canonOK canon →
    wfRoot st.tree = true →
    DirPath addr ns st.tree →
    getNode addr st.tree = some (INode.dir b ch) →
    k + rem = ch.length →
    GlobalInvL (if ip = true then addr :: S else S) st.tree →
    ChainMX [] st.tree →
    NoSymAll st.tree → ExactKinds st.tree →
    (ip = true → b.prune_mask.pallBelow = true) →
    (ip = false → ∀ s ∈ S, ¬ PrefixOf addr s) →
    st.fout = false →
    (prune_prop_children fuel st addr (render (S0 ++ ns)) (render S0) ip
      canon rem k).fout = false →
    (prune_prop_children fuel st addr (render (S0 ++ ns)) (render S0) ip
      canon rem k).errs = st.errs →
    Evo1 st.tree (prune_prop_children fuel st addr (render (S0 ++ ns))
      (render S0) ip canon rem k).tree ∧
    GlobalInvL (if ip = true then addr :: S else S)
      (prune_prop_children fuel st addr (render (S0 ++ ns)) (render S0) ip
        canon rem k).tree ∧
    ChainMX [] (prune_prop_children fuel st addr (render (S0 ++ ns))
      (render S0) ip canon rem k).tree ∧
    NoSymAll (prune_prop_children fuel st addr (render (S0 ++ ns))
      (render S0) ip canon rem k).tree ∧
    ExactKinds (prune_prop_children fuel st addr (render (S0 ++ ns))
      (render S0) ip canon rem k).tree ∧
    (ip = true → ∀ i, k ≤ i → i < k + rem →
      markedAt (addr ++ [i]) (prune_prop_children fuel st addr
        (render (S0 ++ ns)) (render S0) ip canon rem k).tree) ∧
    (ip = false → ∀ m nm, getNode m st.tree = some nm →
      nm.base.prune_mask.pexact = true →
      (∃ i, k ≤ i ∧ i < k + rem ∧ PrefixOf (addr ++ [i]) m) →
      markedAt m (prune_prop_children fuel st addr (render (S0 ++ ns))
        (render S0) ip canon rem k).tree)
  | 0, st, addr, ns, S0, canon, ip, S, rem, k => by
      intro b ch hS0 hS0ne hcanon hw hdp hg hcount hGI hCM hNS hEK hall hSd hf0
        hf1 herr
      exact absurd hf1 (by simp [prune_prop_children])
  | fuel + 1, st, addr, ns, S0, canon, ip, S, rem, k => by
      intro b ch hS0 hS0ne hcanon hw hdp hg hcount hGI hCM hNS hEK hall hSd hf0
        hf1 herr
      cases rem with
      | zero =>
        have hres : prune_prop_children (fuel + 1) st addr
            (render (S0 ++ ns)) (render S0) ip canon 0 k = st := by
          simp [prune_prop_children]
        rw [hres]
        refine ⟨Evo1_refl _, hGI, hCM, hNS, hEK, ?_, ?_⟩
        · intro _ i hki hlt
          omega
        · intro _ m nm _ _ hiex
          rcases hiex with ⟨i, hki, hlt, _⟩
          omega
      | succ rem =>
        have hk : k < ch.length := by omega
        obtain ⟨sib, hsib⟩ : ∃ sib,
            getNode (addr ++ [k]) st.tree = some sib := by
          rw [getNode_child hg k]
          exact ⟨_, List.getElem?_eq_getElem hk⟩
        -- the generic closing move: given the state after processing
        -- child k, the loop tail at k+1 delivers the conclusions
        have hclose : ∀ (stMid : PSt),
            prune_prop_children (fuel + 1) st addr (render (S0 ++ ns))
              (render S0) ip canon (rem + 1) k =
              prune_prop_children fuel stMid addr (render (S0 ++ ns))
                (render S0) ip canon rem (k + 1) →
            Evo1 st.tree stMid.tree →
            GlobalInvL (if ip = true then addr :: S else S) stMid.tree →
            ChainMX [] stMid.tree →
            NoSymAll stMid.tree → ExactKinds stMid.tree →
            stMid.errs = st.errs → stMid.fout = false →
            (ip = true → markedAt (addr ++ [k]) stMid.tree) →
            (ip = false → ∀ m nm, getNode m st.tree = some nm →
              nm.base.prune_mask.pexact = true →
              PrefixOf (addr ++ [k]) m → markedAt m stMid.tree) →
            Evo1 st.tree (prune_prop_children (fuel + 1) st addr
              (render (S0 ++ ns)) (render S0) ip canon (rem + 1) k).tree ∧
            GlobalInvL (if ip = true then addr :: S else S)
              (prune_prop_children (fuel + 1) st addr (render (S0 ++ ns))
                (render S0) ip canon (rem + 1) k).tree ∧
            ChainMX [] (prune_prop_children (fuel + 1) st addr
              (render (S0 ++ ns)) (render S0) ip canon (rem + 1) k).tree ∧
            NoSymAll (prune_prop_children (fuel + 1) st addr
              (render (S0 ++ ns)) (render S0) ip canon (rem + 1) k).tree ∧
            ExactKinds (prune_prop_children (fuel + 1) st addr
              (render (S0 ++ ns)) (render S0) ip canon (rem + 1) k).tree ∧
            (ip = true → ∀ i, k ≤ i → i < k + (rem + 1) →
              markedAt (addr ++ [i]) (prune_prop_children (fuel + 1) st
                addr (render (S0 ++ ns)) (render S0) ip canon (rem + 1)
                k).tree) ∧
            (ip = false → ∀ m nm, getNode m st.tree = some nm →
              nm.base.prune_mask.pexact = true →
              (∃ i, k ≤ i ∧ i < k + (rem + 1) ∧
                PrefixOf (addr ++ [i]) m) →
              markedAt m (prune_prop_children (fuel + 1) st addr
                (render (S0 ++ ns)) (render S0) ip canon (rem + 1)
                k).tree) := by
          intro stMid hres hEm hGIm hCMm hNSm hEKm herm hfm hmkT hmkF
          rw [hres] at herr hf1 ⊢
          obtain ⟨b2, ch2, hg2, hl2⟩ := dir_shape_transfer hEm.1 hg
          have hall2 : ip = true → b2.prune_mask.pallBelow = true := by
            intro hip
            rcases dirall_of_Evo1 hEm hg (hall hip) with
              ⟨b2x, ch2x, hg2x, hbx, _⟩
            rw [hg2] at hg2x
            obtain ⟨hbe, _⟩ : b2x = b2 ∧ ch2x = ch2 := by
              simpa using hg2x.symm
            rw [← hbe]
            exact hbx
          have hwm : wfRoot stMid.tree = true := by
            rw [wfRoot_congr hEm.1]
            exact hw
          have hdpm : DirPath addr ns stMid.tree := DirPath_congr hEm.1 hdp
          have hcs := children_spec fuel stMid addr ns S0 canon ip S rem
            (k + 1) b2 ch2 hS0 hS0ne hcanon hwm hdpm hg2 (by omega) hGIm
            hCMm hNSm hEKm hall2 hSd hfm hf1 (herr.trans herm.symm)
          refine ⟨Evo1_trans hEm hcs.1, hcs.2.1, hcs.2.2.1, hcs.2.2.2.1,
            hcs.2.2.2.2.1, ?_, ?_⟩
          · intro hip i hki hlt
            by_cases hik : i = k
            · subst hik
              exact markedAt_of_Evo1 (hmkT hip) hcs.1
            · exact hcs.2.2.2.2.2.1 hip i (by omega) (by omega)
          · intro hip m nm hgm hex hiex
            rcases hiex with ⟨i, hki, hlt, hpm⟩
            by_cases hik : i = k
            · subst hik
              exact markedAt_of_Evo1 (hmkF hip m nm hgm hex hpm) hcs.1
            · rcases exact_of_Evo1 hEm hgm hex with ⟨nm2, hgm2, hex2⟩
              exact hcs.2.2.2.2.2.2 hip m nm2 hgm2 hex2
                ⟨i, by omega, by omega, hpm⟩
        by_cases hsall : sib.base.prune_mask.pallBelow = true
        · -- the child is already all_below: the loop skips it
          refine hclose st ?_ (Evo1_refl _) hGI hCM hNS hEK rfl hf0 ?_ ?_
          · simp [prune_prop_children, hsib, hsall]
          · intro _
            exact ⟨sib, hsib, markedB_of_all_nosym hNS hsib hsall⟩
          · intro hip m nm hgm hex hpm
            have hGIS : GlobalInvL S st.tree := by
              rw [hip] at hGI
              simpa using hGI
            have hSm : ∀ s ∈ S, ¬ PrefixOf (addr ++ [k]) s := by
              intro s hs hps
              exact hSd hip s hs
                (PrefixOf_trans (PrefixOf_append_self addr [k]) hps)
            refine ⟨nm, hgm, ?_⟩
            refine deep_marked hGIS (m.drop (addr ++ [k]).length)
              (addr ++ [k]) sib hsib
              (markedB_of_all_nosym hNS hsib hsall) hSm nm ?_
            rw [← prefix_decomp hpm]
            exact hgm
        · -- the child is not yet all_below
          have hsallf : sib.base.prune_mask.pallBelow = false :=
            (Bool.not_eq_true _).mp hsall
          cases ip with
          | true =>
            have hGIt : GlobalInvL (addr :: S) st.tree := by simpa using hGI
            have hballt : b.prune_mask.pallBelow = true := hall rfl
            -- the optional up_chain clear before dispatch
            obtain ⟨T1, hT1eq, hpatch, hGI1, hCMc, hCMs, hanc1, hNS1,
                hEK1, hw1, hdp1, hsib1⟩ :
                ∃ T1 : INode,
                  ((if sib.base.prune_mask.pupChain = true then
                      (⟨updateMask clearUpChain (addr ++ [k]) st.tree,
                        st.errs, st.fout⟩ : PSt)
                    else st) = (⟨T1, st.errs, st.fout⟩ : PSt)) ∧
                  (∀ tr, Evo1 T1 tr → markedAt (addr ++ [k]) tr →
                    Evo1 st.tree tr) ∧
                  GlobalInvL (addr :: S) T1 ∧
                  ChainMX [addr ++ [k]] T1 ∧
                  (sib.isSymlink = true → ChainMX [] T1) ∧
                  AncNZ (addr ++ [k]) T1 ∧
                  NoSymAll T1 ∧ ExactKinds T1 ∧ wfRoot T1 = true ∧
                  DirPath addr ns T1 ∧
                  (∃ sib1, getNode (addr ++ [k]) T1 = some sib1 ∧
                    stripMask sib1 = stripMask sib ∧
                    sib1.base.prune_mask.pallBelow = false) := by
              by_cases hup : sib.base.prune_mask.pupChain = true
              · refine ⟨updateMask clearUpChain (addr ++ [k]) st.tree,
                  by rw [if_pos hup], ?_, ?_, ?_, ?_, ?_, ?_, ?_, ?_, ?_,
                  ?_⟩
                · intro tr hE hm
                  refine Evo1_patch (strip_updateMask _ _ _) ?_ ?_ hE hm
                  · intro p m hm0
                    rw [maskAt_updateMask]
                    by_cases hp : p = addr ++ [k]
                    · subst hp
                      rw [if_pos rfl, hm0]
                      exact ⟨clearUpChain m, rfl, rfl, fun hb => hb⟩
                    · rw [if_neg hp]
                      exact ⟨m, hm0, rfl, fun hb => hb⟩
                  · intro p hp
                    rw [maskAt_updateMask, if_neg hp]
                · exact GlobalInvL_upd_clear hGIt (by simp)
                · exact @ChainMX_upd_clear [] st.tree (addr ++ [k]) hCM
                · intro hsl
                  rcases isSymlink_ctor hsl with ⟨bz, tz, hsz⟩
                  rw [hsz] at hsib
                  exact ChainMX_clear_sym hCM hNS hsib
                · intro q hq
                  rcases AncNZ_child hg hballt hCM q hq with ⟨m0, hm0, hz0⟩
                  refine ⟨m0, ?_, hz0⟩
                  rw [maskAt_updateMask, if_neg hq.2]
                  exact hm0
                · exact NoSymAll_upd hNS (Or.inl (fun m => rfl))
                · exact ExactKinds_upd hEK (fun m => rfl)
                · rw [wfRoot_congr (strip_updateMask _ _ _)]
                  exact hw
                · exact DirPath_congr (strip_updateMask _ _ _) hdp
                · refine ⟨sib.withMask (clearUpChain sib.base.prune_mask),
                    ?_, stripMask_withMask _ _, ?_⟩
                  · rw [getNode_updateMask_self, hsib]
                    rfl
                  · rw [withMask_base]
                    exact hsallf
              · refine ⟨st.tree, by rw [if_neg hup], fun tr hE _ => hE,
                  hGIt, ChainMX_weaken hCM, fun _ => hCM,
                  AncNZ_child hg hballt hCM, hNS, hEK, hw, hdp,
                  ⟨sib, hsib, rfl, hsallf⟩⟩
            rcases hsib1 with ⟨sib1, hgs1, hss1, hsall1⟩
            cases hsibk : sib with
            | dir bs chs =>
              rw [hsibk] at hsib hss1 hsallf hT1eq
              have hdir1 : sib1.isDir = true := by
                rw [(strip_eq_fields hss1).1]
                rfl
              rcases isDir_ctor hdir1 with ⟨bs1, chs1, hsib1e⟩
              subst hsib1e
              have hfn1 : bs1.filename = bs.filename := by
                have h0 := (strip_eq_fields hss1).2.2.2.1
                simpa using h0
              rcases dirpath_getNode hdp1 with ⟨bA, chA, hgA⟩
              have hchA : chA[k]? = some (INode.dir bs1 chs1) := by
                rw [← getNode_child hgA k]
                exact hgs1
              have hdpc : DirPath (addr ++ [k]) (ns ++ [bs.filename])
                  T1 := by
                have h0 := DirPath_snoc hdp1 hgA hchA rfl
                simpa [INode.base, hfn1] using h0
              set D := prune_prop_dir fuel ⟨T1, st.errs, st.fout⟩
                (addr ++ [k]) (render (S0 ++ ns)) (render S0) true canon
                with hDdef
              have hres : prune_prop_children (fuel + 1) st addr
                  (render (S0 ++ ns)) (render S0) true canon (rem + 1) k =
                  prune_prop_children fuel D addr (render (S0 ++ ns))
                    (render S0) true canon rem (k + 1) := by
                rw [hDdef]
                simp [prune_prop_children, hsib, hsallf, hT1eq]
              have herr2 := herr
              rw [hres] at herr2
              have hf2 := hf1
              rw [hres] at hf2
              have hle1 : st.errs ≤ D.errs := by
                rw [hDdef]
                exact (dir_mono fuel T1 st.errs st.fout (addr ++ [k])
                  (render (S0 ++ ns)) (render S0) true canon).1
              have hle2 : D.errs ≤ (prune_prop_children fuel D addr
                  (render (S0 ++ ns)) (render S0) true canon rem
                  (k + 1)).errs :=
                (children_mono fuel D.tree D.errs D.fout addr
                  (render (S0 ++ ns)) (render S0) true canon rem (k + 1)).1
              have hDerr : D.errs = st.errs := by omega
              have hDf : D.fout = false := by
                cases hDfc : D.fout
                · rfl
                · exfalso
                  have hDeta : D = ⟨D.tree, D.errs, true⟩ := by
                    rw [← hDfc]
                  rw [hDeta] at hf2
                  have h0 := (children_mono fuel D.tree D.errs true addr
                    (render (S0 ++ ns)) (render S0) true canon rem
                    (k + 1)).2 rfl
                  rw [h0] at hf2
                  exact Bool.noConfusion hf2
              have hds0 := dir_spec fuel ⟨T1, st.errs, st.fout⟩
                (addr ++ [k]) (ns ++ [bs.filename]) S0 canon true
                (addr :: S)
              have hdl : (ns ++ [bs.filename]).dropLast = ns := by simp
              rw [hdl] at hds0
              have hds := hds0 hS0 hS0ne hcanon hw1 hdpc
                (by simpa using GlobalInvL_weaken hGI1)
                (by simpa using hCMc) hNS1 hEK1 (fun _ => hanc1)
                (fun _ n hn => by
                  rw [hgs1] at hn
                  have hne : INode.dir bs1 chs1 = n := by simpa using hn
                  rw [← hne]
                  exact hsall1)
                (fun h => Bool.noConfusion h) hf0
                (by rw [← hDdef]; exact hDf)
                (by rw [← hDdef]; exact hDerr)
              rcases hds with ⟨hE, ⟨hGIr, hCMr, hNSr, hEKr⟩, hmkD, _⟩
              refine hclose D hres (hpatch D.tree ?_ (hmkD rfl))
                (by simpa using hGIr) hCMr hNSr hEKr hDerr hDf
                (fun _ => hmkD rfl) (fun h => Bool.noConfusion h)
              rw [hDdef]
              exact hE
            | symlink bs tg =>
              rw [hsibk] at hsib hss1 hsallf hT1eq
              have hCM1 : ChainMX [] T1 := hCMs (by rw [hsibk]; rfl)
              set Y := prune_prop_symlink fuel ⟨T1, st.errs, st.fout⟩
                (addr ++ [k]) (render (S0 ++ ns)) (render S0) canon
                with hYdef
              have hres : prune_prop_children (fuel + 1) st addr
                  (render (S0 ++ ns)) (render S0) true canon (rem + 1) k =
                  prune_prop_children fuel Y.1 addr (render (S0 ++ ns))
                    (render S0) true canon rem (k + 1) := by
                rw [hYdef]
                simp [prune_prop_children, hsib, hsallf, hT1eq]
              have herr2 := herr
              rw [hres] at herr2
              have hf2 := hf1
              rw [hres] at hf2
              have hle1 : st.errs ≤ Y.1.errs := by
                rw [hYdef]
                exact (symlink_mono fuel T1 st.errs st.fout (addr ++ [k])
                  (render (S0 ++ ns)) (render S0) canon).1
              have hle2 : Y.1.errs ≤ (prune_prop_children fuel Y.1 addr
                  (render (S0 ++ ns)) (render S0) true canon rem
                  (k + 1)).errs :=
                (children_mono fuel Y.1.tree Y.1.errs Y.1.fout addr
                  (render (S0 ++ ns)) (render S0) true canon rem (k + 1)).1
              have hYerr : Y.1.errs = st.errs := by omega
              have hYf : Y.1.fout = false := by
                cases hYfc : Y.1.fout
                · rfl
                · exfalso
                  have hYeta : Y.1 = ⟨Y.1.tree, Y.1.errs, true⟩ := by
                    rw [← hYfc]
                  rw [hYeta] at hf2
                  have h0 := (children_mono fuel Y.1.tree Y.1.errs true
                    addr (render (S0 ++ ns)) (render S0) true canon rem
                    (k + 1)).2 rfl
                  rw [h0] at hf2
                  exact Bool.noConfusion hf2
              have hys := sym_spec fuel ⟨T1, st.errs, st.fout⟩ addr k ns
                S0 canon (addr :: S) hS0 hS0ne hcanon hw1 hdp1 hGI1 hCM1
                hNS1 hEK1 hf0 (by rw [← hYdef]; exact hYf)
                (by rw [← hYdef]; exact hYerr)
              rcases hys with ⟨hE, hGIr, hCMr, hNSr, hEKr, hmk⟩
              refine hclose Y.1 hres (hpatch Y.1.tree ?_ ?_)
                (by simpa using hGIr) hCMr hNSr hEKr hYerr hYf
                (fun _ => by rw [hYdef]; exact hmk)
                (fun h => Bool.noConfusion h)
              · rw [hYdef]
                exact hE
              · rw [hYdef]
                exact hmk
            | regular bs =>
              rw [hsibk] at hsib hss1 hsallf hT1eq
              set R := prune_prop_reg ⟨T1, st.errs, st.fout⟩ (addr ++ [k])
                (render (S0 ++ ns)) (render S0) true with hRdef
              have hres : prune_prop_children (fuel + 1) st addr
                  (render (S0 ++ ns)) (render S0) true canon (rem + 1) k =
                  prune_prop_children fuel R addr (render (S0 ++ ns))
                    (render S0) true canon rem (k + 1) := by
                rw [hRdef]
                simp [prune_prop_children, hsib, hsallf, hT1eq]
              have herr2 := herr
              rw [hres] at herr2
              have hf2 := hf1
              rw [hres] at hf2
              have hle1 : st.errs ≤ R.errs := by
                rw [hRdef]
                exact (reg_mono T1 st.errs st.fout (addr ++ [k])
                  (render (S0 ++ ns)) (render S0) true).1
              have hle2 : R.errs ≤ (prune_prop_children fuel R addr
                  (render (S0 ++ ns)) (render S0) true canon rem
                  (k + 1)).errs :=
                (children_mono fuel R.tree R.errs R.fout addr
                  (render (S0 ++ ns)) (render S0) true canon rem (k + 1)).1
              have hRerr : R.errs = st.errs := by omega
              have hRf : R.fout = false := by
                rw [hRdef]
                rw [(reg_mono T1 st.errs st.fout (addr ++ [k])
                  (render (S0 ++ ns)) (render S0) true).2]
                exact hf0
              have hnoall1 : ∀ n, getNode (addr ++ [k]) T1 = some n →
                  n.base.prune_mask.pallBelow = false := by
                intro n hn
                rw [hgs1] at hn
                have hne : sib1 = n := by simpa using hn
                rw [← hne]
                exact hsall1
              have hrs := reg_spec ⟨T1, st.errs, st.fout⟩ addr k ns S0
                (render S0) true (addr :: S) hS0 rfl hw1 hdp1
                hGI1 hCMc hNS1 hEK1 (fun _ => hanc1)
                hnoall1 (by rw [← hRdef]; exact hRerr)
              rcases hrs with ⟨hE, ⟨hGIr, hCMr, hNSr, hEKr⟩, hmk, _⟩
              refine hclose R hres (hpatch R.tree ?_ ?_)
                (by simpa using hGIr) hCMr hNSr hEKr hRerr hRf
                (fun _ => by rw [hRdef]; exact hmk rfl)
                (fun h => Bool.noConfusion h)
              · rw [hRdef]
                exact hE
              · rw [hRdef]
                exact hmk rfl
            | other bs =>
              rw [hsibk] at hsib hss1 hsallf hT1eq
              have hnonsym1 : ∀ n, getNode (addr ++ [k]) T1 = some n →
                  n.isSymlink = false := by
                intro n hn
                rw [hgs1] at hn
                have hne : sib1 = n := by simpa using hn
                rw [← hne, (strip_eq_fields hss1).2.1]
                rfl
              have hres : prune_prop_children (fuel + 1) st addr
                  (render (S0 ++ ns)) (render S0) true canon (rem + 1) k =
                  prune_prop_children fuel
                    ⟨updateMask setAllBelow (addr ++ [k]) T1, st.errs,
                      st.fout⟩ addr (render (S0 ++ ns)) (render S0) true
                    canon rem (k + 1) := by
                simp [prune_prop_children, hsib, hsallf, hT1eq]
              have hEu := upd_setAll_Evo1 (addr ++ [k]) T1
              have hmk : markedAt (addr ++ [k])
                  (updateMask setAllBelow (addr ++ [k]) T1) :=
                markedAt_upd_setAll hgs1 (hnonsym1 sib1 hgs1)
              refine hclose ⟨updateMask setAllBelow (addr ++ [k]) T1,
                st.errs, st.fout⟩ hres (hpatch _ hEu hmk) ?_ ?_ ?_ ?_ rfl
                hf0 (fun _ => hmk) (fun h => Bool.noConfusion h)
              · refine GlobalInvL_upd hGI1 ?_ ?_
                · intro b2 ch2 hgd _
                  exfalso
                  rw [hgs1] at hgd
                  have hne : sib1 = INode.dir b2 ch2 := by simpa using hgd
                  have hd : sib1.isDir = false := by
                    rw [(strip_eq_fields hss1).1]
                    rfl
                  rw [hne] at hd
                  exact absurd hd (by simp [INode.isDir])
                · intro n hn hmbn
                  rw [markedB_withMask, hnonsym1 n hn]
                  simp [setAllBelow]
              · refine ChainMX_discharge ?_ (nz_of_markedAt hmk)
                refine ChainMX_upd hCMc ?_ ?_
                · intro n hn _
                  exact Or.inr (fun q hq _ => hEu.2.2.1 q (hanc1 q hq))
                · intro m _
                  exact setAllBelow_nz m
              · exact NoSymAll_upd hNS1 (Or.inr hnonsym1)
              · exact ExactKinds_upd hEK1 (fun m => rfl)
            | device bs =>
              rw [hsibk] at hsib hss1 hsallf hT1eq
              have hnonsym1 : ∀ n, getNode (addr ++ [k]) T1 = some n →
                  n.isSymlink = false := by
                intro n hn
                rw [hgs1] at hn
                have hne : sib1 = n := by simpa using hn
                rw [← hne, (strip_eq_fields hss1).2.1]
                rfl
              have hres : prune_prop_children (fuel + 1) st addr
                  (render (S0 ++ ns)) (render S0) true canon (rem + 1) k =
                  prune_prop_children fuel
                    ⟨updateMask setAllBelow (addr ++ [k]) T1, st.errs,
                      st.fout⟩ addr (render (S0 ++ ns)) (render S0) true
                    canon rem (k + 1) := by
                simp [prune_prop_children, hsib, hsallf, hT1eq]
              have hEu := upd_setAll_Evo1 (addr ++ [k]) T1
              have hmk : markedAt (addr ++ [k])
                  (updateMask setAllBelow (addr ++ [k]) T1) :=
                markedAt_upd_setAll hgs1 (hnonsym1 sib1 hgs1)
              refine hclose ⟨updateMask setAllBelow (addr ++ [k]) T1,
                st.errs, st.fout⟩ hres (hpatch _ hEu hmk) ?_ ?_ ?_ ?_ rfl
                hf0 (fun _ => hmk) (fun h => Bool.noConfusion h)
              · refine GlobalInvL_upd hGI1 ?_ ?_
                · intro b2 ch2 hgd _
                  exfalso
                  rw [hgs1] at hgd
                  have hne : sib1 = INode.dir b2 ch2 := by simpa using hgd
                  have hd : sib1.isDir = false := by
                    rw [(strip_eq_fields hss1).1]
                    rfl
                  rw [hne] at hd
                  exact absurd hd (by simp [INode.isDir])
                · intro n hn hmbn
                  rw [markedB_withMask, hnonsym1 n hn]
                  simp [setAllBelow]
              · refine ChainMX_discharge ?_ (nz_of_markedAt hmk)
                refine ChainMX_upd hCMc ?_ ?_
                · intro n hn _
                  exact Or.inr (fun q hq _ => hEu.2.2.1 q (hanc1 q hq))
                · intro m _
                  exact setAllBelow_nz m
              · exact NoSymAll_upd hNS1 (Or.inr hnonsym1)
              · exact ExactKinds_upd hEK1 (fun m => rfl)
            | fifosocket bs =>
              rw [hsibk] at hsib hss1 hsallf hT1eq
              have hnonsym1 : ∀ n, getNode (addr ++ [k]) T1 = some n →
                  n.isSymlink = false := by
                intro n hn
                rw [hgs1] at hn
                have hne : sib1 = n := by simpa using hn
                rw [← hne, (strip_eq_fields hss1).2.1]
                rfl
              have hres : prune_prop_children (fuel + 1) st addr
                  (render (S0 ++ ns)) (render S0) true canon (rem + 1) k =
                  prune_prop_children fuel
                    ⟨updateMask setAllBelow (addr ++ [k]) T1, st.errs,
                      st.fout⟩ addr (render (S0 ++ ns)) (render S0) true
                    canon rem (k + 1) := by
                simp [prune_prop_children, hsib, hsallf, hT1eq]
              have hEu := upd_setAll_Evo1 (addr ++ [k]) T1
              have hmk : markedAt (addr ++ [k])
                  (updateMask setAllBelow (addr ++ [k]) T1) :=
                markedAt_upd_setAll hgs1 (hnonsym1 sib1 hgs1)
              refine hclose ⟨updateMask setAllBelow (addr ++ [k]) T1,
                st.errs, st.fout⟩ hres (hpatch _ hEu hmk) ?_ ?_ ?_ ?_ rfl
                hf0 (fun _ => hmk) (fun h => Bool.noConfusion h)
              · refine GlobalInvL_upd hGI1 ?_ ?_
                · intro b2 ch2 hgd _
                  exfalso
                  rw [hgs1] at hgd
                  have hne : sib1 = INode.dir b2 ch2 := by simpa using hgd
                  have hd : sib1.isDir = false := by
                    rw [(strip_eq_fields hss1).1]
                    rfl
                  rw [hne] at hd
                  exact absurd hd (by simp [INode.isDir])
                · intro n hn hmbn
                  rw [markedB_withMask, hnonsym1 n hn]
                  simp [setAllBelow]
              · refine ChainMX_discharge ?_ (nz_of_markedAt hmk)
                refine ChainMX_upd hCMc ?_ ?_
                · intro n hn _
                  exact Or.inr (fun q hq _ => hEu.2.2.1 q (hanc1 q hq))
                · intro m _
                  exact setAllBelow_nz m
              · exact NoSymAll_upd hNS1 (Or.inr hnonsym1)
              · exact ExactKinds_upd hEK1 (fun m => rfl)
          | false =>
            have hGIf : GlobalInvL S st.tree := by simpa using hGI
            have hSdf : ∀ s ∈ S, ¬ PrefixOf addr s := hSd rfl
            have hSdc : ∀ s ∈ S, ¬ PrefixOf (addr ++ [k]) s := by
              intro s hs hps
              exact hSdf s hs
                (PrefixOf_trans (PrefixOf_append_self addr [k]) hps)
            cases hsibk : sib with
            | dir bs chs =>
              rw [hsibk] at hsib hsallf
              have hchk : ch[k]? = some (INode.dir bs chs) := by
                rw [← getNode_child hg k]
                exact hsib
              have hdpc : DirPath (addr ++ [k]) (ns ++ [bs.filename])
                  st.tree := DirPath_snoc hdp hg hchk rfl
              set D := prune_prop_dir fuel st (addr ++ [k])
                (render (S0 ++ ns)) (render S0) false canon with hDdef
              have hres : prune_prop_children (fuel + 1) st addr
                  (render (S0 ++ ns)) (render S0) false canon (rem + 1) k =
                  prune_prop_children fuel D addr (render (S0 ++ ns))
                    (render S0) false canon rem (k + 1) := by
                rw [hDdef]
                simp [prune_prop_children, hsib, hsallf]
              have herr2 := herr
              rw [hres] at herr2
              have hf2 := hf1
              rw [hres] at hf2
              have hle1 : st.errs ≤ D.errs := by
                rw [hDdef]
                exact (dir_mono fuel st.tree st.errs st.fout (addr ++ [k])
                  (render (S0 ++ ns)) (render S0) false canon).1
              have hle2 : D.errs ≤ (prune_prop_children fuel D addr
                  (render (S0 ++ ns)) (render S0) false canon rem
                  (k + 1)).errs :=
                (children_mono fuel D.tree D.errs D.fout addr
                  (render (S0 ++ ns)) (render S0) false canon rem
                  (k + 1)).1
              have hDerr : D.errs = st.errs := by omega
              have hDf : D.fout = false := by
                cases hDfc : D.fout
                · rfl
                · exfalso
                  have hDeta : D = ⟨D.tree, D.errs, true⟩ := by
                    rw [← hDfc]
                  rw [hDeta] at hf2
                  have h0 := (children_mono fuel D.tree D.errs true addr
                    (render (S0 ++ ns)) (render S0) false canon rem
                    (k + 1)).2 rfl
                  rw [h0] at hf2
                  exact Bool.noConfusion hf2
              have hds0 := dir_spec fuel st (addr ++ [k])
                (ns ++ [bs.filename]) S0 canon false S
              have hdl : (ns ++ [bs.filename]).dropLast = ns := by simp
              rw [hdl] at hds0
              have hds := hds0 hS0 hS0ne hcanon hw hdpc hGIf hCM hNS hEK
                (fun h => Bool.noConfusion h) (fun h => Bool.noConfusion h)
                (fun _ => hSdc) hf0 (by rw [← hDdef]; exact hDf)
                (by rw [← hDdef]; exact hDerr)
              rcases hds with ⟨hE, ⟨hGIr, hCMr, hNSr, hEKr⟩, _, hmkE⟩
              refine hclose D hres ?_ hGIr hCMr hNSr hEKr hDerr hDf
                (fun h => Bool.noConfusion h) ?_
              · rw [hDdef]
                exact hE
              · intro _ m nm hgm hex hpm
                rw [hDdef]
                exact hmkE rfl m nm hgm hex hpm
            | symlink bs tg =>
              rw [hsibk] at hsib hsallf
              by_cases hsex :
                (INode.symlink bs tg).base.prune_mask.pexact = true
              · -- exact symlink: up-mark, run the handler, maybe mark
                -- the parent chain
                have hmu1 : MaskUp st.tree
                    (updateMask setUpChain (addr ++ [k]) st.tree) :=
                  MaskUp_updUp (addr ++ [k]) st.tree
                have hw2 : wfRoot (updateMask setUpChain (addr ++ [k])
                    st.tree) = true := by
                  rw [wfRoot_congr hmu1.1]
                  exact hw
                have hdp2 := DirPath_congr hmu1.1 hdp
                cases hflag : prune_prop_symlink fuel
                    ⟨updateMask setUpChain (addr ++ [k]) st.tree,
                      st.errs, st.fout⟩ (addr ++ [k]) (render (S0 ++ ns))
                    (render S0) canon with
                | mk st3 fl =>
                  have hle1 : st.errs ≤ st3.errs := by
                    have h0 := (symlink_mono fuel
                      (updateMask setUpChain (addr ++ [k]) st.tree)
                      st.errs st.fout (addr ++ [k]) (render (S0 ++ ns))
                      (render S0) canon).1
                    rw [hflag] at h0
                    exact h0
                  cases fl with
                  | false =>
                    have hres : prune_prop_children (fuel + 1) st addr
                        (render (S0 ++ ns)) (render S0) false canon
                        (rem + 1) k =
                        prune_prop_children fuel st3 addr
                          (render (S0 ++ ns)) (render S0) false canon rem
                          (k + 1) := by
                      simp [prune_prop_children, hsib, hsallf, hsex,
                        hflag]
                    have herr2 := herr
                    rw [hres] at herr2
                    have hf2 := hf1
                    rw [hres] at hf2
                    have hle2 : st3.errs ≤ (prune_prop_children fuel st3
                        addr (render (S0 ++ ns)) (render S0) false canon
                        rem (k + 1)).errs :=
                      (children_mono fuel st3.tree st3.errs st3.fout addr
                        (render (S0 ++ ns)) (render S0) false canon rem
                        (k + 1)).1
                    have h3err : st3.errs = st.errs := by omega
                    have h3f : st3.fout = false := by
                      cases h3fc : st3.fout
                      · rfl
                      · exfalso
                        have h3eta : st3 = ⟨st3.tree, st3.errs, true⟩ := by
                          rw [← h3fc]
                        rw [h3eta] at hf2
                        have h0 := (children_mono fuel st3.tree st3.errs
                          true addr (render (S0 ++ ns)) (render S0) false
                          canon rem (k + 1)).2 rfl
                        rw [h0] at hf2
                        exact Bool.noConfusion hf2
                    have hsy := sym_spec fuel
                      ⟨updateMask setUpChain (addr ++ [k]) st.tree,
                        st.errs, st.fout⟩ addr k ns S0 canon S hS0 hS0ne
                      hcanon hw2 hdp2 (MaskUp_GlobalInvL hGIf hmu1)
                      (MaskUp_ChainMX hCM hmu1) (MaskUp_NoSymAll hNS hmu1)
                      (MaskUp_ExactKinds hEK hmu1) hf0
                      (by rw [hflag]; exact h3f)
                      (by rw [hflag]; exact h3err)
                    rw [hflag] at hsy
                    rcases hsy with ⟨hE32, hGIr, hCMr, hNSr, hEKr, hmk3⟩
                    have hEall : Evo1 st.tree st3.tree :=
                      Evo1_trans (MaskUp_Evo1 hmu1) hE32
                    refine hclose st3 hres hEall hGIr hCMr hNSr hEKr h3err
                      h3f (fun h => Bool.noConfusion h) ?_
                    intro _ m nm hgm hex hpm
                    by_cases hmc : m = addr ++ [k]
                    · rw [hmc]
                      exact hmk3
                    · exfalso
                      have hnone := no_node_below_nondir hsib rfl
                        ⟨hpm, fun he => hmc he.symm⟩
                      rw [hnone] at hgm
                      exact Option.noConfusion hgm
                  | true =>
                    have hok2 : okComps (S0 ++ ns) := okComps_append hS0
                      (dirpath_ok (wfDirLevel_of_root hw) hdp)
                    have hres : prune_prop_children (fuel + 1) st addr
                        (render (S0 ++ ns)) (render S0) false canon
                        (rem + 1) k =
                        prune_prop_children fuel
                          ⟨(prune_mark_up_chain st3.tree
                            (render (S0 ++ ns)) (render S0)).1, st3.errs,
                            st3.fout⟩ addr (render (S0 ++ ns)) (render S0)
                          false canon rem (k + 1) := by
                      simp [prune_prop_children, hsib, hsallf, hsex,
                        hflag]
                    have herr2 := herr
                    rw [hres] at herr2
                    have hf2 := hf1
                    rw [hres] at hf2
                    have hle2 : st3.errs ≤ (prune_prop_children fuel
                        ⟨(prune_mark_up_chain st3.tree (render (S0 ++ ns))
                          (render S0)).1, st3.errs, st3.fout⟩ addr
                        (render (S0 ++ ns)) (render S0) false canon rem
                        (k + 1)).errs :=
                      (children_mono fuel (prune_mark_up_chain st3.tree
                        (render (S0 ++ ns)) (render S0)).1 st3.errs
                        st3.fout addr (render (S0 ++ ns)) (render S0)
                        false canon rem (k + 1)).1
                    have h3err : st3.errs = st.errs := by omega
                    have h3f : st3.fout = false := by
                      cases h3fc : st3.fout
                      · rfl
                      · exfalso
                        rw [h3fc] at hf2
                        have h0 := (children_mono fuel
                          (prune_mark_up_chain st3.tree (render (S0 ++ ns))
                            (render S0)).1 st3.errs true addr
                          (render (S0 ++ ns)) (render S0) false canon rem
                          (k + 1)).2 rfl
                        rw [h0] at hf2
                        exact Bool.noConfusion hf2
                    have hsy := sym_spec fuel
                      ⟨updateMask setUpChain (addr ++ [k]) st.tree,
                        st.errs, st.fout⟩ addr k ns S0 canon S hS0 hS0ne
                      hcanon hw2 hdp2 (MaskUp_GlobalInvL hGIf hmu1)
                      (MaskUp_ChainMX hCM hmu1) (MaskUp_NoSymAll hNS hmu1)
                      (MaskUp_ExactKinds hEK hmu1) hf0
                      (by rw [hflag]; exact h3f)
                      (by rw [hflag]; exact h3err)
                    rw [hflag] at hsy
                    rcases hsy with ⟨hE32, hGIr, hCMr, hNSr, hEKr, hmk3⟩
                    have hEall : Evo1 st.tree st3.tree :=
                      Evo1_trans (MaskUp_Evo1 hmu1) hE32
                    have hw3 : wfRoot st3.tree = true := by
                      rw [wfRoot_congr hE32.1]
                      exact hw2
                    have hmuM : MaskUp st3.tree (prune_mark_up_chain
                        st3.tree (render (S0 ++ ns)) (render S0)).1 :=
                      (muc_spec st3.tree S0 (S0 ++ ns) hS0 hok2 hw3).1
                    refine hclose ⟨(prune_mark_up_chain st3.tree
                        (render (S0 ++ ns)) (render S0)).1, st3.errs,
                        st3.fout⟩ hres
                      (Evo1_trans hEall (MaskUp_Evo1 hmuM))
                      (MaskUp_GlobalInvL hGIr hmuM)
                      (MaskUp_ChainMX hCMr hmuM)
                      (MaskUp_NoSymAll hNSr hmuM)
                      (MaskUp_ExactKinds hEKr hmuM) h3err h3f
                      (fun h => Bool.noConfusion h) ?_
                    intro _ m nm hgm hex hpm
                    by_cases hmc : m = addr ++ [k]
                    · rw [hmc]
                      exact markedAt_of_Evo1 hmk3 (MaskUp_Evo1 hmuM)
                    · exfalso
                      have hnone := no_node_below_nondir hsib rfl
                        ⟨hpm, fun he => hmc he.symm⟩
                      rw [hnone] at hgm
                      exact Option.noConfusion hgm
              · -- inexact symlink: the loop leaves it untouched
                have hres : prune_prop_children (fuel + 1) st addr
                    (render (S0 ++ ns)) (render S0) false canon (rem + 1)
                    k =
                    prune_prop_children fuel st addr (render (S0 ++ ns))
                      (render S0) false canon rem (k + 1) := by
                  simp [prune_prop_children, hsib, hsallf, hsex]
                refine hclose st hres (Evo1_refl _) hGI hCM hNS hEK rfl
                  hf0 (fun h => Bool.noConfusion h) ?_
                intro _ m nm hgm hex hpm
                exfalso
                by_cases hmc : m = addr ++ [k]
                · have hgm2 : getNode (addr ++ [k]) st.tree = some nm := by
                    rw [← hmc]
                    exact hgm
                  rw [hsib] at hgm2
                  have hne : INode.symlink bs tg = nm := by simpa using hgm2
                  rw [← hne] at hex
                  simp only [INode.base] at hex
                  exact absurd hex hsex
                · have hnone := no_node_below_nondir hsib rfl
                    ⟨hpm, fun he => hmc he.symm⟩
                  rw [hnone] at hgm
                  exact Option.noConfusion hgm
            | regular bs =>
              rw [hsibk] at hsib hsallf
              set R := prune_prop_reg st (addr ++ [k]) (render (S0 ++ ns))
                (render S0) false with hRdef
              have hres : prune_prop_children (fuel + 1) st addr
                  (render (S0 ++ ns)) (render S0) false canon (rem + 1) k =
                  prune_prop_children fuel R addr (render (S0 ++ ns))
                    (render S0) false canon rem (k + 1) := by
                rw [hRdef]
                simp [prune_prop_children, hsib, hsallf]
              have herr2 := herr
              rw [hres] at herr2
              have hf2 := hf1
              rw [hres] at hf2
              have hle1 : st.errs ≤ R.errs := by
                rw [hRdef]
                exact (reg_mono st.tree st.errs st.fout (addr ++ [k])
                  (render (S0 ++ ns)) (render S0) false).1
              have hle2 : R.errs ≤ (prune_prop_children fuel R addr
                  (render (S0 ++ ns)) (render S0) false canon rem
                  (k + 1)).errs :=
                (children_mono fuel R.tree R.errs R.fout addr
                  (render (S0 ++ ns)) (render S0) false canon rem
                  (k + 1)).1
              have hRerr : R.errs = st.errs := by omega
              have hRf : R.fout = false := by
                rw [hRdef]
                rw [(reg_mono st.tree st.errs st.fout (addr ++ [k])
                  (render (S0 ++ ns)) (render S0) false).2]
                exact hf0
              have hnoall1 : ∀ n, getNode (addr ++ [k]) st.tree = some n →
                  n.base.prune_mask.pallBelow = false := by
                intro n hn
                rw [hsib] at hn
                have hne : INode.regular bs = n := by simpa using hn
                rw [← hne]
                exact hsallf
              have hrs := reg_spec st addr k ns S0 (render S0) false S hS0
                rfl hw hdp hGIf (ChainMX_weaken hCM) hNS hEK
                (fun h => Bool.noConfusion h) hnoall1
                (by rw [← hRdef]; exact hRerr)
              rcases hrs with ⟨hE, ⟨hGIr, hCMr, hNSr, hEKr⟩, _, hmkE⟩
              refine hclose R hres ?_ hGIr hCMr hNSr hEKr hRerr hRf
                (fun h => Bool.noConfusion h) ?_
              · rw [hRdef]
                exact hE
              · intro _ m nm hgm hex hpm
                by_cases hmc : m = addr ++ [k]
                · subst hmc
                  rw [hRdef]
                  exact hmkE rfl nm hgm hex
                · exfalso
                  have hnone := no_node_below_nondir hsib rfl
                    ⟨hpm, fun he => hmc he.symm⟩
                  rw [hnone] at hgm
                  exact Option.noConfusion hgm
            | other bs =>
              rw [hsibk] at hsib hsallf
              have hres : prune_prop_children (fuel + 1) st addr
                  (render (S0 ++ ns)) (render S0) false canon (rem + 1) k =
                  prune_prop_children fuel st addr (render (S0 ++ ns))
                    (render S0) false canon rem (k + 1) := by
                simp [prune_prop_children, hsib, hsallf]
              refine hclose st hres (Evo1_refl _) hGI hCM hNS hEK rfl hf0
                (fun h => Bool.noConfusion h) ?_
              intro _ m nm hgm hex hpm
              exfalso
              by_cases hmc : m = addr ++ [k]
              · have hgm2 : getNode (addr ++ [k]) st.tree = some nm := by
                  rw [← hmc]
                  exact hgm
                rw [hsib] at hgm2
                have hne : INode.other bs = nm := by simpa using hgm2
                rcases hEK m nm hgm hex with hd | hs | hr
                · rw [← hne] at hd
                  exact absurd hd (by simp [INode.isDir])
                · rw [← hne] at hs
                  exact absurd hs (by simp [INode.isSymlink])
                · rw [← hne] at hr
                  exact absurd hr (by simp [INode.isRegular])
              · have hnone := no_node_below_nondir hsib rfl
                  ⟨hpm, fun he => hmc he.symm⟩
                rw [hnone] at hgm
                exact Option.noConfusion hgm
            | device bs =>
              rw [hsibk] at hsib hsallf
              have hres : prune_prop_children (fuel + 1) st addr
                  (render (S0 ++ ns)) (render S0) false canon (rem + 1) k =
                  prune_prop_children fuel st addr (render (S0 ++ ns))
                    (render S0) false canon rem (k + 1) := by
                simp [prune_prop_children, hsib, hsallf]
              refine hclose st hres (Evo1_refl _) hGI hCM hNS hEK rfl hf0
                (fun h => Bool.noConfusion h) ?_
              intro _ m nm hgm hex hpm
              exfalso
              by_cases hmc : m = addr ++ [k]
              · have hgm2 : getNode (addr ++ [k]) st.tree = some nm := by
                  rw [← hmc]
                  exact hgm
                rw [hsib] at hgm2
                have hne : INode.device bs = nm := by simpa using hgm2
                rcases hEK m nm hgm hex with hd | hs | hr
                · rw [← hne] at hd
                  exact absurd hd (by simp [INode.isDir])
                · rw [← hne] at hs
                  exact absurd hs (by simp [INode.isSymlink])
                · rw [← hne] at hr
                  exact absurd hr (by simp [INode.isRegular])
              · have hnone := no_node_below_nondir hsib rfl
                  ⟨hpm, fun he => hmc he.symm⟩
                rw [hnone] at hgm
                exact Option.noConfusion hgm
            | fifosocket bs =>
              rw [hsibk] at hsib hsallf
              have hres : prune_prop_children (fuel + 1) st addr
                  (render (S0 ++ ns)) (render S0) false canon (rem + 1) k =
                  prune_prop_children fuel st addr (render (S0 ++ ns))
                    (render S0) false canon rem (k + 1) := by
                simp [prune_prop_children, hsib, hsallf]
              refine hclose st hres (Evo1_refl _) hGI hCM hNS hEK rfl hf0
                (fun h => Bool.noConfusion h) ?_
              intro _ m nm hgm hex hpm
              exfalso
              by_cases hmc : m = addr ++ [k]
              · have hgm2 : getNode (addr ++ [k]) st.tree = some nm := by
                  rw [← hmc]
                  exact hgm
                rw [hsib] at hgm2
                have hne : INode.fifosocket bs = nm := by simpa using hgm2
                rcases hEK m nm hgm hex with hd | hs | hr
                · rw [← hne] at hd
                  exact absurd hd (by simp [INode.isDir])
                · rw [← hne] at hs
                  exact absurd hs (by simp [INode.isSymlink])
                · rw [← hne] at hr
                  exact absurd hr (by simp [INode.isRegular])
              · have hnone := no_node_below_nondir hsib rfl
                  ⟨hpm, fun he => hmc he.symm⟩
                rw [hnone] at hgm
                exact Option.noConfusion hgm

/-- Specification of prune_prop_symlink: an error-free run preserves the
pack, evolves masks monotonically and marks the symlink with up_chain. -/
theorem sym_spec : ∀ (fuel : Nat) (st : PSt) (pa : List Nat) (k : Nat)
    (ns S0 : List Str) (canon : Str → Option Str) (T : List (List Nat)),
    okComps S0 → S0 ≠ [] → canonOK canon →
    wfRoot st.tree = true →
    DirPath pa ns st.tree →
    GlobalInvL T st.tree →
    ChainMX [] st.tree →
    NoSymAll st.tree → ExactKinds st.tree →
    st.fout = false →
    (prune_prop_symlink fuel st (pa ++ [k]) (render (S0 ++ ns))
      (render S0) canon).1.fout = false →
    (prune_prop_symlink fuel st (pa ++ [k]) (render (S0 ++ ns))
      (render S0) canon).1.errs = st.errs →
    Evo1 st.tree (prune_prop_symlink fuel st (pa ++ [k])
      (render (S0 ++ ns)) (render S0) canon).1.tree ∧
    GlobalInvL T (prune_prop_symlink fuel st (pa ++ [k])
      (render (S0 ++ ns)) (render S0) canon).1.tree ∧
    ChainMX [] (prune_prop_symlink fuel st (pa ++ [k])
      (render (S0 ++ ns)) (render S0) canon).1.tree ∧
    NoSymAll (prune_prop_symlink fuel st (pa ++ [k])
      (render (S0 ++ ns)) (render S0) canon).1.tree ∧
    ExactKinds (prune_prop_symlink fuel st (pa ++ [k])
      (render (S0 ++ ns)) (render S0) canon).1.tree ∧
    markedAt (pa ++ [k]) (prune_prop_symlink fuel st (pa ++ [k])
      (render (S0 ++ ns)) (render S0) canon).1.tree
  | 0, st, pa, k, ns, S0, canon, T => by
      intro hS0 hS0ne hcanon hw hdp hGI hCM hNS hEK hf0 hf1 herr
      exact absurd hf1 (by simp [prune_prop_symlink])
  | fuel + 1, st, pa, k, ns, S0, canon, T => by
      intro hS0 hS0ne hcanon hw hdp hGI hCM hNS hEK hf0 hf1 herr
      cases hgs : getNode (pa ++ [k]) st.tree with
      | none =>
        have hres : prune_prop_symlink (fuel + 1) st (pa ++ [k])
            (render (S0 ++ ns)) (render S0) canon =
            (⟨st.tree, st.errs + 1, st.fout⟩, false) := by
          simp [prune_prop_symlink, hgs]
        rw [hres] at herr
        exact absurd herr (by simp)
      | some n =>
        cases n with
        | other bb =>
          have hres : prune_prop_symlink (fuel + 1) st (pa ++ [k])
              (render (S0 ++ ns)) (render S0) canon =
              (⟨st.tree, st.errs + 1, st.fout⟩, false) := by
            simp [prune_prop_symlink, hgs]
          rw [hres] at herr
          exact absurd herr (by simp)
        | dir bb chh =>
          have hres : prune_prop_symlink (fuel + 1) st (pa ++ [k])
              (render (S0 ++ ns)) (render S0) canon =
              (⟨st.tree, st.errs + 1, st.fout⟩, false) := by
            simp [prune_prop_symlink, hgs]
          rw [hres] at herr
          exact absurd herr (by simp)
        | device bb =>
          have hres : prune_prop_symlink (fuel + 1) st (pa ++ [k])
              (render (S0 ++ ns)) (render S0) canon =
              (⟨st.tree, st.errs + 1, st.fout⟩, false) := by
            simp [prune_prop_symlink, hgs]
          rw [hres] at herr
          exact absurd herr (by simp)
        | fifosocket bb =>
          have hres : prune_prop_symlink (fuel + 1) st (pa ++ [k])
              (render (S0 ++ ns)) (render S0) canon =
              (⟨st.tree, st.errs + 1, st.fout⟩, false) := by
            simp [prune_prop_symlink, hgs]
          rw [hres] at herr
          exact absurd herr (by simp)
        | regular bb =>
          have hres : prune_prop_symlink (fuel + 1) st (pa ++ [k])
              (render (S0 ++ ns)) (render S0) canon =
              (⟨st.tree, st.errs + 1, st.fout⟩, false) := by
            simp [prune_prop_symlink, hgs]
          rw [hres] at herr
          exact absurd herr (by simp)
        | symlink bsym target =>
          have hmu1 : MaskUp st.tree
              (updateMask setUpChain (pa ++ [k]) st.tree) :=
            MaskUp_updUp (pa ++ [k]) st.tree
          have hg1 : getNode (pa ++ [k])
              (updateMask setUpChain (pa ++ [k]) st.tree) =
              some ((INode.symlink bsym target).withMask
                (setUpChain bsym.prune_mask)) := by
            rw [getNode_updateMask_self, hgs]
            rfl
          have hmk1 : markedAt (pa ++ [k])
              (updateMask setUpChain (pa ++ [k]) st.tree) :=
            ⟨_, hg1, rfl⟩
          have hGI1 := MaskUp_GlobalInvL hGI hmu1
          have hCM1 := MaskUp_ChainMX hCM hmu1
          have hNS1 := MaskUp_NoSymAll hNS hmu1
          have hEK1 := MaskUp_ExactKinds hEK hmu1
          have hw1 : wfRoot (updateMask setUpChain (pa ++ [k])
              st.tree) = true := by
            rw [wfRoot_congr hmu1.1]
            exact hw
          -- the st1-only exits share one closing move
          have hst1fin :
              prune_prop_symlink (fuel + 1) st (pa ++ [k])
                (render (S0 ++ ns)) (render S0) canon =
              (⟨updateMask setUpChain (pa ++ [k]) st.tree, st.errs,
                st.fout⟩, false) →
              Evo1 st.tree (prune_prop_symlink (fuel + 1) st (pa ++ [k])
                (render (S0 ++ ns)) (render S0) canon).1.tree ∧
              GlobalInvL T (prune_prop_symlink (fuel + 1) st (pa ++ [k])
                (render (S0 ++ ns)) (render S0) canon).1.tree ∧
              ChainMX [] (prune_prop_symlink (fuel + 1) st (pa ++ [k])
                (render (S0 ++ ns)) (render S0) canon).1.tree ∧
              NoSymAll (prune_prop_symlink (fuel + 1) st (pa ++ [k])
                (render (S0 ++ ns)) (render S0) canon).1.tree ∧
              ExactKinds (prune_prop_symlink (fuel + 1) st (pa ++ [k])
                (render (S0 ++ ns)) (render S0) canon).1.tree ∧
              markedAt (pa ++ [k]) (prune_prop_symlink (fuel + 1) st
                (pa ++ [k]) (render (S0 ++ ns)) (render S0) canon).1.tree
            := by
            intro hres
            rw [hres]
            exact ⟨MaskUp_Evo1 hmu1, hGI1, hCM1, hNS1, hEK1, hmk1⟩
          cases hcn : canon (if isRelativePath target = true
              then fsPathJoin (render (S0 ++ ns)) target else target) with
          | none =>
            refine hst1fin ?_
            simp [prune_prop_symlink, hgs, hcn]
          | some target_c =>
            by_cases hpcc : path_contains_canon (render S0) target_c = true
            · by_cases hseq : render S0 = target_c
              · refine hst1fin ?_
                simp [prune_prop_symlink, hgs, hcn, hpcc, hseq]
              · rcases hcanon _ target_c hcn with ⟨T2, hT2ok, hT2eq⟩
                subst hT2eq
                cases hmuc : prune_mark_up_chain
                    (updateMask setUpChain (pa ++ [k]) st.tree)
                    (render T2) (render S0) with
                | mk t2 r =>
                  have hspec := muc_spec
                    (updateMask setUpChain (pa ++ [k]) st.tree)
                    S0 T2 hS0 hT2ok hw1
                  rw [hmuc] at hspec
                  have hmu2 : MaskUp (updateMask setUpChain (pa ++ [k])
                      st.tree) t2 := hspec.1
                  have hmuA : MaskUp st.tree t2 := MaskUp_trans hmu1 hmu2
                  have hmk2 : markedAt (pa ++ [k]) t2 :=
                    markedAt_of_Evo1 hmk1 (MaskUp_Evo1 hmu2)
                  -- the t2-only exits also share a closing move
                  have ht2fin :
                      prune_prop_symlink (fuel + 1) st (pa ++ [k])
                        (render (S0 ++ ns)) (render S0) canon =
                      (⟨t2, st.errs, st.fout⟩, false) →
                      Evo1 st.tree (prune_prop_symlink (fuel + 1) st
                        (pa ++ [k]) (render (S0 ++ ns)) (render S0)
                        canon).1.tree ∧
                      GlobalInvL T (prune_prop_symlink (fuel + 1) st
                        (pa ++ [k]) (render (S0 ++ ns)) (render S0)
                        canon).1.tree ∧
                      ChainMX [] (prune_prop_symlink (fuel + 1) st
                        (pa ++ [k]) (render (S0 ++ ns)) (render S0)
                        canon).1.tree ∧
                      NoSymAll (prune_prop_symlink (fuel + 1) st
                        (pa ++ [k]) (render (S0 ++ ns)) (render S0)
                        canon).1.tree ∧
                      ExactKinds (prune_prop_symlink (fuel + 1) st
                        (pa ++ [k]) (render (S0 ++ ns)) (render S0)
                        canon).1.tree ∧
                      markedAt (pa ++ [k]) (prune_prop_symlink (fuel + 1)
                        st (pa ++ [k]) (render (S0 ++ ns)) (render S0)
                        canon).1.tree := by
                    intro hres
                    rw [hres]
                    exact ⟨MaskUp_Evo1 hmuA, MaskUp_GlobalInvL hGI hmuA,
                      MaskUp_ChainMX hCM hmuA, MaskUp_NoSymAll hNS hmuA,
                      MaskUp_ExactKinds hEK hmuA, hmk2⟩
                  cases r with
                  | err =>
                    refine ht2fin ?_
                    simp [prune_prop_symlink, hgs, hcn, hpcc, hseq, hmuc]
                  | foundReg ra =>
                    rcases hspec.2.2 ra rfl with
                      ⟨⟨nr, hgnr, hnrreg⟩, hmarksR⟩
                    rcases MaskUp_node hmu2 hgnr with ⟨nr2, hgnr2, hsnr2, _⟩
                    have hnr2reg : nr2.isRegular = true := by
                      rw [(strip_eq_fields hsnr2).2.2.1]
                      exact hnrreg
                    have hnr2nsym : ∀ n2, getNode ra t2 = some n2 →
                        n2.isSymlink = false := by
                      intro n2 hg2
                      rw [hgnr2] at hg2
                      have hne : nr2 = n2 := by simpa using hg2
                      rw [← hne]
                      rcases isRegular_ctor hnr2reg with ⟨bq, hbq⟩
                      rw [hbq]
                      rfl
                    have hnr2ndir : nr2.isDir = false := by
                      rcases isRegular_ctor hnr2reg with ⟨bq, hbq⟩
                      rw [hbq]
                      rfl
                    have hres : prune_prop_symlink (fuel + 1) st (pa ++ [k])
                        (render (S0 ++ ns)) (render S0) canon =
                        (⟨updateMask setAllBelow ra t2, st.errs,
                          st.fout⟩, true) := by
                      simp [prune_prop_symlink, hgs, hcn, hpcc, hseq, hmuc]
                    rw [hres]
                    have hEu := upd_setAll_Evo1 ra t2
                    refine ⟨Evo1_trans (MaskUp_Evo1 hmuA) hEu, ?_, ?_, ?_,
                      ?_, markedAt_of_Evo1 hmk2 hEu⟩
                    · refine GlobalInvL_upd (MaskUp_GlobalInvL hGI hmuA)
                        ?_ ?_
                      · intro b2 ch2 hgd _
                        exfalso
                        rw [hgnr2] at hgd
                        have hne : nr2 = INode.dir b2 ch2 := by
                          simpa using hgd
                        rw [hne] at hnr2ndir
                        exact absurd hnr2ndir (by simp [INode.isDir])
                      · intro n2 hg2 hmb2
                        rw [markedB_withMask, hnr2nsym n2 hg2]
                        simp [setAllBelow]
                    · refine ChainMX_upd (MaskUp_ChainMX hCM hmuA) ?_ ?_
                      · intro n2 hg2 _
                        refine Or.inr (fun q hq _ => ?_)
                        exact hEu.2.2.1 q (hmarksR q hq)
                      · intro m _
                        exact setAllBelow_nz _
                    · exact NoSymAll_upd (MaskUp_NoSymAll hNS hmuA)
                        (Or.inr hnr2nsym)
                    · exact ExactKinds_upd (MaskUp_ExactKinds hEK hmuA)
                        (fun m => rfl)
                  | foundDir da =>
                    rcases hspec.2.1 da rfl with ⟨hpre, hdpda, hmarksD⟩
                    cases hgd : getNode da t2 with
                    | none =>
                      refine ht2fin ?_
                      simp [prune_prop_symlink, hgs, hcn, hpcc, hseq, hmuc,
                        hgd]
                    | some nd =>
                      by_cases hndall : nd.base.prune_mask.pallBelow = true
                      · refine ht2fin ?_
                        simp [prune_prop_symlink, hgs, hcn, hpcc, hseq,
                          hmuc, hgd, hndall]
                      · -- the jump into the target directory
                        have hT2dec : T2 = S0 ++ T2.drop S0.length :=
                          prefix_decomp hpre
                        have hensne : T2.drop S0.length ≠ [] := by
                          intro he
                          apply hseq
                          conv_rhs => rw [hT2dec, he, List.append_nil]
                        rcases List.eq_nil_or_concat
                            (T2.drop S0.length) with he | ⟨E0, c, hE⟩
                        · exact absurd he hensne
                        rw [List.concat_eq_append] at hE
                        rw [hE] at hT2dec
                        have hdle : (T2.drop S0.length).dropLast = E0 := by
                          rw [hE]
                          exact List.dropLast_concat
                        have hcmem : okComp c := by
                          refine hT2ok c ?_
                          rw [hT2dec]
                          refine List.mem_append_right S0 ?_
                          exact List.mem_append_right E0 (by simp)
                        have hpp : parent_path (render T2) =
                            render (S0 ++ (T2.drop S0.length).dropLast)
                            := by
                          rw [hdle, hT2dec, ← List.append_assoc]
                          exact parent_path_render _ _ hcmem
                        have hres : prune_prop_symlink (fuel + 1) st
                            (pa ++ [k]) (render (S0 ++ ns)) (render S0)
                            canon =
                            (prune_prop_dir fuel ⟨t2, st.errs, st.fout⟩
                              da (render (S0 ++ (T2.drop
                                S0.length).dropLast)) (render S0) true
                              canon, true) := by
                          rw [← hpp]
                          simp [prune_prop_symlink, hgs, hcn, hpcc, hseq,
                            hmuc, hgd, hndall]
                        rw [hres] at herr hf1 ⊢
                        have hdp2 : DirPath da (T2.drop S0.length) t2 :=
                          DirPath_congr hmu2.1 hdpda
                        have hw2 : wfRoot t2 = true := by
                          rw [wfRoot_congr hmuA.1]
                          exact hw
                        have hGIda : GlobalInvL (if true = true
                            then da :: T else T) t2 := by
                          simp only [if_pos]
                          exact GlobalInvL_weaken (MaskUp_GlobalInvL hGI
                            hmuA)
                        have hCMda : ChainMX (if true = true then [da]
                            else []) t2 := by
                          simp only [if_pos]
                          exact ChainMX_weaken (MaskUp_ChainMX hCM hmuA)
                        have hndall2 : (true : Bool) = true → ∀ n2,
                            getNode da t2 = some n2 →
                            n2.base.prune_mask.pallBelow = false := by
                          intro _ n2 hg2
                          rw [hgd] at hg2
                          have hne : nd = n2 := by simpa using hg2
                          rw [← hne]
                          exact (Bool.not_eq_true _).mp hndall
                        have hds := dir_spec fuel ⟨t2, st.errs, st.fout⟩
                          da (T2.drop S0.length) S0 canon true T hS0 hS0ne
                          hcanon hw2 hdp2 hGIda hCMda
                          (MaskUp_NoSymAll hNS hmuA)
                          (MaskUp_ExactKinds hEK hmuA)
                          (fun _ q hq => hmarksD q hq.1)
                          hndall2
                          (fun h => Bool.noConfusion h)
                          hf0 hf1 herr
                        rcases hds with ⟨hE, ⟨hGIr, hCMr, hNSr, hEKr⟩,
                          hmkD, _⟩
                        exact ⟨Evo1_trans (MaskUp_Evo1 hmuA) hE, hGIr,
                          hCMr, hNSr, hEKr, markedAt_of_Evo1 hmk2 hE⟩
            · refine hst1fin ?_
              simp [prune_prop_symlink, hgs, hcn, hpcc]

end

theorem ancestor_dir {t : INode} {m q : List Nat} {n : INode}
    (hg : getNode m t = some n) (hq : ProperPrefixOf q m) :
    ∃ bq chq, getNode q t = some (INode.dir bq chq) := by
  rcases ProperPrefixOf_decomp hq with ⟨e, hme, hene⟩
  subst hme
  rw [getNode_append] at hg
  cases hgq : getNode q t with
  | none =>
    rw [hgq] at hg
    exact absurd hg (by simp)
  | some nq =>
    rw [hgq] at hg
    cases e with
    | nil => exact absurd rfl hene
    | cons i e2 =>
      simp only [Option.bind] at hg
      cases nq with
      | dir bq chq => exact ⟨bq, chq, rfl⟩
      | other bb =>
        rw [@getNode_cons_nondir (INode.other bb) rfl i e2] at hg
        exact absurd hg (by simp)
      | symlink bb tz =>
        rw [@getNode_cons_nondir (INode.symlink bb tz) rfl i e2] at hg
        exact absurd hg (by simp)
      | device bb =>
        rw [@getNode_cons_nondir (INode.device bb) rfl i e2] at hg
        exact absurd hg (by simp)
      | fifosocket bb =>
        rw [@getNode_cons_nondir (INode.fifosocket bb) rfl i e2] at hg
        exact absurd hg (by simp)
      | regular bb =>
        rw [@getNode_cons_nondir (INode.regular bb) rfl i e2] at hg
        exact absurd hg (by simp)

/-- C2 (amended): after an error-free prune-propagation pass started
without take-all on a well-formed cache carrying no all_below marks
(before pass 2 the masks hold only pass-1 exact bits plus up_chain
premarks such as the one main puts on the cache root,
clone_pseudo_fs.cpp:3913-3914), every exact node and each of its
descendants is marked -- all_below for non-symlinks, but only up_chain
for symlinks -- and every ancestor of a non-symlink exact node carries
up_chain or all_below. -/
theorem C2_prune_propagation (fuel : Nat) (t : INode) (S0 : List Str)
    (canon : Str → Option Str) (hS0 : okComps S0) (hS0ne : S0 ≠ [])
    (hcanon : canonOK canon) (hw : wfRoot t = true)
    (hinit : ∀ p n, getNode p t = some n →
      n.base.prune_mask.pallBelow = false)
    (hEK : ExactKinds t)
    (hfr : (prune_pass fuel t (render S0) false canon).fout = false)
    (herr : (prune_pass fuel t (render S0) false canon).errs = 0) :
    ∀ m nm, getNode m t = some nm → nm.base.prune_mask.pexact = true →
      (∀ e n2, getNode (m ++ e)
        (prune_pass fuel t (render S0) false canon).tree = some n2 →
        markedB n2 = true) ∧
      (nm.isSymlink = false → ∀ q, ProperPrefixOf q m →
        ∃ mk, maskAt q (prune_pass fuel t (render S0) false canon).tree =
          some mk ∧ (mk.pupChain = true ∨ mk.pallBelow = true)) := by
  rcases wf_root_dir hw with ⟨br, chr, htr, hrt, hnd, hwl⟩
  have hdproot : DirPath [] [] t := ⟨rfl, by rw [htr]; rfl⟩
  have hGI0 : GlobalInvL [] t := by
    intro p bp chp hgp hbp _
    exfalso
    have h0 := hinit p (INode.dir bp chp) hgp
    simp only [INode.base] at h0
    rw [h0] at hbp
    exact Bool.noConfusion hbp
  have hCM0 : ChainMX [] t := by
    intro p np hgp hbp q hq _
    exfalso
    have h0 := hinit p np hgp
    rw [h0] at hbp
    exact Bool.noConfusion hbp
  have hNS0 : NoSymAll t := fun p bz tz hg => hinit p _ hg
  have hds0 := dir_spec fuel ⟨t, 0, false⟩ [] [] S0 canon false []
  rw [show render (S0 ++ List.dropLast []) = render S0 from by simp]
    at hds0
  have hds := hds0 hS0 hS0ne hcanon hw hdproot hGI0 hCM0 hNS0 hEK
    (fun h => Bool.noConfusion h) (fun h => Bool.noConfusion h)
    (fun _ s hs => absurd hs (List.not_mem_nil s)) rfl hfr herr
  rcases hds with ⟨hE, ⟨hGIr, hCMr, hNSr, hEKr⟩, _, hpay⟩
  intro m nm hgm hex
  have hmkm := hpay rfl m nm hgm hex rfl
  constructor
  · intro e n2 hg2
    rcases hmkm with ⟨na, hga, hmba⟩
    exact deep_marked hGIr e m na hga hmba
      (fun s hs => absurd hs (List.not_mem_nil s)) n2 hg2
  · intro hnsym q hq
    rcases hmkm with ⟨na, hga, hmba⟩
    have hna : na.isSymlink = false := by
      rcases strip_node_eq hE.1 hgm with ⟨na2, hga2, hsna⟩
      rw [hga] at hga2
      have hne : na = na2 := by simpa using hga2
      rw [hne, (strip_eq_fields hsna).2.1]
      exact hnsym
    have hnaall : na.base.prune_mask.pallBelow = true := by
      rw [markedB_eq, if_neg (by simp [hna])] at hmba
      exact hmba
    rcases hCMr m na hga hnaall q hq (by simp) with ⟨mk, hmk, hz⟩
    refine ⟨mk, hmk, ?_⟩
    by_cases hexq : mk.pexact = true
    · obtain ⟨bq, chq, hgq⟩ := ancestor_dir hgm hq
      have hexq0 : bq.prune_mask.pexact = true := by
        rcases hE.2.1 q bq.prune_mask
          (maskAt_some.mpr ⟨INode.dir bq chq, hgq, rfl⟩) with
          ⟨m2, hm2, hexeq, _⟩
        rw [hmk] at hm2
        have hme : mk = m2 := by simpa using hm2
        rw [← hexeq, ← hme]
        exact hexq
      rcases hpay rfl q (INode.dir bq chq) hgq hexq0 rfl with
        ⟨nq, hgnq, hmbq⟩
      have hnqd : nq.isSymlink = false := by
        rcases strip_node_eq hE.1 hgq with ⟨nq2, hgq2, hsq⟩
        rw [hgnq] at hgq2
        have hne : nq = nq2 := by simpa using hgq2
        rw [hne, (strip_eq_fields hsq).2.1]
        rfl
      have hnqall : nq.base.prune_mask.pallBelow = true := by
        rw [markedB_eq, if_neg (by simp [hnqd])] at hmbq
        exact hmbq
      right
      have hmk2 : maskAt q (prune_pass fuel t (render S0) false
          canon).tree = some nq.base.prune_mask :=
        maskAt_some.mpr ⟨nq, hgnq, rfl⟩
      have hme2 : mk = nq.base.prune_mask := by
        have h0 := hmk.symm.trans hmk2
        simpa using h0
      rw [hme2]
      exact hnqall
    · rw [mask_nz_iff] at hz
      rcases hz with h | h | h
      · exact absurd h hexq
      · exact Or.inr h
      · exact Or.inl h

/-- A cache on which the original C2 claim fails: the directory at
address [0] is prune-exact, the pass finishes without error, yet its
symlink child at [0, 0] ends with only up_chain set, not all_below. -/
theorem C2_counterexample :
    (prune_pass 10
      (INode.dir ⟨['r'], ⟨false, false, false⟩, true⟩
        [INode.dir ⟨['d'], ⟨true, false, false⟩, false⟩
          [INode.symlink ⟨['s'], ⟨false, false, false⟩, false⟩
            ['/', 'o']]])
      (render [['r']]) false (fun p => some p)).errs = 0 ∧
    (prune_pass 10
      (INode.dir ⟨['r'], ⟨false, false, false⟩, true⟩
        [INode.dir ⟨['d'], ⟨true, false, false⟩, false⟩
          [INode.symlink ⟨['s'], ⟨false, false, false⟩, false⟩
            ['/', 'o']]])
      (render [['r']]) false (fun p => some p)).fout = false ∧
    maskAt [0] (prune_pass 10
      (INode.dir ⟨['r'], ⟨false, false, false⟩, true⟩
        [INode.dir ⟨['d'], ⟨true, false, false⟩, false⟩
          [INode.symlink ⟨['s'], ⟨false, false, false⟩, false⟩
            ['/', 'o']]])
      (render [['r']]) false (fun p => some p)).tree =
      some ⟨true, true, false⟩ ∧
    maskAt [0, 0] (prune_pass 10
      (INode.dir ⟨['r'], ⟨false, false, false⟩, true⟩
        [INode.dir ⟨['d'], ⟨true, false, false⟩, false⟩
          [INode.symlink ⟨['s'], ⟨false, false, false⟩, false⟩
            ['/', 'o']]])
      (render [['r']]) false (fun p => some p)).tree =
      some ⟨false, false, true⟩ := by
  decide

/-- The witness cache for C2: a root premarked with up_chain (as main
does when --prune is given) holding one prune-exact regular child. -/
def W2tree : INode :=
  INode.dir ⟨['r'], ⟨false, false, true⟩, true⟩
    [INode.regular ⟨['f'], ⟨true, false, false⟩, false⟩]

theorem C2_prune_propagation_witness :
    markedB (INode.regular ⟨['f'], ⟨true, true, false⟩, false⟩) = true ∧
    (∃ mk, maskAt [] (prune_pass 4 W2tree (render [['r']]) false
      (fun _ => none)).tree = some mk ∧
      (mk.pupChain = true ∨ mk.pallBelow = true)) := by
  have hC2 := C2_prune_propagation 4 W2tree [['r']] (fun _ => none)
    (by decide) (by decide) (fun p q h => Option.noConfusion h)
    (by decide)
    (by
      intro p n hg
      cases p with
      | nil =>
        have hne : W2tree = n := by simpa [getNode] using hg
        rw [← hne]
        rfl
      | cons i rest =>
        cases i with
        | zero =>
          cases rest with
          | nil =>
            have hne : INode.regular ⟨['f'], ⟨true, false, false⟩,
                false⟩ = n := by simpa [W2tree, getNode] using hg
            rw [← hne]
            rfl
          | cons j r2 => simp [W2tree, getNode] at hg
        | succ j => simp [W2tree, getNode] at hg)
    (by
      intro p n hg hex
      cases p with
      | nil =>
        exfalso
        have hne : W2tree = n := by simpa [getNode] using hg
        rw [← hne] at hex
        exact absurd hex (by decide)
      | cons i rest =>
        cases i with
        | zero =>
          cases rest with
          | nil =>
            have hne : INode.regular ⟨['f'], ⟨true, false, false⟩,
                false⟩ = n := by simpa [W2tree, getNode] using hg
            rw [← hne]
            exact Or.inr (Or.inr rfl)
          | cons j r2 => simp [W2tree, getNode] at hg
        | succ j => simp [W2tree, getNode] at hg)
    (by decide) (by decide)
    [0] (INode.regular ⟨['f'], ⟨true, false, false⟩, false⟩)
    rfl (by decide)
  exact ⟨hC2.1 [] (INode.regular ⟨['f'], ⟨true, true, false⟩, false⟩)
    rfl, hC2.2 (by decide) [] (by decide)⟩

/-- The retention test of the unroller (clone_pseudo_fs.cpp:2928, 2942):
with --prune given, a cached node is emitted iff its prune mask is
nonzero. -/
def unroll_keep (prune_given : Bool) (n : INode) : Bool :=
  !(prune_given && n.base.prune_mask.isZero)

/-- C8: a --prune argument equal to the source root makes cache_src set
prune_take_all (the root find_in_sorted_vec probe reports a hit), and an
error-free take-all pass on a cache with no all_below marks (up_chain
premarks such as main's on the cache root are allowed) leaves every
cached node with a nonzero mask, so the unroller retains every node. -/
theorem C8_prune_source_take_all (prune_v : List Str) (fuel : Nat)
    (t : INode) (S0 : List Str) (canon : Str → Option Str)
    (hsv : SortedStrs prune_v) (hmem : render S0 ∈ prune_v)
    (hS0 : okComps S0) (hS0ne : S0 ≠ []) (hcanon : canonOK canon)
    (hw : wfRoot t = true)
    (hinit : ∀ p n, getNode p t = some n →
      n.base.prune_mask.pallBelow = false)
    (hEK : ExactKinds t)
    (hfr : (prune_pass fuel t (render S0)
      (find_in_sorted_vec prune_v (render S0) true).1.1 canon).fout =
      false)
    (herr : (prune_pass fuel t (render S0)
      (find_in_sorted_vec prune_v (render S0) true).1.1 canon).errs =
      0) :
    (find_in_sorted_vec prune_v (render S0) true).1.1 = true ∧
    ∀ p n, getNode p (prune_pass fuel t (render S0)
      (find_in_sorted_vec prune_v (render S0) true).1.1 canon).tree =
      some n → unroll_keep true n = true := by
  have hta : (find_in_sorted_vec prune_v (render S0) true).1.1 = true :=
    find_in_sorted_vec_found hsv hmem true
  rw [hta] at hfr herr
  refine ⟨hta, ?_⟩
  rw [hta]
  rcases wf_root_dir hw with ⟨br, chr, htr, hrt, hnd, hwl⟩
  have hdproot : DirPath [] [] t := ⟨rfl, by rw [htr]; rfl⟩
  have hGI0 : GlobalInvL [[]] t := by
    intro p bp chp hgp hbp _
    exfalso
    have h0 := hinit p (INode.dir bp chp) hgp
    simp only [INode.base] at h0
    rw [h0] at hbp
    exact Bool.noConfusion hbp
  have hCM0 : ChainMX [[]] t := by
    intro p np hgp hbp q hq _
    exfalso
    have h0 := hinit p np hgp
    rw [h0] at hbp
    exact Bool.noConfusion hbp
  have hNS0 : NoSymAll t := fun p bz tz hg => hinit p _ hg
  have hds0 := dir_spec fuel ⟨t, 0, false⟩ [] [] S0 canon true []
  rw [show render (S0 ++ List.dropLast []) = render S0 from by simp]
    at hds0
  have hds := hds0 hS0 hS0ne hcanon hw hdproot hGI0 hCM0 hNS0 hEK
    (fun _ q hq => absurd (ProperPrefixOf_length_lt hq) (by simp))
    (fun _ n hg => hinit [] n hg)
    (fun h => Bool.noConfusion h) rfl hfr herr
  rcases hds with ⟨hE, ⟨hGIr, _, _, _⟩, hmk, _⟩
  intro p n hgp
  have hmb : markedB n = true := by
    rcases hmk rfl with ⟨na, hga, hmba⟩
    exact deep_marked hGIr p [] na hga hmba
      (fun s hs => absurd hs (List.not_mem_nil s)) n hgp
  have hnz := markedB_nonzero hmb
  simp [unroll_keep, hnz]

/-- The witness cache for C8: a root premarked with up_chain (as main
does when --prune is given) holding one unmarked regular child. -/
def W8tree : INode :=
  INode.dir ⟨['r'], ⟨false, false, true⟩, true⟩
    [INode.regular ⟨['f'], ⟨false, false, false⟩, false⟩]

theorem C8_prune_source_take_all_witness :
    (find_in_sorted_vec [render [['r']]] (render [['r']]) true).1.1 =
      true ∧
    ∀ p n, getNode p (prune_pass 4 W8tree (render [['r']])
      (find_in_sorted_vec [render [['r']]] (render [['r']])
        true).1.1 (fun _ => none)).tree = some n →
      unroll_keep true n = true :=
  C8_prune_source_take_all [render [['r']]] 4 W8tree [['r']]
    (fun _ => none) (by decide) (by decide) (by decide) (by decide)
    (fun p q h => Option.noConfusion h) (by decide)
    (by
      intro p n hg
      cases p with
      | nil =>
        have hne : W8tree = n := by simpa [getNode] using hg
        rw [← hne]
        rfl
      | cons i rest =>
        cases i with
        | zero =>
          cases rest with
          | nil =>
            have hne : INode.regular ⟨['f'], ⟨false, false, false⟩,
                false⟩ = n := by simpa [W8tree, getNode] using hg
            rw [← hne]
            rfl
          | cons j r2 => simp [W8tree, getNode] at hg
        | succ j => simp [W8tree, getNode] at hg)
    (by
      intro p n hg hex
      exfalso
      cases p with
      | nil =>
        have hne : W8tree = n := by simpa [getNode] using hg
        rw [← hne] at hex
        exact absurd hex (by decide)
      | cons i rest =>
        cases i with
        | zero =>
          cases rest with
          | nil =>
            have hne : INode.regular ⟨['f'], ⟨false, false, false⟩,
                false⟩ = n := by simpa [W8tree, getNode] using hg
            rw [← hne] at hex
            exact absurd hex (by decide)
          | cons j r2 => simp [W8tree, getNode] at hg
        | succ j => simp [W8tree, getNode] at hg)
    (by decide) (by decide)
